import Mathlib

/-!
# difftrace: scanner and line parser

A shallow embedding of `parser/scanner.go` and `parser/parser.go`.

* The input stream is the list of runes that `bufio.Reader.ReadRune` delivers
  (the input is taken to be valid UTF-8; read errors other than end of stream
  are not modelled).
* A Go `string` is modelled as the list of its runes (`Str`).
* `bufio.Reader` is modelled by the two fields of `Scanner`: the runes not yet
  read, and the rune that `UnreadRune` is able to restore.  As documented for
  `bufio.Reader.UnreadRune`, only the rune returned by the most recent
  `ReadRune` can be unread: a second `UnreadRune` in a row, or an `UnreadRune`
  after a `ReadRune` that failed, returns an error and changes nothing.
* The loops of `Scanner` read one rune per iteration, so they are given the
  number of unread runes plus one as their iteration bound.
* The loops of `Parser.Parse` need not terminate (at end of stream the scanner
  keeps returning `EOF`), so `Parse` takes a bound `fuel` on the iterations of
  each loop and returns `none` when the bound is reached.
-/

namespace Difftrace

/-- A Go string, as the list of its runes. -/
abbrev Str := List Char

/-- Token kinds, `scanner.go` lines 10-27. -/
inductive Token where
  | ILLEGAL
  | EOF
  | NEWLINE
  | WS
  | IDENT
  | MEMADDR
  | OPEN_PAREN
  | CLOSE_PAREN
  | OPEN_BRACE
  | CLOSE_BRACE
  | STRING
  | SEP
  | EQUALS
  | SIGNAL
  deriving DecidableEq

/-- The rune `eof = rune(0)`. -/
def eof : Char := Char.ofNat 0

/-- Errors returned by `Parse`: the package value `ErrEOF`, or a fresh value
made by `errors.New`. -/
inductive Error where
  | ErrEOF
  | errorsNew (msg : String)
  deriving DecidableEq

def isWhitespace (ch : Char) : Bool :=
  ch == ' ' || ch == '\t'

def isLetter (ch : Char) : Bool :=
  (decide (ch ≥ 'a') && decide (ch ≤ 'z')) || (decide (ch ≥ 'A') && decide (ch ≤ 'Z'))

def isDigit (ch : Char) : Bool :=
  decide (ch ≥ '0') && decide (ch ≤ '9')

/-- The state of the `bufio.Reader` behind a `Scanner`: `input` holds the runes
not yet read, `last` the rune that `UnreadRune` restores (`none` when the most
recent reader operation was not a successful `ReadRune`). -/
structure Scanner where
  input : Str
  last : Option Char
  deriving DecidableEq

def NewScanner (r : Str) : Scanner :=
  { input := r, last := none }

namespace Scanner

/-- Reads the next rune: `rune(0)` at end of stream. -/
def read (s : Scanner) : Char × Scanner :=
  match s.input with
  | [] => (eof, { input := [], last := none })
  | r :: rest => (r, { input := rest, last := some r })

/-- Places the previously read rune back on the reader; the boolean tells
whether `UnreadRune` returned a nil error. -/
def unreadRune (s : Scanner) : Bool × Scanner :=
  match s.last with
  | some r => (true, { input := r :: s.input, last := none })
  | none => (false, s)

/-- Calls `UnreadRune` up to `runes` times and stops at the first error. -/
def unreadRunes : Nat → Scanner → Bool × Scanner
  | 0, s => (true, s)
  | runes + 1, s =>
    match s.unreadRune with
    | (false, s1) => (false, s1)
    | (true, s1) => unreadRunes runes s1

/-- The loop of `scanAddress`. -/
def scanAddressLoop : Nat → Scanner → Str → Str × Scanner
  | 0, s, buf => (buf, s)
  | n + 1, s, buf =>
    let (r, s1) := s.read
    if r = eof then (buf, s1)
    else if isWhitespace r || r = '\n' then (buf, s1.unreadRune.2)
    else scanAddressLoop n s1 (buf ++ [r])

/-- Consumes a memory address from the scanner. -/
def scanAddress (s : Scanner) : (Token × Str) × Scanner :=
  let (buf, s1) := scanAddressLoop (s.input.length + 1) s ['0', 'x']
  ((Token.MEMADDR, buf), s1)

/-- The loop of `scanString`. -/
def scanStringLoop : Nat → Scanner → Str → Str × Scanner
  | 0, s, buf => (buf, s)
  | n + 1, s, buf =>
    let (r, s1) := s.read
    if r = eof then (buf, s1)
    else if r = '"' then
      let (r2, s2) := s1.read
      if r2 = '.' then
        let s3 := s2.read.2
        let s4 := s3.read.2
        (buf ++ [r] ++ ['.', '.', '.'], s4)
      else (buf ++ [r], s2.unreadRune.2)
    else scanStringLoop n s1 (buf ++ [r])

/-- Consumes a string from the scanner. -/
def scanString (s : Scanner) : (Token × Str) × Scanner :=
  let (buf, s1) := scanStringLoop (s.input.length + 1) s ['"']
  ((Token.STRING, buf), s1)

/-- The loop of `scanWhitespace`. -/
def scanWhitespaceLoop : Nat → Scanner → Str → Str × Scanner
  | 0, s, buf => (buf, s)
  | n + 1, s, buf =>
    let (r, s1) := s.read
    if r = eof then (buf, s1)
    else if !isWhitespace r then (buf, s1.unreadRune.2)
    else scanWhitespaceLoop n s1 (buf ++ [r])

/-- Consumes the current rune and all contiguous whitespace. -/
def scanWhitespace (s : Scanner) : (Token × Str) × Scanner :=
  let (r, s1) := s.read
  let (buf, s2) := scanWhitespaceLoop (s1.input.length + 1) s1 [r]
  ((Token.WS, buf), s2)

/-- The loop of `scanIdent`. -/
def scanIdentLoop : Nat → Scanner → Str → Str × Scanner
  | 0, s, buf => (buf, s)
  | n + 1, s, buf =>
    let (r, s1) := s.read
    if r = eof then (buf, s1)
    else if !isLetter r && !isDigit r && r != '_' then (buf, s1.unreadRune.2)
    else scanIdentLoop n s1 (buf ++ [r])

/-- Consumes the current rune and all contiguous ident runes. -/
def scanIdent (s : Scanner) : (Token × Str) × Scanner :=
  let (r, s1) := s.read
  let (buf, s2) := scanIdentLoop (s1.input.length + 1) s1 [r]
  ((Token.IDENT, buf), s2)

/-- The final `switch r` of `Scan` and the `ILLEGAL` return after it. -/
def scanSwitch (r : Char) : Token × Str :=
  if r = eof then (Token.EOF, [])
  else if r = '(' then (Token.OPEN_PAREN, [r])
  else if r = ',' then (Token.SEP, [r])
  else if r = ')' then (Token.CLOSE_PAREN, [r])
  else if r = '{' then (Token.OPEN_BRACE, [r])
  else if r = '}' then (Token.CLOSE_BRACE, [r])
  else if r = '=' then (Token.EQUALS, [r])
  else if r = '\n' then (Token.NEWLINE, [r])
  else (Token.ILLEGAL, [r])

/-- Returns the next token and the literal string it represents. -/
def Scan (s : Scanner) : (Token × Str) × Scanner :=
  let (r, s1) := s.read
  if r = '0' then
    let (r2, s2) := s1.read
    if r2 = 'x' then s2.scanAddress
    else (scanSwitch r, (s2.unreadRunes 2).2)
  else if r = '-' then
    let (r2, s2) := s1.read
    if r2 = '-' then
      let (r3, s3) := s2.read
      if r3 = '-' then ((Token.SIGNAL, ['-', '-', '-']), s3)
      else (scanSwitch r, (s3.unreadRunes 2).2)
    else (scanSwitch r, s2.unreadRune.2)
  else if r = '"' then s1.scanString
  else if isWhitespace r then s1.unreadRune.2.scanWhitespace
  else if isLetter r || isDigit r then s1.unreadRune.2.scanIdent
  else (scanSwitch r, s1)

end Scanner

/-- The record of one line, `parser.go` lines 9-14. -/
structure OutputLine where
  Signal : Str
  FuncName : Str
  Args : List Str
  Result : Str
  deriving DecidableEq

/-- The one-token buffer of a `Parser`. -/
structure TokenBuf where
  tok : Token
  lit : Str
  n : Int
  deriving DecidableEq

structure Parser where
  s : Scanner
  buf : TokenBuf
  deriving DecidableEq

/-- A new parser: the buffer holds Go zero values. -/
def NewParser (r : Str) : Parser :=
  { s := NewScanner r, buf := { tok := Token.ILLEGAL, lit := [], n := 0 } }

namespace Parser

/-- Returns the next token from the underlying scanner, or the buffered token
when one has been unscanned. -/
def scan (p : Parser) : (Token × Str) × Parser :=
  if p.buf.n ≠ 0 then
    ((p.buf.tok, p.buf.lit), { p with buf := { p.buf with n := 0 } })
  else
    let (tl, s1) := p.s.Scan
    (tl, { s := s1, buf := { tok := tl.1, lit := tl.2, n := p.buf.n } })

/-- Pushes the previously read token back onto the buffer. -/
def unscan (p : Parser) : Parser :=
  { p with buf := { p.buf with n := 1 } }

/-- Scans a token and, when it is whitespace, the token after it. -/
def scanIgnoreWhitespace (p : Parser) : (Token × Str) × Parser :=
  let (tl, p1) := p.scan
  if tl.1 = Token.WS then p1.scan else (tl, p1)

/-- The signal loop of `Parse`, lines 73-79. -/
def parseSignal : Nat → Parser → Str → Option (Str × Parser)
  | 0, _, _ => none
  | fuel + 1, p, buf =>
    let (tl, p1) := p.scan
    if tl.1 = Token.NEWLINE then some (buf, p1)
    else parseSignal fuel p1 (buf ++ tl.2)

/-- The struct loop of `Parse`, lines 100-111; returns the text of the struct
argument. -/
def parseStruct : Nat → Parser → Str → Option (Str × Parser)
  | 0, _, _ => none
  | fuel + 1, p, buf =>
    let (tl, p1) := p.scan
    if tl.1 = Token.CLOSE_BRACE then some (buf ++ tl.2, p1)
    else if tl.1 = Token.MEMADDR then parseStruct fuel p1 (buf ++ ['0', 'x', '0'])
    else parseStruct fuel p1 (buf ++ tl.2)

/-- The argument loop of `Parse`, lines 89-117. -/
def parseArgs : Nat → Parser → List Str → Option (List Str × Parser)
  | 0, _, _ => none
  | fuel + 1, p, args =>
    let (tl, p1) := p.scanIgnoreWhitespace
    if tl.1 = Token.CLOSE_PAREN then some (args, p1)
    else if tl.1 = Token.MEMADDR then parseArgs fuel p1 (args ++ [['0', 'x', '0']])
    else if tl.1 = Token.OPEN_BRACE then
      match parseStruct fuel p1 tl.2 with
      | none => none
      | some (arg, p2) => parseArgs fuel p2 (args ++ [arg])
    else if tl.1 = Token.STRING then parseArgs fuel p1 (args ++ [tl.2])
    else if tl.1 ≠ Token.SEP then parseArgs fuel p1 (args ++ [tl.2])
    else parseArgs fuel p1 args

/-- The result loop of `Parse`, lines 129-138. -/
def parseResult : Nat → Parser → Str → Option (Str × Parser)
  | 0, _, _ => none
  | fuel + 1, p, result =>
    let (tl, p1) := p.scan
    if tl.1 = Token.MEMADDR then parseResult fuel p1 (result ++ ['0', 'x', '0'])
    else if tl.1 = Token.NEWLINE then some (result, p1)
    else parseResult fuel p1 (result ++ tl.2)

/-- Parses one line.  The value is `none` when a loop did not finish within
`fuel` iterations; otherwise it is the returned pair (the record, `none` for a
nil pointer, and the error, `none` for nil) with the parser state after the
call. -/
def Parse (fuel : Nat) (p : Parser) :
    Option ((Option OutputLine × Option Error) × Parser) :=
  let line : OutputLine := { Signal := [], FuncName := [], Args := [], Result := [] }
  let (tl, p1) := p.scanIgnoreWhitespace
  if tl.1 = Token.EOF then some ((some line, some Error.ErrEOF), p1)
  else if tl.1 = Token.SIGNAL then
    match parseSignal fuel p1 tl.2 with
    | none => none
    | some (buf, p2) => some ((some { line with Signal := buf }, none), p2)
  else
    let line1 : OutputLine := { line with FuncName := tl.2 }
    let (tl2, p2) := p1.scanIgnoreWhitespace
    if tl2.1 = Token.OPEN_PAREN then
      match parseArgs fuel p2 line1.Args with
      | none => none
      | some (args, p3) =>
        let line2 : OutputLine := { line1 with Args := args }
        let (tl3, p4) := p3.scanIgnoreWhitespace
        if tl3.1 ≠ Token.EQUALS then
          some ((none, some (Error.errorsNew "Expected EQUALS")), p4)
        else
          match parseResult fuel p4 [] with
          | none => none
          | some (result, p5) => some ((some { line2 with Result := result }, none), p5)
    else some ((none, some (Error.errorsNew "Expected OPEN_PAREN")), p2)

end Parser

namespace OutputLine

/-- The loop over `o.Args` in `Unparse`: `idx` is the index of the first
element of the list still to be written, `len` is `len(o.Args)`. -/
def unparseArgs (len : Int) : Int → List Str → Str
  | _, [] => []
  | idx, arg :: rest =>
    arg ++ (if idx < len - 1 then [',', ' '] else [')']) ++ unparseArgs len (idx + 1) rest

def Unparse (o : OutputLine) : Str :=
  if o.Signal ≠ [] then o.Signal
  else o.FuncName ++ ['('] ++ unparseArgs o.Args.length 0 o.Args ++ [' ', '=', ' '] ++ o.Result

end OutputLine

/-! ## Definitions used in the statements -/

/-- The runes `scanIdent` keeps reading: letters, digits and underscore. -/
def isIdentChar (c : Char) : Bool :=
  isLetter c || isDigit c || c == '_'

/-- The runes `scanAddress` keeps reading: all but space, tab and newline. -/
def isAddrChar (c : Char) : Bool :=
  !(isWhitespace c || decide (c = '\n'))

/-- What `scanString` does once it has read the closing quote: `tail` is the
input after the quote, `buf` the literal read so far. -/
def closeString (tail : Str) (buf : Str) : Str × Scanner :=
  let (r2, s2) := Scanner.read ⟨tail, some '"'⟩
  if r2 = '.' then (buf ++ ['"'] ++ ['.', '.', '.'], s2.read.2.read.2)
  else (buf ++ ['"'], s2.unreadRune.2)

/-- On input `inp`, whatever rune the reader is able to unread, `Scan` returns
the token `tok` with literal `lit` and leaves `rest` unread. -/
def Scans (inp : Str) (tok : Token) (lit : Str) (rest : Str) : Prop :=
  ∀ l, (Scanner.Scan ⟨inp, l⟩).1 = (tok, lit) ∧ (Scanner.Scan ⟨inp, l⟩).2.input = rest

/-- A rune that `Scan` hands to its final `switch`. -/
def isSwitchChar (c : Char) : Bool :=
  c != '0' && c != '-' && c != '"' && !isWhitespace c && !(isLetter c || isDigit c)

/-- The parser has `inp` left to read and no token pushed back. -/
def Parser.At (p : Parser) (inp : Str) : Prop :=
  p.s.input = inp ∧ p.buf.n = 0

/-- The token that `scanIgnoreWhitespace` returns on input `inp`. -/
def ScansIW (inp : Str) (tok : Token) (lit : Str) (rest : Str) : Prop :=
  (Scans inp tok lit rest ∧ tok ≠ Token.WS) ∨
    ∃ w mid, Scans inp Token.WS w mid ∧ Scans mid tok lit rest

/-- With enough fuel, the struct loop started on `inp` with `buf` returns `out`
and leaves `rest`. -/
def StructTo (inp buf out rest : Str) : Prop :=
  ∃ k, ∀ n p, Parser.At p inp →
    ∃ p1, Parser.parseStruct (k + n) p buf = some (out, p1) ∧ p1.At rest

/-- With enough fuel, the argument loop started on `inp` with `args` returns
`out` and leaves `rest`. -/
def ArgsTo (inp : Str) (args out : List Str) (rest : Str) : Prop :=
  ∃ k, ∀ n p, Parser.At p inp →
    ∃ p1, Parser.parseArgs (k + n) p args = some (out, p1) ∧ p1.At rest

/-- With enough fuel, the result loop started on `inp` with `buf` returns `out`
and leaves `rest`. -/
def ResultTo (inp buf out rest : Str) : Prop :=
  ∃ k, ∀ n p, Parser.At p inp →
    ∃ p1, Parser.parseResult (k + n) p buf = some (out, p1) ∧ p1.At rest

/-- With enough fuel, the signal loop started on `inp` with `buf` returns `out`
and leaves `rest`. -/
def SignalTo (inp buf out rest : Str) : Prop :=
  ∃ k, ∀ n p, Parser.At p inp →
    ∃ p1, Parser.parseSignal (k + n) p buf = some (out, p1) ∧ p1.At rest

/-- With enough fuel, `Parse` on `inp` returns `res` and leaves `rest`. -/
def ParsesTo (inp : Str) (res : Option OutputLine × Option Error) (rest : Str) : Prop :=
  ∃ k, ∀ n p, Parser.At p inp →
    ∃ p1, Parser.Parse (k + n) p = some (res, p1) ∧ p1.At rest

/-! ## The lines the statements are about -/

/-- An identifier: a non-empty run of letters, digits and underscores that
starts with a letter or a digit. -/
def isIdentifier : Str → Bool
  | [] => false
  | c :: run => (isLetter c || isDigit c) && run.all isIdentChar

/-- An identifier that is `0` itself or does not begin with `0`. -/
def isWord (w : Str) : Bool :=
  isIdentifier w && (w.head? != some '0' || w == ['0'])

def isHexDigit (c : Char) : Bool :=
  isDigit c || (decide (c ≥ 'a') && decide (c ≤ 'f')) || (decide (c ≥ 'A') && decide (c ≤ 'F'))

/-- The input begins with a rune that is neither whitespace nor NUL. -/
def StartsSolid (inp : Str) : Prop :=
  ∃ c t, inp = c :: t ∧ isWhitespace c = false ∧ c ≠ eof

/-- An input with an optional blank in front of it. -/
def lead (blank : Bool) (inp : Str) : Str :=
  if blank then ' ' :: inp else inp

/-- Strings joined by a comma and a blank. -/
def joinArgs : List Str → Str
  | [] => []
  | [a] => a
  | a :: b :: rest => a ++ [',', ' '] ++ joinArgs (b :: rest)

/-- A plain value of a trace line: an identifier, or a hex address given by
its digits. -/
inductive Val where
  | ident (s : Str)
  | addr (h : Str)
  deriving DecidableEq

namespace Val

/-- The value as written in the trace. -/
def text : Val → Str
  | ident s => s
  | addr h => '0' :: 'x' :: h

/-- The value after address normalisation. -/
def norm : Val → Str
  | ident s => s
  | addr _ => ['0', 'x', '0']

def isAddr : Val → Bool
  | ident _ => false
  | addr _ => true

/-- The identifier is a word; the address has one or more hex digits. -/
def ok : Val → Bool
  | ident s => isWord s
  | addr h => !h.isEmpty && h.all isHexDigit

end Val

/-- The text of a struct field `name=value`. -/
def fieldText (fld : Str × Val) : Str :=
  fld.1 ++ '=' :: fld.2.text

/-- The fields of a struct as `Parse` stores them: an address becomes `0x0`
and takes the comma after it along. -/
def structNorm : List (Str × Val) → Str
  | [] => []
  | [f] => f.1 ++ '=' :: f.2.norm
  | f :: g :: rest =>
    f.1 ++ '=' :: f.2.norm ++ (if f.2.isAddr then [' '] else [',', ' '])
      ++ structNorm (g :: rest)

/-- An argument of a call: a plain value, or a struct `{n1=v1, ..., nk=vk}`. -/
inductive Arg where
  | val (v : Val)
  | struct (fields : List (Str × Val))
  deriving DecidableEq

namespace Arg

/-- The argument as written in the trace. -/
def text : Arg → Str
  | val v => v.text
  | struct fs => '{' :: joinArgs (fs.map fieldText) ++ ['}']

/-- The argument as `Parse` stores it. -/
def norm : Arg → Str
  | val v => v.norm
  | struct fs => '{' :: structNorm fs ++ ['}']

def isAddr : Arg → Bool
  | val v => v.isAddr
  | struct _ => false

/-- Every name and identifier is a word, every address has hex digits, and
the value of the last field of a struct is not an address. -/
def ok : Arg → Bool
  | val v => v.ok
  | struct fs =>
    fs.all (fun f => isWord f.1 && f.2.ok) && (fs.getLast?.all fun f => !f.2.isAddr)

end Arg

/-- The call line `f(a1, ..., an) = r` with its newline. -/
def lineText (f : Str) (args : List Arg) (r : Val) : Str :=
  f ++ '(' :: joinArgs (args.map Arg.text) ++ [')', ' ', '=', ' '] ++ r.text ++ ['\n']

/-- The parser state after `k` successive calls of `Parse`, each with the
bound `fuel`; `none` when one of them does not finish within the bound. -/
def Parser.afterCalls (fuel : Nat) : Nat → Parser → Option Parser
  | 0, p => some p
  | k + 1, p =>
    match p.Parse fuel with
    | none => none
    | some (_, p1) => afterCalls fuel k p1

/-- The record `&OutputLine{}` with which `Parse` starts. -/
def emptyLine : OutputLine :=
  { Signal := [], FuncName := [], Args := [], Result := [] }

/-- The record of a call line. -/
def callLine (f : Str) (args : List Str) (r : Str) : OutputLine :=
  { Signal := [], FuncName := f, Args := args, Result := r }

/-- The record of a signal line. -/
def signalLine (sig : Str) : OutputLine :=
  { Signal := sig, FuncName := [], Args := [], Result := [] }

/-- Reading left to right, every `-` of the text is the first of three in a
row, or is followed by a rune other than `-`, or ends the text: a run of
dashes splits into groups of three and at most one single dash. -/
def dashesOk : Str → Bool
  | [] => true
  | [_] => true
  | [c, c2] => !(c == '-' && c2 == '-')
  | c :: c2 :: c3 :: t =>
    if c = '-' ∧ c2 = '-' then c3 == '-' && dashesOk t else dashesOk (c2 :: c3 :: t)

/-- Text that the scanner cuts into tokens without loss: no `"`, no NUL, no
newline, no `0x`, and dashes as in `dashesOk`. -/
def Plain (t : Str) : Prop :=
  (∀ c ∈ t, c ≠ '"' ∧ c ≠ eof ∧ c ≠ '\n') ∧ ¬ ['0', 'x'] <:+: t ∧ dashesOk t = true

/-- What may follow a line's text: the end of the stream, or a newline. -/
def LineEnd (tail : Str) : Prop :=
  tail = [] ∨ ∃ rest, tail = '\n' :: rest

/-- The tokens that `n` successive calls of `Scan` return, and the scanner
after them. -/
def Scanner.scanN : Nat → Scanner → List (Token × Str) × Scanner
  | 0, s => ([], s)
  | n + 1, s =>
    let (tl, s1) := s.Scan
    let (ts, s2) := Scanner.scanN n s1
    (tl :: ts, s2)

/-- The tokens that `n` successive calls of the parser's `scan` return, and the
parser after them. -/
def Parser.scanN : Nat → Parser → List (Token × Str) × Parser
  | 0, p => ([], p)
  | n + 1, p =>
    let (tl, p1) := p.scan
    let (ts, p2) := Parser.scanN n p1
    (tl :: ts, p2)

/-- The tokens that repeated calls of `Scan` return before the first `EOF`
token; `none` when `EOF` is not reached within `fuel` calls. -/
def Scanner.scanAll : Nat → Scanner → Option (List (Token × Str))
  | 0, _ => none
  | fuel + 1, s =>
    let (tl, s1) := s.Scan
    if tl.1 = Token.EOF then some []
    else (Scanner.scanAll fuel s1).map (fun ts => tl :: ts)

/-- What the struct loop of `Parse` writes for a token: `0x0` for an address,
the literal otherwise. -/
def structLit (tl : Token × Str) : Str :=
  if tl.1 = Token.MEMADDR then ['0', 'x', '0'] else tl.2

/-- On input `inp`, whatever rune the reader is able to unread, the next
`ts.length` calls of `Scan` return the tokens `ts` and leave `rest` unread. -/
def ScansN (inp : Str) (ts : List (Token × Str)) (rest : Str) : Prop :=
  ∀ l, (Scanner.scanN ts.length ⟨inp, l⟩).1 = ts ∧
    (Scanner.scanN ts.length ⟨inp, l⟩).2.input = rest

/-- An argument list with blanks around its commas: every item is an argument
with the blanks before and the blanks after the comma that follows it; `last`
is the last argument. -/
def spacedArgs : List (Str × Str × Str) → Str → Str
  | [], last => last
  | (a, pre, post) :: more, last => a ++ pre ++ ',' :: post ++ spacedArgs more last

/-- The value as it is written after normalisation: an identifier as it is, an
address as `0x0`. -/
def Val.normVal : Val → Val
  | Val.ident s => Val.ident s
  | Val.addr _ => Val.addr ['0']

/-! ## The reader -/

theorem read_cons (c : Char) (cs : Str) (l : Option Char) :
    Scanner.read ⟨c :: cs, l⟩ = (c, ⟨cs, some c⟩) := rfl

theorem read_nil (l : Option Char) : Scanner.read ⟨[], l⟩ = (eof, ⟨[], none⟩) := rfl

theorem unreadRune_some (i : Str) (c : Char) :
    Scanner.unreadRune ⟨i, some c⟩ = (true, ⟨c :: i, none⟩) := rfl

theorem unreadRune_none (i : Str) : Scanner.unreadRune ⟨i, none⟩ = (false, ⟨i, none⟩) := rfl

theorem unreadRunes_two_some (i : Str) (c : Char) :
    Scanner.unreadRunes 2 ⟨i, some c⟩ = (false, ⟨c :: i, none⟩) := rfl

theorem unreadRunes_two_none (i : Str) :
    Scanner.unreadRunes 2 ⟨i, none⟩ = (false, ⟨i, none⟩) := rfl

/-! ## Classes of runes -/

theorem identLoop_cond (r : Char) :
    (!isLetter r && !isDigit r && r != '_') = !isIdentChar r := by
  unfold isIdentChar
  cases isLetter r <;> cases isDigit r <;> cases h : (r == '_') <;> simp [bne, h]

theorem addrLoop_cond (r : Char) :
    (isWhitespace r || decide (r = '\n')) = !isAddrChar r := by
  unfold isAddrChar
  cases isWhitespace r <;> simp

theorem succ_of_le {k n : Nat} (h : k + 1 ≤ n) : ∃ m, n = m + 1 ∧ k ≤ m :=
  ⟨n - 1, by omega, by omega⟩

/-! ## The iteration bound of the scanner's loops is never reached

Each loop of the scanner is given the number of unread runes plus one as its
bound; any larger bound gives the same result, so the bound never cuts a loop
short. -/

theorem scanAddressLoop_fuel (inp : Str) : ∀ (l : Option Char) (buf : Str) (n m : Nat),
    inp.length + 1 ≤ n → inp.length + 1 ≤ m →
    Scanner.scanAddressLoop n ⟨inp, l⟩ buf = Scanner.scanAddressLoop m ⟨inp, l⟩ buf := by
  induction inp with
  | nil =>
    intro l buf n m hn hm
    obtain ⟨n1, rfl, _⟩ := succ_of_le hn
    obtain ⟨m1, rfl, _⟩ := succ_of_le hm
    simp [Scanner.scanAddressLoop, read_nil]
  | cons c cs ih =>
    intro l buf n m hn hm
    obtain ⟨n1, rfl, hn1⟩ := succ_of_le hn
    obtain ⟨m1, rfl, hm1⟩ := succ_of_le hm
    simp only [Scanner.scanAddressLoop, read_cons]
    split_ifs
    · rfl
    · rfl
    · exact ih _ _ _ _ hn1 hm1

theorem scanStringLoop_fuel (inp : Str) : ∀ (l : Option Char) (buf : Str) (n m : Nat),
    inp.length + 1 ≤ n → inp.length + 1 ≤ m →
    Scanner.scanStringLoop n ⟨inp, l⟩ buf = Scanner.scanStringLoop m ⟨inp, l⟩ buf := by
  induction inp with
  | nil =>
    intro l buf n m hn hm
    obtain ⟨n1, rfl, _⟩ := succ_of_le hn
    obtain ⟨m1, rfl, _⟩ := succ_of_le hm
    simp [Scanner.scanStringLoop, read_nil]
  | cons c cs ih =>
    intro l buf n m hn hm
    obtain ⟨n1, rfl, hn1⟩ := succ_of_le hn
    obtain ⟨m1, rfl, hm1⟩ := succ_of_le hm
    simp only [Scanner.scanStringLoop, read_cons]
    split_ifs
    · rfl
    · rfl
    · rfl
    · exact ih _ _ _ _ hn1 hm1

theorem scanWhitespaceLoop_fuel (inp : Str) : ∀ (l : Option Char) (buf : Str) (n m : Nat),
    inp.length + 1 ≤ n → inp.length + 1 ≤ m →
    Scanner.scanWhitespaceLoop n ⟨inp, l⟩ buf = Scanner.scanWhitespaceLoop m ⟨inp, l⟩ buf := by
  induction inp with
  | nil =>
    intro l buf n m hn hm
    obtain ⟨n1, rfl, _⟩ := succ_of_le hn
    obtain ⟨m1, rfl, _⟩ := succ_of_le hm
    simp [Scanner.scanWhitespaceLoop, read_nil]
  | cons c cs ih =>
    intro l buf n m hn hm
    obtain ⟨n1, rfl, hn1⟩ := succ_of_le hn
    obtain ⟨m1, rfl, hm1⟩ := succ_of_le hm
    simp only [Scanner.scanWhitespaceLoop, read_cons]
    split_ifs
    · rfl
    · rfl
    · exact ih _ _ _ _ hn1 hm1

theorem scanIdentLoop_fuel (inp : Str) : ∀ (l : Option Char) (buf : Str) (n m : Nat),
    inp.length + 1 ≤ n → inp.length + 1 ≤ m →
    Scanner.scanIdentLoop n ⟨inp, l⟩ buf = Scanner.scanIdentLoop m ⟨inp, l⟩ buf := by
  induction inp with
  | nil =>
    intro l buf n m hn hm
    obtain ⟨n1, rfl, _⟩ := succ_of_le hn
    obtain ⟨m1, rfl, _⟩ := succ_of_le hm
    simp [Scanner.scanIdentLoop, read_nil]
  | cons c cs ih =>
    intro l buf n m hn hm
    obtain ⟨n1, rfl, hn1⟩ := succ_of_le hn
    obtain ⟨m1, rfl, hm1⟩ := succ_of_le hm
    simp only [Scanner.scanIdentLoop, read_cons]
    split_ifs
    · rfl
    · rfl
    · exact ih _ _ _ _ hn1 hm1

/-! ## The loops of the scanner -/

theorem scanIdentLoop_spec (inp : Str) : ∀ (n : Nat) (l : Option Char) (buf : Str),
    inp.length + 1 ≤ n → (inp.dropWhile isIdentChar).head? ≠ some eof →
    Scanner.scanIdentLoop n ⟨inp, l⟩ buf
      = (buf ++ inp.takeWhile isIdentChar, ⟨inp.dropWhile isIdentChar, none⟩) := by
  induction inp with
  | nil =>
    intro n l buf hn _
    obtain ⟨m, rfl, _⟩ := succ_of_le hn
    simp [Scanner.scanIdentLoop, read_nil]
  | cons c cs ih =>
    intro n l buf hn h0
    obtain ⟨m, rfl, hm⟩ := succ_of_le hn
    by_cases hc : isIdentChar c = true
    · have hne : c ≠ eof := by rintro rfl; exact absurd hc (by decide)
      have h0' : (cs.dropWhile isIdentChar).head? ≠ some eof := by
        simpa [List.dropWhile, hc] using h0
      have hrec := ih m (some c) (buf ++ [c]) hm h0'
      simp only [Scanner.scanIdentLoop, read_cons, hne, if_false, identLoop_cond, hc,
        Bool.not_true, Bool.false_eq_true, hrec, List.takeWhile, List.dropWhile,
        List.append_assoc, List.singleton_append]
    · have hc' : isIdentChar c = false := by simpa using hc
      have hne : c ≠ eof := by
        rintro rfl
        exact h0 (by simp [List.dropWhile, hc'])
      simp [Scanner.scanIdentLoop, read_cons, hne, identLoop_cond, hc', unreadRune_some,
        List.takeWhile, List.dropWhile]

theorem scanWhitespaceLoop_spec (inp : Str) : ∀ (n : Nat) (l : Option Char) (buf : Str),
    inp.length + 1 ≤ n → (inp.dropWhile isWhitespace).head? ≠ some eof →
    Scanner.scanWhitespaceLoop n ⟨inp, l⟩ buf
      = (buf ++ inp.takeWhile isWhitespace, ⟨inp.dropWhile isWhitespace, none⟩) := by
  induction inp with
  | nil =>
    intro n l buf hn _
    obtain ⟨m, rfl, _⟩ := succ_of_le hn
    simp [Scanner.scanWhitespaceLoop, read_nil]
  | cons c cs ih =>
    intro n l buf hn h0
    obtain ⟨m, rfl, hm⟩ := succ_of_le hn
    by_cases hc : isWhitespace c = true
    · have hne : c ≠ eof := by rintro rfl; exact absurd hc (by decide)
      have h0' : (cs.dropWhile isWhitespace).head? ≠ some eof := by
        simpa [List.dropWhile, hc] using h0
      have hrec := ih m (some c) (buf ++ [c]) hm h0'
      simp only [Scanner.scanWhitespaceLoop, read_cons, hne, if_false, hc,
        Bool.not_true, Bool.false_eq_true, hrec, List.takeWhile, List.dropWhile,
        List.append_assoc, List.singleton_append]
    · have hc' : isWhitespace c = false := by simpa using hc
      have hne : c ≠ eof := by
        rintro rfl
        exact h0 (by simp [List.dropWhile, hc'])
      simp [Scanner.scanWhitespaceLoop, read_cons, hne, hc', unreadRune_some,
        List.takeWhile, List.dropWhile]

theorem scanAddressLoop_spec (inp : Str) : ∀ (n : Nat) (l : Option Char) (buf : Str),
    inp.length + 1 ≤ n → (inp.dropWhile isAddrChar).head? ≠ some eof →
    (∀ c ∈ inp.takeWhile isAddrChar, c ≠ eof) →
    Scanner.scanAddressLoop n ⟨inp, l⟩ buf
      = (buf ++ inp.takeWhile isAddrChar, ⟨inp.dropWhile isAddrChar, none⟩) := by
  induction inp with
  | nil =>
    intro n l buf hn _ _
    obtain ⟨m, rfl, _⟩ := succ_of_le hn
    simp [Scanner.scanAddressLoop, read_nil]
  | cons c cs ih =>
    intro n l buf hn h0 h1
    obtain ⟨m, rfl, hm⟩ := succ_of_le hn
    by_cases hc : isAddrChar c = true
    · have hne : c ≠ eof := h1 c (by simp [List.takeWhile, hc])
      have h0' : (cs.dropWhile isAddrChar).head? ≠ some eof := by
        simpa [List.dropWhile, hc] using h0
      have h1' : ∀ x ∈ cs.takeWhile isAddrChar, x ≠ eof := by
        intro x hx
        exact h1 x (by simp [List.takeWhile, hc, hx])
      have hrec := ih m (some c) (buf ++ [c]) hm h0' h1'
      simp only [Scanner.scanAddressLoop, read_cons, hne, if_false, addrLoop_cond, hc,
        Bool.not_true, Bool.false_eq_true, hrec, List.takeWhile, List.dropWhile,
        List.append_assoc, List.singleton_append]
    · have hc' : isAddrChar c = false := by simpa using hc
      have hne : c ≠ eof := by
        rintro rfl
        exact h0 (by simp [List.dropWhile, hc'])
      simp [Scanner.scanAddressLoop, read_cons, hne, addrLoop_cond, hc', unreadRune_some,
        List.takeWhile, List.dropWhile]

theorem scanStringLoop_spec (s : Str) : ∀ (n : Nat) (l : Option Char) (buf tail : Str),
    s.length + 1 ≤ n → (∀ c ∈ s, c ≠ '"') → (∀ c ∈ s, c ≠ eof) →
    Scanner.scanStringLoop n ⟨s ++ '"' :: tail, l⟩ buf = closeString tail (buf ++ s) := by
  induction s with
  | nil =>
    intro n l buf tail hn _ _
    obtain ⟨m, rfl, _⟩ := succ_of_le hn
    have h : ('"' : Char) ≠ eof := by decide
    simp [Scanner.scanStringLoop, read_cons, h, closeString]
  | cons c cs ih =>
    intro n l buf tail hn hq h0
    obtain ⟨m, rfl, hm⟩ := succ_of_le hn
    have hc1 : c ≠ '"' := hq c (by simp)
    have hc2 : c ≠ eof := h0 c (by simp)
    have hrec := ih m (some c) (buf ++ [c]) tail hm
      (fun x hx => hq x (by simp [hx])) (fun x hx => h0 x (by simp [hx]))
    simp only [List.cons_append, Scanner.scanStringLoop, read_cons, hc1, hc2, if_false, hrec,
      List.append_assoc, List.singleton_append]
    simp

/-! ## Single tokens -/

theorem Scans_nil : Scans [] Token.EOF [] [] := by
  intro l
  exact ⟨rfl, rfl⟩

theorem Scans_zero (tail : Str) (h : tail.head? ≠ some 'x') :
    Scans ('0' :: tail) Token.ILLEGAL ['0'] tail := by
  intro l
  cases tail with
  | nil => exact ⟨rfl, rfl⟩
  | cons d rest =>
    have hd : d ≠ 'x' := by simpa using h
    simp [Scanner.Scan, read_cons, hd, unreadRunes_two_some, Scanner.scanSwitch, eof]

theorem Scans_addr (tail : Str) (h0 : (tail.dropWhile isAddrChar).head? ≠ some eof)
    (h1 : ∀ c ∈ tail.takeWhile isAddrChar, c ≠ eof) :
    Scans ('0' :: 'x' :: tail) Token.MEMADDR ('0' :: 'x' :: tail.takeWhile isAddrChar)
      (tail.dropWhile isAddrChar) := by
  intro l
  simp [Scanner.Scan, read_cons, Scanner.scanAddress,
    scanAddressLoop_spec tail (tail.length + 1) (some 'x') ['0', 'x'] (le_refl _) h0 h1]

theorem Scans_signal (tail : Str) :
    Scans ('-' :: '-' :: '-' :: tail) Token.SIGNAL ['-', '-', '-'] tail := by
  intro l
  exact ⟨rfl, rfl⟩

theorem Scans_dash (tail : Str) (h : tail.head? ≠ some '-') :
    Scans ('-' :: tail) Token.ILLEGAL ['-'] tail := by
  intro l
  cases tail with
  | nil => exact ⟨rfl, rfl⟩
  | cons d rest =>
    have hd : d ≠ '-' := by simpa using h
    simp [Scanner.Scan, read_cons, hd, unreadRune_some, Scanner.scanSwitch, eof]

theorem Scans_string (s tail : Str) (hq : ∀ c ∈ s, c ≠ '"') (h0 : ∀ c ∈ s, c ≠ eof) :
    Scans ('"' :: (s ++ '"' :: tail)) Token.STRING (closeString tail ('"' :: s)).1
      (closeString tail ('"' :: s)).2.input := by
  intro l
  have h := scanStringLoop_spec s (s.length + (tail.length + 1) + 1) (some '"') ['"'] tail
    (by omega) hq h0
  simp [Scanner.Scan, read_cons, Scanner.scanString, h]

theorem Scans_ws (c : Char) (tail : Str) (hc : isWhitespace c = true)
    (h0 : (tail.dropWhile isWhitespace).head? ≠ some eof) :
    Scans (c :: tail) Token.WS (c :: tail.takeWhile isWhitespace)
      (tail.dropWhile isWhitespace) := by
  intro l
  have h1 : c ≠ '0' := by rintro rfl; exact absurd hc (by decide)
  have h2 : c ≠ '-' := by rintro rfl; exact absurd hc (by decide)
  have h3 : c ≠ '"' := by rintro rfl; exact absurd hc (by decide)
  simp [Scanner.Scan, read_cons, h1, h2, h3, hc, unreadRune_some, Scanner.scanWhitespace,
    scanWhitespaceLoop_spec tail (tail.length + 1) (some c) [c] (le_refl _) h0]

theorem Scans_ident (c : Char) (tail : Str) (hc : (isLetter c || isDigit c) = true)
    (hz : c ≠ '0') (h0 : (tail.dropWhile isIdentChar).head? ≠ some eof) :
    Scans (c :: tail) Token.IDENT (c :: tail.takeWhile isIdentChar)
      (tail.dropWhile isIdentChar) := by
  intro l
  have h2 : c ≠ '-' := by rintro rfl; exact absurd hc (by decide)
  have h3 : c ≠ '"' := by rintro rfl; exact absurd hc (by decide)
  have h4 : isWhitespace c = false := by
    cases h : isWhitespace c
    · rfl
    · exfalso
      have : c = ' ' ∨ c = '\t' := by simpa [isWhitespace] using h
      rcases this with rfl | rfl <;> exact absurd hc (by decide)
  have hc' : isLetter c = true ∨ isDigit c = true := by simpa using hc
  simp [Scanner.Scan, read_cons, hz, h2, h3, h4, hc', unreadRune_some, Scanner.scanIdent,
    scanIdentLoop_spec tail (tail.length + 1) (some c) [c] (le_refl _) h0]

theorem Scans_switch (c : Char) (tail : Str) (hc : isSwitchChar c = true) :
    Scans (c :: tail) (Scanner.scanSwitch c).1 (Scanner.scanSwitch c).2 tail := by
  intro l
  simp only [isSwitchChar, Bool.and_eq_true, bne_iff_ne, ne_eq, Bool.not_eq_true',
    Bool.or_eq_false_iff] at hc
  obtain ⟨⟨⟨⟨h1, h2⟩, h3⟩, h4⟩, h5, h6⟩ := hc
  simp [Scanner.Scan, read_cons, h1, h2, h3, h4, h5, h6]

/-! ## The parser over single tokens -/

theorem NewParser_At (inp : Str) : (NewParser inp).At inp :=
  ⟨rfl, rfl⟩

theorem scan_of_Scans {p : Parser} {inp rest lit : Str} {tok : Token}
    (hp : p.At inp) (hs : Scans inp tok lit rest) :
    ∃ p1, p.scan = ((tok, lit), p1) ∧ p1.At rest := by
  obtain ⟨⟨i, l⟩, ⟨t, li, n⟩⟩ := p
  obtain ⟨h1, h2⟩ := hp
  simp only at h1 h2
  subst h1 h2
  obtain ⟨e1, e2⟩ := hs l
  refine ⟨⟨(Scanner.Scan ⟨i, l⟩).2, ⟨tok, lit, 0⟩⟩, ?_, ⟨e2, rfl⟩⟩
  simp [Parser.scan, e1]

theorem scanIW_of_ScansIW {p : Parser} {inp rest lit : Str} {tok : Token}
    (hp : p.At inp) (hs : ScansIW inp tok lit rest) :
    ∃ p1, p.scanIgnoreWhitespace = ((tok, lit), p1) ∧ p1.At rest := by
  rcases hs with ⟨h, hne⟩ | ⟨w, mid, h1, h2⟩
  · obtain ⟨p1, e, hp1⟩ := scan_of_Scans hp h
    exact ⟨p1, by simp [Parser.scanIgnoreWhitespace, e, hne], hp1⟩
  · obtain ⟨p1, e, hp1⟩ := scan_of_Scans hp h1
    obtain ⟨p2, e', hp2⟩ := scan_of_Scans hp1 h2
    exact ⟨p2, by simp [Parser.scanIgnoreWhitespace, e, e'], hp2⟩

theorem fuel_shift (k n : Nat) : k + 1 + n = (k + n) + 1 := by omega

theorem StructTo_close {inp b lit rest : Str}
    (hs : Scans inp Token.CLOSE_BRACE lit rest) : StructTo inp b (b ++ lit) rest := by
  refine ⟨1, fun n p hp => ?_⟩
  obtain ⟨p1, e, hp1⟩ := scan_of_Scans hp hs
  exact ⟨p1, by rw [Nat.add_comm]; simp [Parser.parseStruct, e], hp1⟩

theorem StructTo_addr {inp b lit mid out rest : Str}
    (hs : Scans inp Token.MEMADDR lit mid) (h : StructTo mid (b ++ ['0', 'x', '0']) out rest) :
    StructTo inp b out rest := by
  obtain ⟨k, hk⟩ := h
  refine ⟨k + 1, fun n p hp => ?_⟩
  obtain ⟨p1, e, hp1⟩ := scan_of_Scans hp hs
  obtain ⟨p2, e2, hp2⟩ := hk n p1 hp1
  exact ⟨p2, by rw [fuel_shift]; simp [Parser.parseStruct, e, e2], hp2⟩

theorem StructTo_tok {inp b lit mid out rest : Str} {tok : Token}
    (hs : Scans inp tok lit mid) (h1 : tok ≠ Token.CLOSE_BRACE) (h2 : tok ≠ Token.MEMADDR)
    (h : StructTo mid (b ++ lit) out rest) : StructTo inp b out rest := by
  obtain ⟨k, hk⟩ := h
  refine ⟨k + 1, fun n p hp => ?_⟩
  obtain ⟨p1, e, hp1⟩ := scan_of_Scans hp hs
  obtain ⟨p2, e2, hp2⟩ := hk n p1 hp1
  exact ⟨p2, by rw [fuel_shift]; simp [Parser.parseStruct, e, e2, h1, h2], hp2⟩

theorem ResultTo_newline {inp b lit rest : Str}
    (hs : Scans inp Token.NEWLINE lit rest) : ResultTo inp b b rest := by
  refine ⟨1, fun n p hp => ?_⟩
  obtain ⟨p1, e, hp1⟩ := scan_of_Scans hp hs
  exact ⟨p1, by rw [Nat.add_comm]; simp [Parser.parseResult, e], hp1⟩

theorem ResultTo_addr {inp b lit mid out rest : Str}
    (hs : Scans inp Token.MEMADDR lit mid) (h : ResultTo mid (b ++ ['0', 'x', '0']) out rest) :
    ResultTo inp b out rest := by
  obtain ⟨k, hk⟩ := h
  refine ⟨k + 1, fun n p hp => ?_⟩
  obtain ⟨p1, e, hp1⟩ := scan_of_Scans hp hs
  obtain ⟨p2, e2, hp2⟩ := hk n p1 hp1
  exact ⟨p2, by rw [fuel_shift]; simp [Parser.parseResult, e, e2], hp2⟩

theorem ResultTo_tok {inp b lit mid out rest : Str} {tok : Token}
    (hs : Scans inp tok lit mid) (h1 : tok ≠ Token.MEMADDR) (h2 : tok ≠ Token.NEWLINE)
    (h : ResultTo mid (b ++ lit) out rest) : ResultTo inp b out rest := by
  obtain ⟨k, hk⟩ := h
  refine ⟨k + 1, fun n p hp => ?_⟩
  obtain ⟨p1, e, hp1⟩ := scan_of_Scans hp hs
  obtain ⟨p2, e2, hp2⟩ := hk n p1 hp1
  exact ⟨p2, by rw [fuel_shift]; simp [Parser.parseResult, e, e2, h1, h2], hp2⟩

theorem SignalTo_newline {inp b lit rest : Str}
    (hs : Scans inp Token.NEWLINE lit rest) : SignalTo inp b b rest := by
  refine ⟨1, fun n p hp => ?_⟩
  obtain ⟨p1, e, hp1⟩ := scan_of_Scans hp hs
  exact ⟨p1, by rw [Nat.add_comm]; simp [Parser.parseSignal, e], hp1⟩

theorem SignalTo_tok {inp b lit mid out rest : Str} {tok : Token}
    (hs : Scans inp tok lit mid) (h1 : tok ≠ Token.NEWLINE)
    (h : SignalTo mid (b ++ lit) out rest) : SignalTo inp b out rest := by
  obtain ⟨k, hk⟩ := h
  refine ⟨k + 1, fun n p hp => ?_⟩
  obtain ⟨p1, e, hp1⟩ := scan_of_Scans hp hs
  obtain ⟨p2, e2, hp2⟩ := hk n p1 hp1
  exact ⟨p2, by rw [fuel_shift]; simp [Parser.parseSignal, e, e2, h1], hp2⟩

theorem ArgsTo_close {inp lit rest : Str} {a : List Str}
    (hs : ScansIW inp Token.CLOSE_PAREN lit rest) : ArgsTo inp a a rest := by
  refine ⟨1, fun n p hp => ?_⟩
  obtain ⟨p1, e, hp1⟩ := scanIW_of_ScansIW hp hs
  exact ⟨p1, by rw [Nat.add_comm]; simp [Parser.parseArgs, e], hp1⟩

theorem ArgsTo_addr {inp lit mid rest : Str} {a out : List Str}
    (hs : ScansIW inp Token.MEMADDR lit mid) (h : ArgsTo mid (a ++ [['0', 'x', '0']]) out rest) :
    ArgsTo inp a out rest := by
  obtain ⟨k, hk⟩ := h
  refine ⟨k + 1, fun n p hp => ?_⟩
  obtain ⟨p1, e, hp1⟩ := scanIW_of_ScansIW hp hs
  obtain ⟨p2, e2, hp2⟩ := hk n p1 hp1
  exact ⟨p2, by rw [fuel_shift]; simp [Parser.parseArgs, e, e2], hp2⟩

theorem ArgsTo_sep {inp lit mid rest : Str} {a out : List Str}
    (hs : ScansIW inp Token.SEP lit mid) (h : ArgsTo mid a out rest) :
    ArgsTo inp a out rest := by
  obtain ⟨k, hk⟩ := h
  refine ⟨k + 1, fun n p hp => ?_⟩
  obtain ⟨p1, e, hp1⟩ := scanIW_of_ScansIW hp hs
  obtain ⟨p2, e2, hp2⟩ := hk n p1 hp1
  exact ⟨p2, by rw [fuel_shift]; simp [Parser.parseArgs, e, e2], hp2⟩

theorem ArgsTo_arg {inp lit mid rest : Str} {tok : Token} {a out : List Str}
    (hs : ScansIW inp tok lit mid) (h1 : tok ≠ Token.CLOSE_PAREN) (h2 : tok ≠ Token.MEMADDR)
    (h3 : tok ≠ Token.OPEN_BRACE) (h4 : tok ≠ Token.SEP)
    (h : ArgsTo mid (a ++ [lit]) out rest) : ArgsTo inp a out rest := by
  obtain ⟨k, hk⟩ := h
  refine ⟨k + 1, fun n p hp => ?_⟩
  obtain ⟨p1, e, hp1⟩ := scanIW_of_ScansIW hp hs
  obtain ⟨p2, e2, hp2⟩ := hk n p1 hp1
  exact ⟨p2, by rw [fuel_shift]; simp [Parser.parseArgs, e, e2, h1, h2, h3, h4], hp2⟩

theorem ArgsTo_struct {inp lit mid mid2 arg rest : Str} {a out : List Str}
    (hs : ScansIW inp Token.OPEN_BRACE lit mid) (hst : StructTo mid lit arg mid2)
    (h : ArgsTo mid2 (a ++ [arg]) out rest) : ArgsTo inp a out rest := by
  obtain ⟨k, hk⟩ := h
  obtain ⟨j, hj⟩ := hst
  refine ⟨j + k + 1, fun n p hp => ?_⟩
  obtain ⟨p1, e, hp1⟩ := scanIW_of_ScansIW hp hs
  obtain ⟨p2, e2, hp2⟩ := hj (k + n) p1 hp1
  obtain ⟨p3, e3, hp3⟩ := hk (j + n) p2 hp2
  have f1 : j + k + 1 + n = (j + (k + n)) + 1 := by omega
  have f2 : k + (j + n) = j + (k + n) := by omega
  rw [f2] at e3
  exact ⟨p3, by rw [f1]; simp [Parser.parseArgs, e, e2, e3], hp3⟩

theorem ParsesTo_call {inp f mid1 lit mid2 mid3 lit2 mid4 result rest : Str} {tok : Token}
    {a : List Str}
    (h1 : ScansIW inp tok f mid1) (he : tok ≠ Token.EOF) (hsig : tok ≠ Token.SIGNAL)
    (h2 : ScansIW mid1 Token.OPEN_PAREN lit mid2) (h3 : ArgsTo mid2 [] a mid3)
    (h4 : ScansIW mid3 Token.EQUALS lit2 mid4) (h5 : ResultTo mid4 [] result rest) :
    ParsesTo inp
      (some { Signal := [], FuncName := f, Args := a, Result := result }, none) rest := by
  obtain ⟨k, hk⟩ := h3
  obtain ⟨j, hj⟩ := h5
  refine ⟨k + j, fun n p hp => ?_⟩
  obtain ⟨p1, e1, hp1⟩ := scanIW_of_ScansIW hp h1
  obtain ⟨p2, e2, hp2⟩ := scanIW_of_ScansIW hp1 h2
  obtain ⟨p3, e3, hp3⟩ := hk (j + n) p2 hp2
  obtain ⟨p4, e4, hp4⟩ := scanIW_of_ScansIW hp3 h4
  obtain ⟨p5, e5, hp5⟩ := hj (k + n) p4 hp4
  have f1 : k + j + n = k + (j + n) := by omega
  have f2 : j + (k + n) = k + (j + n) := by omega
  rw [f2] at e5
  exact ⟨p5, by rw [f1]; simp [Parser.Parse, e1, e2, e3, e4, e5, he, hsig], hp5⟩

theorem ParsesTo_signal {inp lit mid sig rest : Str}
    (h1 : ScansIW inp Token.SIGNAL lit mid) (h2 : SignalTo mid lit sig rest) :
    ParsesTo inp
      (some { Signal := sig, FuncName := [], Args := [], Result := [] }, none) rest := by
  obtain ⟨k, hk⟩ := h2
  refine ⟨k, fun n p hp => ?_⟩
  obtain ⟨p1, e1, hp1⟩ := scanIW_of_ScansIW hp h1
  obtain ⟨p2, e2, hp2⟩ := hk n p1 hp1
  exact ⟨p2, by simp [Parser.Parse, e1, e2], hp2⟩

/-! ## Words, blanks and addresses -/

theorem takeWhile_run (p : Char → Bool) (run : Str) (d : Char) (rest : Str)
    (h : ∀ x ∈ run, p x = true) (hd : p d = false) :
    (run ++ d :: rest).takeWhile p = run ∧ (run ++ d :: rest).dropWhile p = d :: rest := by
  induction run with
  | nil => simp [List.takeWhile, List.dropWhile, hd]
  | cons c cs ih =>
    have hc : p c = true := h c (by simp)
    have := ih (fun x hx => h x (by simp [hx]))
    simp [List.takeWhile, List.dropWhile, hc, this]

theorem joinArgs_eq_intercalate (xs : List Str) :
    joinArgs xs = List.intercalate [',', ' '] xs := by
  induction xs with
  | nil => rfl
  | cons a t ih =>
    cases t with
    | nil => simp [joinArgs, List.intercalate]
    | cons b rest =>
      simp only [joinArgs, ih]
      simp [List.intercalate]

theorem isWord_cases {w : Str} (hw : isWord w = true) :
    w = ['0'] ∨ ∃ c run, w = c :: run ∧ (isLetter c || isDigit c) = true ∧ c ≠ '0' ∧
      ∀ x ∈ run, isIdentChar x = true := by
  cases w with
  | nil => simp [isWord, isIdentifier] at hw
  | cons c run =>
    simp only [isWord, isIdentifier, List.head?_cons, Bool.and_eq_true, Bool.or_eq_true,
      List.all_eq_true, bne_iff_ne, ne_eq, Option.some.injEq, beq_iff_eq] at hw
    obtain ⟨⟨h1, h2⟩, h3⟩ := hw
    rcases h3 with h3 | h3
    · exact Or.inr ⟨c, run, rfl, by simpa using h1, h3, h2⟩
    · exact Or.inl h3

theorem isWord_startsSolid {w : Str} (hw : isWord w = true) (t : Str) :
    StartsSolid (w ++ t) := by
  rcases isWord_cases hw with rfl | ⟨c, run, rfl, hc, _, _⟩
  · exact ⟨'0', t, rfl, by decide, by decide⟩
  · refine ⟨c, run ++ t, rfl, ?_, ?_⟩
    · cases h : isWhitespace c
      · rfl
      · exfalso
        have : c = ' ' ∨ c = '\t' := by simpa [isWhitespace] using h
        rcases this with rfl | rfl <;> exact absurd hc (by decide)
    · rintro rfl
      exact absurd hc (by decide)

theorem Scans_word {w : Str} (hw : isWord w = true) (d : Char) (rest : Str)
    (hd : isIdentChar d = false) (hd0 : d ≠ eof) :
    ∃ tok, (tok = Token.IDENT ∨ tok = Token.ILLEGAL) ∧ Scans (w ++ d :: rest) tok w (d :: rest) := by
  rcases isWord_cases hw with rfl | ⟨c, run, rfl, hc, hz, hrun⟩
  · refine ⟨Token.ILLEGAL, Or.inr rfl, Scans_zero (d :: rest) ?_⟩
    have : d ≠ 'x' := by rintro rfl; exact absurd hd (by decide)
    simpa using this
  · obtain ⟨e1, e2⟩ := takeWhile_run isIdentChar run d rest hrun hd
    have h := Scans_ident c (run ++ d :: rest) hc hz (by rw [e2]; simpa using hd0)
    rw [e1, e2] at h
    exact ⟨Token.IDENT, Or.inl rfl, h⟩

theorem Scans_blank {inp : Str} (h : StartsSolid inp) : Scans (' ' :: inp) Token.WS [' '] inp := by
  obtain ⟨c, t, rfl, hc, h0⟩ := h
  have h := Scans_ws ' ' (c :: t) (by decide) (by simpa [List.dropWhile, hc] using h0)
  simpa [List.takeWhile, List.dropWhile, hc] using h

theorem ScansIW_lead {inp rest lit : Str} {tok : Token} (hs : Scans inp tok lit rest)
    (hne : tok ≠ Token.WS) (hsolid : StartsSolid inp) (b : Bool) :
    ScansIW (lead b inp) tok lit rest := by
  cases b
  · exact Or.inl ⟨hs, hne⟩
  · exact Or.inr ⟨[' '], inp, Scans_blank hsolid, hs⟩

theorem isHexDigit_addrChar {c : Char} (h : isHexDigit c = true) :
    isAddrChar c = true ∧ c ≠ eof := by
  constructor
  · cases h' : isAddrChar c
    · exfalso
      have h3 : ¬c = ' ' → ¬c = '\t' → c = '\n' := by
        simpa [isAddrChar, isWhitespace, or_assoc] using h'
      by_cases h1 : c = ' '
      · subst h1; exact absurd h (by decide)
      · by_cases h2 : c = '\t'
        · subst h2; exact absurd h (by decide)
        · have := h3 h1 h2
          subst this; exact absurd h (by decide)
    · rfl
  · rintro rfl
    exact absurd h (by decide)

/-- An address followed by a blank or a newline is one `MEMADDR` token. -/
theorem Scans_hex {h : Str} (hh : ∀ c ∈ h, isHexDigit c = true) (d : Char) (rest : Str)
    (hd : isAddrChar d = false) (hd0 : d ≠ eof) :
    Scans ('0' :: 'x' :: (h ++ d :: rest)) Token.MEMADDR ('0' :: 'x' :: h) (d :: rest) := by
  obtain ⟨e1, e2⟩ := takeWhile_run isAddrChar h d rest
    (fun x hx => (isHexDigit_addrChar (hh x hx)).1) hd
  have := Scans_addr (h ++ d :: rest) (by rw [e2]; simpa using hd0)
    (by rw [e1]; exact fun x hx => (isHexDigit_addrChar (hh x hx)).2)
  rwa [e1, e2] at this

/-- An address directly followed by a comma takes the comma into its literal. -/
theorem Scans_hex_comma {h : Str} (hh : ∀ c ∈ h, isHexDigit c = true) (d : Char) (rest : Str)
    (hd : isAddrChar d = false) (hd0 : d ≠ eof) :
    Scans ('0' :: 'x' :: (h ++ ',' :: d :: rest)) Token.MEMADDR ('0' :: 'x' :: (h ++ [',']))
      (d :: rest) := by
  have hrun : ∀ x ∈ h ++ [','], isAddrChar x = true ∧ x ≠ eof := by
    intro x hx
    rcases List.mem_append.1 hx with hx | hx
    · exact isHexDigit_addrChar (hh x hx)
    · have : x = ',' := by simpa using hx
      subst this
      exact ⟨by decide, by decide⟩
  obtain ⟨e1, e2⟩ := takeWhile_run isAddrChar (h ++ [',']) d rest (fun x hx => (hrun x hx).1) hd
  have e : h ++ ',' :: d :: rest = (h ++ [',']) ++ d :: rest := by simp
  rw [e]
  have := Scans_addr (h ++ [','] ++ d :: rest) (by rw [e2]; simpa using hd0)
    (by rw [e1]; exact fun x hx => (hrun x hx).2)
  rwa [e1, e2] at this

/-! ## Punctuation -/

theorem Scans_open_paren (t : Str) : Scans ('(' :: t) Token.OPEN_PAREN ['('] t :=
  Scans_switch '(' t (by decide)

theorem Scans_close_paren (t : Str) : Scans (')' :: t) Token.CLOSE_PAREN [')'] t :=
  Scans_switch ')' t (by decide)

theorem Scans_open_brace (t : Str) : Scans ('{' :: t) Token.OPEN_BRACE ['{'] t :=
  Scans_switch '{' t (by decide)

theorem Scans_close_brace (t : Str) : Scans ('}' :: t) Token.CLOSE_BRACE ['}'] t :=
  Scans_switch '}' t (by decide)

theorem Scans_equals (t : Str) : Scans ('=' :: t) Token.EQUALS ['='] t :=
  Scans_switch '=' t (by decide)

theorem Scans_sep (t : Str) : Scans (',' :: t) Token.SEP [','] t :=
  Scans_switch ',' t (by decide)

theorem Scans_newline (t : Str) : Scans ('\n' :: t) Token.NEWLINE ['\n'] t :=
  Scans_switch '\n' t (by decide)

theorem word_tok_ne {tok : Token} (h : tok = Token.IDENT ∨ tok = Token.ILLEGAL) :
    tok ≠ Token.CLOSE_BRACE ∧ tok ≠ Token.MEMADDR ∧ tok ≠ Token.NEWLINE ∧
      tok ≠ Token.CLOSE_PAREN ∧ tok ≠ Token.OPEN_BRACE ∧ tok ≠ Token.SEP ∧ tok ≠ Token.WS ∧
      tok ≠ Token.EOF ∧ tok ≠ Token.SIGNAL := by
  rcases h with rfl | rfl <;> decide

theorem joinArgs_cons_start (x : Str) (xs : List Str) : ∃ t, joinArgs (x :: xs) = x ++ t := by
  cases xs with
  | nil => exact ⟨[], by simp [joinArgs]⟩
  | cons y ys => exact ⟨[',', ' '] ++ joinArgs (y :: ys), by simp [joinArgs]⟩

/-! ## Struct arguments -/

theorem fields_startsSolid (g : Str × Val) (gs : List (Str × Val)) (hg : isWord g.1 = true)
    (t : Str) : StartsSolid (joinArgs ((g :: gs).map fieldText) ++ t) := by
  obtain ⟨u, hu⟩ := joinArgs_cons_start (fieldText g) (gs.map fieldText)
  rw [List.map_cons, hu]
  have := isWord_startsSolid hg ('=' :: g.2.text ++ u ++ t)
  simpa [fieldText] using this

theorem StructTo_fields (fs : List (Str × Val)) :
    (∀ f ∈ fs, isWord f.1 = true ∧ f.2.ok = true) →
    (∀ f, fs.getLast? = some f → f.2.isAddr = false) →
    ∀ (rest buf : Str),
      StructTo (joinArgs (fs.map fieldText) ++ '}' :: rest) buf
        (buf ++ structNorm fs ++ ['}']) rest := by
  induction fs with
  | nil =>
    intro _ _ rest buf
    have := StructTo_close (b := buf) (Scans_close_brace rest)
    simpa [joinArgs, structNorm] using this
  | cons f t ih =>
    intro hok hlast rest buf
    obtain ⟨name, v⟩ := f
    obtain ⟨hname, hv⟩ := hok (name, v) (by simp)
    simp only at hname hv
    cases t with
    | nil =>
      cases v with
      | addr h => exact absurd (hlast (name, Val.addr h) (by simp)) (by simp [Val.isAddr])
      | ident w =>
        have hw : isWord w = true := hv
        obtain ⟨t1, ht1, s1⟩ := Scans_word hname '=' (w ++ '}' :: rest) (by decide) (by decide)
        obtain ⟨t3, ht3, s3⟩ := Scans_word hw '}' rest (by decide) (by decide)
        have := StructTo_tok (b := buf) s1 (word_tok_ne ht1).1 (word_tok_ne ht1).2.1
          (StructTo_tok (Scans_equals _) (by decide) (by decide)
            (StructTo_tok s3 (word_tok_ne ht3).1 (word_tok_ne ht3).2.1
              (StructTo_close (Scans_close_brace rest))))
        simpa [joinArgs, structNorm, fieldText, Val.text, Val.norm] using this
    | cons g gs =>
      have hok' : ∀ f ∈ g :: gs, isWord f.1 = true ∧ f.2.ok = true :=
        fun f hf => hok f (by simp [hf])
      have hlast' : ∀ f, (g :: gs).getLast? = some f → f.2.isAddr = false :=
        fun f hf => hlast f (by simpa using hf)
      have hsolid := fields_startsSolid g gs (hok' g (by simp)).1 ('}' :: rest)
      cases v with
      | ident w =>
        have hw : isWord w = true := hv
        obtain ⟨t1, ht1, s1⟩ := Scans_word hname '='
          (w ++ ',' :: ' ' :: (joinArgs ((g :: gs).map fieldText) ++ '}' :: rest))
          (by decide) (by decide)
        obtain ⟨t3, ht3, s3⟩ := Scans_word hw ','
          (' ' :: (joinArgs ((g :: gs).map fieldText) ++ '}' :: rest)) (by decide) (by decide)
        have := StructTo_tok (b := buf) s1 (word_tok_ne ht1).1 (word_tok_ne ht1).2.1
          (StructTo_tok (Scans_equals _) (by decide) (by decide)
            (StructTo_tok s3 (word_tok_ne ht3).1 (word_tok_ne ht3).2.1
              (StructTo_tok (Scans_sep _) (by decide) (by decide)
                (StructTo_tok (Scans_blank hsolid) (by decide) (by decide)
                  (ih hok' hlast' rest _)))))
        simpa [joinArgs, structNorm, fieldText, Val.text, Val.norm, Val.isAddr] using this
      | addr h =>
        have hh : ∀ c ∈ h, isHexDigit c = true := by
          have : Val.ok (Val.addr h) = true := hv
          simp only [Val.ok, Bool.and_eq_true, List.all_eq_true] at this
          exact this.2
        obtain ⟨t1, ht1, s1⟩ := Scans_word hname '='
          ('0' :: 'x' :: (h ++ ',' :: ' ' :: (joinArgs ((g :: gs).map fieldText) ++ '}' :: rest)))
          (by decide) (by decide)
        have := StructTo_tok (b := buf) s1 (word_tok_ne ht1).1 (word_tok_ne ht1).2.1
          (StructTo_tok (Scans_equals _) (by decide) (by decide)
            (StructTo_addr (Scans_hex_comma hh ' ' _ (by decide) (by decide))
              (StructTo_tok (Scans_blank hsolid) (by decide) (by decide)
                (ih hok' hlast' rest _))))
        simpa [joinArgs, structNorm, fieldText, Val.text, Val.norm, Val.isAddr] using this

/-! ## Argument lists, results and whole call lines -/

theorem Arg.ok_struct {fs : List (Str × Val)} (h : (Arg.struct fs).ok = true) :
    (∀ f ∈ fs, isWord f.1 = true ∧ f.2.ok = true) ∧
      (∀ f, fs.getLast? = some f → f.2.isAddr = false) := by
  simp only [Arg.ok, Bool.and_eq_true, List.all_eq_true] at h
  refine ⟨h.1, fun f hf => ?_⟩
  have := h.2
  rw [hf] at this
  simpa using this

theorem Val.ok_addr {h : Str} (hv : (Val.addr h).ok = true) : ∀ c ∈ h, isHexDigit c = true := by
  simp only [Val.ok, Bool.and_eq_true, List.all_eq_true] at hv
  exact hv.2

theorem Arg_text_startsSolid {a : Arg} (ha : a.ok = true) (t : Str) :
    StartsSolid (a.text ++ t) := by
  cases a with
  | val v =>
    cases v with
    | ident w => exact isWord_startsSolid (w := w) ha t
    | addr h => exact ⟨'0', 'x' :: (h ++ t), by simp [Arg.text, Val.text], by decide, by decide⟩
  | struct fs =>
    exact ⟨'{', joinArgs (fs.map fieldText) ++ ['}'] ++ t, by simp [Arg.text], by decide,
      by decide⟩

theorem args_startsSolid (a : Arg) (as : List Arg) (ha : a.ok = true) (t : Str) :
    StartsSolid (joinArgs ((a :: as).map Arg.text) ++ t) := by
  obtain ⟨u, hu⟩ := joinArgs_cons_start a.text (as.map Arg.text)
  rw [List.map_cons, hu, List.append_assoc]
  exact Arg_text_startsSolid ha (u ++ t)

theorem ArgsTo_args (args : List Arg) :
    (∀ a ∈ args, a.ok = true) →
    (∀ a, args.getLast? = some a → a.isAddr = false) →
    ∀ (b : Bool) (rest : Str) (acc : List Str),
      ArgsTo (lead b (joinArgs (args.map Arg.text) ++ ')' :: rest)) acc
        (acc ++ args.map Arg.norm) rest := by
  induction args with
  | nil =>
    intro _ _ b rest acc
    have := ArgsTo_close (a := acc) (ScansIW_lead (Scans_close_paren rest) (by decide)
      ⟨')', rest, rfl, by decide, by decide⟩ b)
    simpa [joinArgs] using this
  | cons a t ih =>
    intro hok hlast b rest acc
    have ha : a.ok = true := hok a (by simp)
    have hsolid := args_startsSolid a t ha (')' :: rest)
    cases t with
    | nil =>
      cases a with
      | val v =>
        cases v with
        | addr h => exact absurd (hlast (Arg.val (Val.addr h)) (by simp)) (by simp [Arg.isAddr, Val.isAddr])
        | ident w =>
          obtain ⟨t1, ht1, s1⟩ := Scans_word (w := w) ha ')' rest (by decide) (by decide)
          have hs : StartsSolid (w ++ ')' :: rest) := by
            simpa [joinArgs, Arg.text, Val.text] using hsolid
          have := ArgsTo_arg (a := acc) (ScansIW_lead s1 (word_tok_ne ht1).2.2.2.2.2.2.1 hs b)
            (word_tok_ne ht1).2.2.2.1 (word_tok_ne ht1).2.1 (word_tok_ne ht1).2.2.2.2.1
            (word_tok_ne ht1).2.2.2.2.2.1
            (ArgsTo_close (Or.inl ⟨Scans_close_paren rest, by decide⟩))
          simpa [joinArgs, Arg.text, Val.text, Arg.norm, Val.norm] using this
      | struct fs =>
        obtain ⟨h1, h2⟩ := Arg.ok_struct ha
        have hs : StartsSolid ('{' :: (joinArgs (fs.map fieldText) ++ '}' :: ')' :: rest)) :=
          ⟨'{', _, rfl, by decide, by decide⟩
        have := ArgsTo_struct (a := acc) (ScansIW_lead (Scans_open_brace _) (by decide) hs b)
          (StructTo_fields fs h1 h2 (')' :: rest) ['{'])
          (ArgsTo_close (Or.inl ⟨Scans_close_paren rest, by decide⟩))
        simpa [joinArgs, Arg.text, Arg.norm] using this
    | cons a2 as =>
      have hok' : ∀ x ∈ a2 :: as, x.ok = true := fun x hx => hok x (by simp [hx])
      have hlast' : ∀ x, (a2 :: as).getLast? = some x → x.isAddr = false :=
        fun x hx => hlast x (by simpa using hx)
      have hnext := args_startsSolid a2 as (hok' a2 (by simp)) (')' :: rest)
      cases a with
      | val v =>
        cases v with
        | ident w =>
          obtain ⟨t1, ht1, s1⟩ := Scans_word (w := w) ha ','
            (' ' :: (joinArgs ((a2 :: as).map Arg.text) ++ ')' :: rest)) (by decide) (by decide)
          have hs : StartsSolid
              (w ++ ',' :: ' ' :: (joinArgs ((a2 :: as).map Arg.text) ++ ')' :: rest)) :=
            isWord_startsSolid (w := w) ha _
          have := ArgsTo_arg (a := acc) (ScansIW_lead s1 (word_tok_ne ht1).2.2.2.2.2.2.1 hs b)
            (word_tok_ne ht1).2.2.2.1 (word_tok_ne ht1).2.1 (word_tok_ne ht1).2.2.2.2.1
            (word_tok_ne ht1).2.2.2.2.2.1
            (ArgsTo_sep (Or.inl ⟨Scans_sep _, by decide⟩) (ih hok' hlast' true rest _))
          simpa [joinArgs, Arg.text, Val.text, Arg.norm, Val.norm, lead] using this
        | addr h =>
          have hh := Val.ok_addr (h := h) ha
          have hs : StartsSolid ('0' :: 'x' ::
              (h ++ ',' :: ' ' :: (joinArgs ((a2 :: as).map Arg.text) ++ ')' :: rest))) :=
            ⟨'0', _, rfl, by decide, by decide⟩
          have := ArgsTo_addr (a := acc)
            (ScansIW_lead (Scans_hex_comma hh ' ' _ (by decide) (by decide)) (by decide) hs b)
            (ih hok' hlast' true rest _)
          simpa [joinArgs, Arg.text, Val.text, Arg.norm, Val.norm, lead] using this
      | struct fs =>
        obtain ⟨h1, h2⟩ := Arg.ok_struct ha
        have hs : StartsSolid ('{' :: (joinArgs (fs.map fieldText) ++ '}' :: ',' :: ' ' ::
            (joinArgs ((a2 :: as).map Arg.text) ++ ')' :: rest))) :=
          ⟨'{', _, rfl, by decide, by decide⟩
        have := ArgsTo_struct (a := acc) (ScansIW_lead (Scans_open_brace _) (by decide) hs b)
          (StructTo_fields fs h1 h2 _ ['{'])
          (ArgsTo_sep (Or.inl ⟨Scans_sep _, by decide⟩) (ih hok' hlast' true rest _))
        simpa [joinArgs, Arg.text, Arg.norm, lead] using this

theorem Val_text_startsSolid {r : Val} (hr : r.ok = true) (t : Str) :
    StartsSolid (r.text ++ t) :=
  Arg_text_startsSolid (a := Arg.val r) hr t

theorem ResultTo_val (r : Val) (hr : r.ok = true) (rest : Str) :
    ResultTo (' ' :: (r.text ++ '\n' :: rest)) [] (' ' :: r.norm) rest := by
  have hsolid := Val_text_startsSolid hr ('\n' :: rest)
  cases r with
  | ident w =>
    obtain ⟨t1, ht1, s1⟩ := Scans_word (w := w) hr '\n' rest (by decide) (by decide)
    have := ResultTo_tok (b := []) (Scans_blank hsolid) (by decide) (by decide)
      (ResultTo_tok s1 (word_tok_ne ht1).2.1 (word_tok_ne ht1).2.2.1
        (ResultTo_newline (Scans_newline rest)))
    simpa [Val.text, Val.norm] using this
  | addr h =>
    have hh := Val.ok_addr hr
    have := ResultTo_tok (b := []) (Scans_blank hsolid) (by decide) (by decide)
      (ResultTo_addr (Scans_hex hh '\n' rest (by decide) (by decide))
        (ResultTo_newline (Scans_newline rest)))
    simpa [Val.text, Val.norm] using this

/-- A call line of words, addresses and structs parses to the record of its
normalised parts; the text after its newline is left unread. -/
theorem ParsesTo_line (f : Str) (args : List Arg) (r : Val) (rest : Str)
    (hf : isWord f = true) (hok : ∀ a ∈ args, a.ok = true)
    (hlast : ∀ a, args.getLast? = some a → a.isAddr = false) (hr : r.ok = true) :
    ParsesTo (lineText f args r ++ rest)
      (some { Signal := [], FuncName := f, Args := args.map Arg.norm, Result := ' ' :: r.norm },
        none) rest := by
  obtain ⟨t1, ht1, s1⟩ := Scans_word hf '('
    (joinArgs (args.map Arg.text) ++ ')' :: ' ' :: '=' :: ' ' :: (r.text ++ '\n' :: rest))
    (by decide) (by decide)
  have hargs := ArgsTo_args args hok hlast false
    (' ' :: '=' :: ' ' :: (r.text ++ '\n' :: rest)) []
  have := ParsesTo_call (Or.inl ⟨s1, (word_tok_ne ht1).2.2.2.2.2.2.1⟩)
    (word_tok_ne ht1).2.2.2.2.2.2.2.1 (word_tok_ne ht1).2.2.2.2.2.2.2.2
    (Or.inl ⟨Scans_open_paren _, by decide⟩) hargs
    (Or.inr ⟨[' '], _, Scans_blank ⟨'=', _, rfl, by decide, by decide⟩, Scans_equals _⟩)
    (ResultTo_val r hr rest)
  simpa [lineText, lead] using this

/-! ## Unparse -/

theorem unparseArgs_nonempty (args : List Str) (hne : args ≠ []) :
    ∀ (idx len : Int), len = idx + args.length →
      OutputLine.unparseArgs len idx args = joinArgs args ++ [')'] := by
  induction args with
  | nil => exact absurd rfl hne
  | cons a t ih =>
    intro idx len hlen
    cases t with
    | nil =>
      have : ¬ idx < len - 1 := by simp at hlen; omega
      simp [OutputLine.unparseArgs, joinArgs, this]
    | cons b rest =>
      have h1 : idx < len - 1 := by simp at hlen; omega
      have := ih (by simp) (idx + 1) len (by simp at hlen ⊢; omega)
      simp only [OutputLine.unparseArgs] at this ⊢
      simp [joinArgs, h1, this]

theorem Unparse_call (f : Str) (args : List Str) (r : Str) (hne : args ≠ []) :
    OutputLine.Unparse { Signal := [], FuncName := f, Args := args, Result := r }
      = f ++ ['('] ++ List.intercalate [',', ' '] args ++ [')'] ++ [' ', '=', ' '] ++ r := by
  simp [OutputLine.Unparse, unparseArgs_nonempty args hne 0 args.length (by simp),
    joinArgs_eq_intercalate]

theorem Unparse_signal (sig : Str) (hne : sig ≠ []) :
    OutputLine.Unparse { Signal := sig, FuncName := [], Args := [], Result := [] } = sig := by
  simp [OutputLine.Unparse, hne]

/-! ## Loops that never finish -/

theorem ScansIW_nil : ScansIW [] Token.EOF [] [] :=
  Or.inl ⟨Scans_nil, by decide⟩

/-- From `inp` on, the argument loop finishes for no bound on its iterations. -/
theorem parseArgs_diverges_step {inp lit mid : Str} {tok : Token}
    (hs : ScansIW inp tok lit mid) (h1 : tok ≠ Token.CLOSE_PAREN) (h2 : tok ≠ Token.OPEN_BRACE)
    (h : ∀ n p args, Parser.At p mid → Parser.parseArgs n p args = none) :
    ∀ n p args, Parser.At p inp → Parser.parseArgs n p args = none := by
  intro n p args hp
  cases n with
  | zero => rfl
  | succ n =>
    obtain ⟨p1, e, hp1⟩ := scanIW_of_ScansIW hp hs
    simp only [Parser.parseArgs, e, h1, h2, if_false, h n p1 _ hp1]
    split_ifs <;> rfl

theorem parseArgs_eof : ∀ n p args, Parser.At p [] → Parser.parseArgs n p args = none := by
  intro n
  induction n with
  | zero => intro p args _; rfl
  | succ n ih =>
    intro p args hp
    obtain ⟨p1, e, hp1⟩ := scanIW_of_ScansIW hp ScansIW_nil
    simp [Parser.parseArgs, e, ih p1 _ hp1]

theorem parseResult_diverges_step {inp lit mid : Str} {tok : Token}
    (hs : Scans inp tok lit mid) (h1 : tok ≠ Token.NEWLINE)
    (h : ∀ n p buf, Parser.At p mid → Parser.parseResult n p buf = none) :
    ∀ n p buf, Parser.At p inp → Parser.parseResult n p buf = none := by
  intro n p buf hp
  cases n with
  | zero => rfl
  | succ n =>
    obtain ⟨p1, e, hp1⟩ := scan_of_Scans hp hs
    simp only [Parser.parseResult, e, h1, if_false, h n p1 _ hp1]
    split_ifs <;> rfl

theorem parseResult_eof : ∀ n p buf, Parser.At p [] → Parser.parseResult n p buf = none := by
  intro n
  induction n with
  | zero => intro p buf _; rfl
  | succ n ih =>
    intro p buf hp
    obtain ⟨p1, e, hp1⟩ := scan_of_Scans hp Scans_nil
    simp [Parser.parseResult, e, ih p1 _ hp1]

theorem Parse_diverges_args {inp f mid1 lit mid2 : Str} {tok : Token}
    (h1 : ScansIW inp tok f mid1) (he : tok ≠ Token.EOF) (hsig : tok ≠ Token.SIGNAL)
    (h2 : ScansIW mid1 Token.OPEN_PAREN lit mid2)
    (h3 : ∀ n p args, Parser.At p mid2 → Parser.parseArgs n p args = none) :
    ∀ fuel p, Parser.At p inp → Parser.Parse fuel p = none := by
  intro fuel p hp
  obtain ⟨p1, e1, hp1⟩ := scanIW_of_ScansIW hp h1
  obtain ⟨p2, e2, hp2⟩ := scanIW_of_ScansIW hp1 h2
  simp [Parser.Parse, e1, e2, he, hsig, h3 fuel p2 _ hp2]

/-! ## More fuel does not change a result -/

theorem parseStruct_mono : ∀ (n : Nat) (p : Parser) (buf : Str) (r : Str × Parser),
    Parser.parseStruct n p buf = some r → ∀ m, Parser.parseStruct (n + m) p buf = some r := by
  intro n
  induction n with
  | zero => intro p buf r h; simp [Parser.parseStruct] at h
  | succ n ih =>
    intro p buf r h m
    rw [Nat.add_right_comm]
    simp only [Parser.parseStruct] at h ⊢
    split_ifs at h ⊢ with h1 h2
    · exact h
    · exact ih _ _ _ h m
    · exact ih _ _ _ h m

theorem parseArgs_mono : ∀ (n : Nat) (p : Parser) (args : List Str) (r : List Str × Parser),
    Parser.parseArgs n p args = some r → ∀ m, Parser.parseArgs (n + m) p args = some r := by
  intro n
  induction n with
  | zero => intro p args r h; simp [Parser.parseArgs] at h
  | succ n ih =>
    intro p args r h m
    rw [Nat.add_right_comm]
    simp only [Parser.parseArgs] at h ⊢
    split_ifs at h ⊢ with h1 h2 h3 h4 h5
    · exact h
    · exact ih _ _ _ h m
    · cases hst : Parser.parseStruct n p.scanIgnoreWhitespace.2 p.scanIgnoreWhitespace.1.2 with
      | none => simp [hst] at h
      | some x =>
        rw [parseStruct_mono _ _ _ _ hst m]
        rw [hst] at h
        exact ih _ _ _ h m
    · exact ih _ _ _ h m
    · exact ih _ _ _ h m
    · exact ih _ _ _ h m

theorem parseResult_mono : ∀ (n : Nat) (p : Parser) (buf : Str) (r : Str × Parser),
    Parser.parseResult n p buf = some r → ∀ m, Parser.parseResult (n + m) p buf = some r := by
  intro n
  induction n with
  | zero => intro p buf r h; simp [Parser.parseResult] at h
  | succ n ih =>
    intro p buf r h m
    rw [Nat.add_right_comm]
    simp only [Parser.parseResult] at h ⊢
    split_ifs at h ⊢ with h1 h2
    · exact ih _ _ _ h m
    · exact h
    · exact ih _ _ _ h m

theorem parseSignal_mono : ∀ (n : Nat) (p : Parser) (buf : Str) (r : Str × Parser),
    Parser.parseSignal n p buf = some r → ∀ m, Parser.parseSignal (n + m) p buf = some r := by
  intro n
  induction n with
  | zero => intro p buf r h; simp [Parser.parseSignal] at h
  | succ n ih =>
    intro p buf r h m
    rw [Nat.add_right_comm]
    simp only [Parser.parseSignal] at h ⊢
    split_ifs at h ⊢ with h1
    · exact h
    · exact ih _ _ _ h m

theorem Parse_mono (n : Nat) (p : Parser) (r : (Option OutputLine × Option Error) × Parser)
    (h : Parser.Parse n p = some r) (m : Nat) : Parser.Parse (n + m) p = some r := by
  simp only [Parser.Parse] at h ⊢
  split_ifs at h ⊢ with h1 h2 h3
  · exact h
  · cases hs : Parser.parseSignal n p.scanIgnoreWhitespace.2 p.scanIgnoreWhitespace.1.2 with
    | none => simp [hs] at h
    | some x =>
      rw [parseSignal_mono _ _ _ _ hs m]
      rw [hs] at h
      exact h
  · cases ha : Parser.parseArgs n p.scanIgnoreWhitespace.2.scanIgnoreWhitespace.2 [] with
    | none => simp [ha] at h
    | some x =>
      rw [parseArgs_mono _ _ _ _ ha m]
      rw [ha] at h
      simp only at h ⊢
      split_ifs at h ⊢ with h5
      · exact h
      · cases hr : Parser.parseResult n x.2.scanIgnoreWhitespace.2 [] with
        | none => simp [hr] at h
        | some y =>
          rw [parseResult_mono _ _ _ _ hr m]
          rw [hr] at h
          exact h
  · exact h

theorem Parse_diverges_result {inp f mid1 lit mid2 mid3 lit2 mid4 : Str} {tok : Token}
    {args : List Str}
    (h1 : ScansIW inp tok f mid1) (he : tok ≠ Token.EOF) (hsig : tok ≠ Token.SIGNAL)
    (h2 : ScansIW mid1 Token.OPEN_PAREN lit mid2) (h3 : ArgsTo mid2 [] args mid3)
    (h4 : ScansIW mid3 Token.EQUALS lit2 mid4)
    (h5 : ∀ n p buf, Parser.At p mid4 → Parser.parseResult n p buf = none) :
    ∀ fuel p, Parser.At p inp → Parser.Parse fuel p = none := by
  intro fuel p hp
  obtain ⟨p1, e1, hp1⟩ := scanIW_of_ScansIW hp h1
  obtain ⟨p2, e2, hp2⟩ := scanIW_of_ScansIW hp1 h2
  cases hargs : Parser.parseArgs fuel p2 [] with
  | none => simp [Parser.Parse, e1, e2, he, hsig, hargs]
  | some x =>
    obtain ⟨k, hk⟩ := h3
    obtain ⟨p3, e3, hp3⟩ := hk fuel p2 hp2
    have hm := parseArgs_mono _ _ _ _ hargs k
    rw [Nat.add_comm, e3] at hm
    have hx : x = (args, p3) := by simpa using hm.symm
    subst hx
    obtain ⟨p4, e4, hp4⟩ := scanIW_of_ScansIW hp3 h4
    simp [Parser.Parse, e1, e2, he, hsig, hargs, e4, h5 fuel p4 _ hp4]

/-! ## Literals are not empty -/

theorem scanAddressLoop_extends : ∀ (n : Nat) (s : Scanner) (buf : Str),
    ∃ t, (Scanner.scanAddressLoop n s buf).1 = buf ++ t := by
  intro n
  induction n with
  | zero => intro s buf; exact ⟨[], by simp [Scanner.scanAddressLoop]⟩
  | succ n ih =>
    intro s buf
    simp only [Scanner.scanAddressLoop]
    split_ifs
    · exact ⟨[], by simp⟩
    · exact ⟨[], by simp⟩
    · obtain ⟨t, ht⟩ := ih s.read.2 (buf ++ [s.read.1])
      exact ⟨s.read.1 :: t, by rw [ht]; simp⟩

theorem scanStringLoop_extends : ∀ (n : Nat) (s : Scanner) (buf : Str),
    ∃ t, (Scanner.scanStringLoop n s buf).1 = buf ++ t := by
  intro n
  induction n with
  | zero => intro s buf; exact ⟨[], by simp [Scanner.scanStringLoop]⟩
  | succ n ih =>
    intro s buf
    simp only [Scanner.scanStringLoop]
    split_ifs
    · exact ⟨[], by simp⟩
    · exact ⟨[s.read.1] ++ ['.', '.', '.'], by simp⟩
    · exact ⟨_, rfl⟩
    · obtain ⟨t, ht⟩ := ih s.read.2 (buf ++ [s.read.1])
      exact ⟨s.read.1 :: t, by rw [ht]; simp⟩

theorem scanWhitespaceLoop_extends : ∀ (n : Nat) (s : Scanner) (buf : Str),
    ∃ t, (Scanner.scanWhitespaceLoop n s buf).1 = buf ++ t := by
  intro n
  induction n with
  | zero => intro s buf; exact ⟨[], by simp [Scanner.scanWhitespaceLoop]⟩
  | succ n ih =>
    intro s buf
    simp only [Scanner.scanWhitespaceLoop]
    split_ifs
    · exact ⟨[], by simp⟩
    · exact ⟨[], by simp⟩
    · obtain ⟨t, ht⟩ := ih s.read.2 (buf ++ [s.read.1])
      exact ⟨s.read.1 :: t, by rw [ht]; simp⟩

theorem scanIdentLoop_extends : ∀ (n : Nat) (s : Scanner) (buf : Str),
    ∃ t, (Scanner.scanIdentLoop n s buf).1 = buf ++ t := by
  intro n
  induction n with
  | zero => intro s buf; exact ⟨[], by simp [Scanner.scanIdentLoop]⟩
  | succ n ih =>
    intro s buf
    simp only [Scanner.scanIdentLoop]
    split_ifs
    · exact ⟨[], by simp⟩
    · exact ⟨[], by simp⟩
    · obtain ⟨t, ht⟩ := ih s.read.2 (buf ++ [s.read.1])
      exact ⟨s.read.1 :: t, by rw [ht]; simp⟩

theorem scanSwitch_lit (r : Char) (h : (Scanner.scanSwitch r).1 ≠ Token.EOF) :
    (Scanner.scanSwitch r).2 ≠ [] := by
  unfold Scanner.scanSwitch at h ⊢
  split_ifs at h ⊢ <;> simp at h ⊢

/-- Only the `EOF` token has an empty literal. -/
theorem Scan_lit_ne (s : Scanner) (h : (Scanner.Scan s).1.1 ≠ Token.EOF) :
    (Scanner.Scan s).1.2 ≠ [] := by
  unfold Scanner.Scan at h ⊢
  simp only at h ⊢
  split_ifs at h ⊢
  · obtain ⟨t, ht⟩ := scanAddressLoop_extends (s.read.2.read.2.input.length + 1)
      s.read.2.read.2 ['0', 'x']
    simp [Scanner.scanAddress, ht]
  · exact scanSwitch_lit _ h
  · simp
  · exact scanSwitch_lit _ h
  · exact scanSwitch_lit _ h
  · obtain ⟨t, ht⟩ := scanStringLoop_extends (s.read.2.input.length + 1) s.read.2 ['"']
    simp [Scanner.scanString, ht]
  · obtain ⟨t, ht⟩ := scanWhitespaceLoop_extends
      (s.read.2.unreadRune.2.read.2.input.length + 1) s.read.2.unreadRune.2.read.2
      [s.read.2.unreadRune.2.read.1]
    simp [Scanner.scanWhitespace, ht]
  · obtain ⟨t, ht⟩ := scanIdentLoop_extends
      (s.read.2.unreadRune.2.read.2.input.length + 1) s.read.2.unreadRune.2.read.2
      [s.read.2.unreadRune.2.read.1]
    simp [Scanner.scanIdent, ht]
  · exact scanSwitch_lit _ h

theorem scan_n_zero (p : Parser) (h : p.buf.n = 0) :
    p.scan = ((Scanner.Scan p.s).1, ⟨(Scanner.Scan p.s).2,
      ⟨(Scanner.Scan p.s).1.1, (Scanner.Scan p.s).1.2, 0⟩⟩) := by
  simp [Parser.scan, h]

theorem scan_leaves_zero (p : Parser) : p.scan.2.buf.n = 0 := by
  unfold Parser.scan
  split_ifs with h
  · rfl
  · simpa using h

theorem scanIW_leaves_zero (p : Parser) : p.scanIgnoreWhitespace.2.buf.n = 0 := by
  unfold Parser.scanIgnoreWhitespace
  simp only
  split_ifs
  · exact scan_leaves_zero _
  · exact scan_leaves_zero _

theorem scan_lit_ne (p : Parser) (hn : p.buf.n = 0) (h : p.scan.1.1 ≠ Token.EOF) :
    p.scan.1.2 ≠ [] := by
  rw [scan_n_zero p hn] at h ⊢
  exact Scan_lit_ne _ h

theorem scanIW_lit_ne (p : Parser) (hn : p.buf.n = 0)
    (h : p.scanIgnoreWhitespace.1.1 ≠ Token.EOF) : p.scanIgnoreWhitespace.1.2 ≠ [] := by
  unfold Parser.scanIgnoreWhitespace at h ⊢
  simp only at h ⊢
  split_ifs at h ⊢
  · exact scan_lit_ne _ (scan_leaves_zero p) h
  · exact scan_lit_ne _ hn h

theorem parseSignal_extends : ∀ (n : Nat) (p : Parser) (buf out : Str) (p1 : Parser),
    Parser.parseSignal n p buf = some (out, p1) → ∃ t, out = buf ++ t := by
  intro n
  induction n with
  | zero => intro p buf out p1 h; simp [Parser.parseSignal] at h
  | succ n ih =>
    intro p buf out p1 h
    simp only [Parser.parseSignal] at h
    split_ifs at h
    · simp only [Option.some.injEq, Prod.mk.injEq] at h
      exact ⟨[], by simp [h.1]⟩
    · obtain ⟨t, ht⟩ := ih _ _ _ _ h
      exact ⟨p.scan.1.2 ++ t, by rw [ht]; simp⟩

/-! ## Plain text is scanned without loss -/

theorem takeWhile_append_stop (p : Char → Bool) (t tail : Str)
    (h : ∀ d ∈ tail.head?, p d = false) :
    (t ++ tail).takeWhile p = t.takeWhile p ∧
      (t ++ tail).dropWhile p = t.dropWhile p ++ tail := by
  induction t with
  | nil =>
    cases tail with
    | nil => simp
    | cons d rest =>
      have hd : p d = false := h d (by simp)
      simp [List.takeWhile, List.dropWhile, hd]
  | cons c cs ih =>
    cases hc : p c
    · simp [List.takeWhile, List.dropWhile, hc]
    · simp [List.takeWhile, List.dropWhile, hc, ih]

theorem dashesOk_cons {c : Char} {t : Str} (hc : c ≠ '-') : dashesOk (c :: t) = dashesOk t := by
  match t with
  | [] => simp [dashesOk]
  | [c2] => simp [dashesOk, hc]
  | c2 :: c3 :: t => simp [dashesOk, hc]

theorem dashesOk_dash_cons {c2 : Char} {t : Str} (hc : c2 ≠ '-') :
    dashesOk ('-' :: c2 :: t) = dashesOk (c2 :: t) := by
  match t with
  | [] => simp [dashesOk, hc]
  | c3 :: t => simp [dashesOk, hc]

theorem Plain_nil : Plain [] :=
  ⟨by simp, by simp, rfl⟩

theorem Plain.tail {c : Char} {t : Str} (h : Plain (c :: t)) (hc : c ≠ '-') : Plain t := by
  obtain ⟨h1, h2, h3⟩ := h
  refine ⟨fun x hx => h1 x (by simp [hx]), fun hi => h2 ?_, ?_⟩
  · exact List.IsInfix.trans hi (List.infix_cons (List.infix_refl t))
  · rwa [dashesOk_cons hc] at h3

theorem Plain.drop {pre t : Str} (h : Plain (pre ++ t)) (hpre : ∀ c ∈ pre, c ≠ '-') :
    Plain t := by
  induction pre with
  | nil => simpa using h
  | cons c cs ih =>
    exact ih (Plain.tail h (hpre c (by simp))) (fun x hx => hpre x (by simp [hx]))

theorem Plain.dropWhile {t : Str} (h : Plain t) (p : Char → Bool) (hp : p '-' = false) :
    Plain (t.dropWhile p) := by
  have e := List.takeWhile_append_dropWhile p t
  rw [← e] at h
  refine Plain.drop h (fun c hc => ?_)
  rintro rfl
  have := List.mem_takeWhile_imp hc
  rw [hp] at this
  cases this

theorem head_dropWhile_append_ne_eof {t tail : Str} (p : Char → Bool)
    (ht : ∀ c ∈ t, c ≠ eof) (htail : LineEnd tail) :
    (t.dropWhile p ++ tail).head? ≠ some eof := by
  cases hd : t.dropWhile p with
  | nil =>
    rcases htail with rfl | ⟨rest, rfl⟩
    · simp
    · simp only [List.nil_append, List.head?_cons, ne_eq, Option.some.injEq]
      decide
  | cons d ds =>
    have hmem : d ∈ t := by
      have : d ∈ t.dropWhile p := by rw [hd]; simp
      exact (List.dropWhile_sublist p).subset this
    simpa using ht d hmem

theorem LineEnd.head_false {tail : Str} (h : LineEnd tail) (p : Char → Bool)
    (hp : p '\n' = false) : ∀ d ∈ tail.head?, p d = false := by
  rcases h with rfl | ⟨rest, rfl⟩
  · simp
  · intro d hd
    have : d = '\n' := by simpa using hd.symm
    rw [this]
    exact hp

theorem scanSwitch_plain {c : Char} (h0 : c ≠ eof) (hn : c ≠ '\n') :
    (Scanner.scanSwitch c).2 = [c] ∧ (Scanner.scanSwitch c).1 ≠ Token.NEWLINE ∧
      (Scanner.scanSwitch c).1 ≠ Token.MEMADDR ∧ (Scanner.scanSwitch c).1 ≠ Token.EOF := by
  unfold Scanner.scanSwitch
  split_ifs <;> simp_all

/-- One token of plain text: `Scan` returns a prefix `lit` of the text, not
empty, as a token that is neither `NEWLINE`, `MEMADDR` nor `EOF`, and the rest
of the text is plain again. -/
theorem Scans_plain_step (c : Char) (t1 tail : Str) (h : Plain (c :: t1)) (htail : LineEnd tail) :
    ∃ tok lit t2, Scans (c :: t1 ++ tail) tok lit (t2 ++ tail) ∧ c :: t1 = lit ++ t2 ∧
      lit ≠ [] ∧ tok ≠ Token.NEWLINE ∧ tok ≠ Token.MEMADDR ∧ tok ≠ Token.EOF ∧ Plain t2 := by
  have hc := h.1 c (by simp)
  have hne : ∀ x ∈ t1, x ≠ eof := fun x hx => (h.1 x (by simp [hx])).2.1
  by_cases hz : c = '0'
  · subst hz
    refine ⟨Token.ILLEGAL, ['0'], t1, Scans_zero (t1 ++ tail) ?_, rfl, by simp, by decide,
      by decide, by decide, Plain.tail h (by decide)⟩
    cases t1 with
    | nil =>
      rcases htail with rfl | ⟨rest, rfl⟩
      · simp
      · simp only [List.nil_append, List.head?_cons, ne_eq, Option.some.injEq]
        decide
    | cons d ds =>
      have : d ≠ 'x' := by
        rintro rfl
        exact h.2.1 (List.IsPrefix.isInfix ⟨ds, rfl⟩)
      simpa using this
  by_cases hd : c = '-'
  · subst hd
    cases t1 with
    | nil =>
      refine ⟨Token.ILLEGAL, ['-'], [], Scans_dash tail ?_, rfl, by simp, by decide, by decide,
        by decide, Plain_nil⟩
      rcases htail with rfl | ⟨rest, rfl⟩
      · simp
      · simp only [List.head?_cons, ne_eq, Option.some.injEq]
        decide
    | cons c2 t2 =>
      by_cases h2 : c2 = '-'
      · subst h2
        have hd3 := h.2.2
        cases t2 with
        | nil => simp [dashesOk] at hd3
        | cons c3 t3 =>
          simp only [dashesOk, and_self, if_true, Bool.and_eq_true, beq_iff_eq] at hd3
          obtain ⟨rfl, hd3⟩ := hd3
          refine ⟨Token.SIGNAL, ['-', '-', '-'], t3, Scans_signal (t3 ++ tail), rfl, by simp,
            by decide, by decide, by decide, ?_, ?_, hd3⟩
          · exact fun x hx => h.1 x (by simp [hx])
          · intro hi
            exact h.2.1 (List.IsInfix.trans hi
              (List.IsSuffix.isInfix ⟨['-', '-', '-'], rfl⟩))
      · have hd3 := h.2.2
        rw [dashesOk_dash_cons h2] at hd3
        refine ⟨Token.ILLEGAL, ['-'], c2 :: t2, Scans_dash (c2 :: t2 ++ tail) (by simpa using h2),
          rfl, by simp, by decide, by decide, by decide, ?_, ?_, ?_⟩
        · exact fun x hx => h.1 x (List.mem_cons_of_mem _ hx)
        · intro hi
          exact h.2.1 (List.IsInfix.trans hi (List.infix_cons (List.infix_refl _)))
        · exact hd3
  by_cases hw : isWhitespace c = true
  · obtain ⟨e1, e2⟩ := takeWhile_append_stop isWhitespace t1 tail
      (htail.head_false isWhitespace (by decide))
    have hs := Scans_ws c (t1 ++ tail) hw
      (by rw [e2]; exact head_dropWhile_append_ne_eof isWhitespace hne htail)
    rw [e1, e2] at hs
    refine ⟨Token.WS, c :: t1.takeWhile isWhitespace, t1.dropWhile isWhitespace, hs, ?_,
      by simp, by decide, by decide, by decide,
      Plain.dropWhile (Plain.tail h hd) isWhitespace (by decide)⟩
    simp [List.takeWhile_append_dropWhile]
  by_cases hl : (isLetter c || isDigit c) = true
  · obtain ⟨e1, e2⟩ := takeWhile_append_stop isIdentChar t1 tail
      (htail.head_false isIdentChar (by decide))
    have hs := Scans_ident c (t1 ++ tail) hl hz
      (by rw [e2]; exact head_dropWhile_append_ne_eof isIdentChar hne htail)
    rw [e1, e2] at hs
    refine ⟨Token.IDENT, c :: t1.takeWhile isIdentChar, t1.dropWhile isIdentChar, hs, ?_,
      by simp, by decide, by decide, by decide,
      Plain.dropWhile (Plain.tail h hd) isIdentChar (by decide)⟩
    simp [List.takeWhile_append_dropWhile]
  · have hsw : isSwitchChar c = true := by
      simp only [isSwitchChar, Bool.and_eq_true, bne_iff_ne, ne_eq, Bool.not_eq_true']
      exact ⟨⟨⟨⟨hz, hd⟩, hc.1⟩, by simpa using hw⟩, by simpa using hl⟩
    obtain ⟨f1, f2, f3, f4⟩ := scanSwitch_plain hc.2.1 hc.2.2
    have hs := Scans_switch c (t1 ++ tail) hsw
    rw [f1] at hs
    exact ⟨_, [c], t1, hs, rfl, by simp, f2, f3, f4, Plain.tail h hd⟩

theorem SignalTo_plain : ∀ (n : Nat) (t : Str), t.length ≤ n → Plain t →
    ∀ (buf rest : Str), SignalTo (t ++ '\n' :: rest) buf (buf ++ t) rest := by
  intro n
  induction n with
  | zero =>
    intro t hlen _ buf rest
    have : t = [] := List.length_eq_zero.1 (Nat.le_zero.1 hlen)
    subst this
    simpa using SignalTo_newline (b := buf) (Scans_newline rest)
  | succ n ih =>
    intro t hlen hp buf rest
    cases t with
    | nil => simpa using SignalTo_newline (b := buf) (Scans_newline rest)
    | cons c t1 =>
      obtain ⟨tok, lit, t2, hs, he, hlit, h1, _, _, hp2⟩ :=
        Scans_plain_step c t1 ('\n' :: rest) hp (Or.inr ⟨rest, rfl⟩)
      have hlen2 : t2.length ≤ n := by
        have : (c :: t1).length = lit.length + t2.length := by rw [he]; simp
        have : 0 < lit.length := List.length_pos.2 hlit
        simp at hlen
        simp at *
        omega
      have := SignalTo_tok (b := buf) hs h1 (ih t2 hlen2 hp2 (buf ++ lit) rest)
      rw [List.append_assoc, ← he] at this
      exact this

/-! ## Sequences of tokens -/

theorem ScansN_nil (inp : Str) : ScansN inp [] inp := by
  intro l
  exact ⟨rfl, rfl⟩

theorem ScansN_cons {inp mid rest lit : Str} {tok : Token} {ts : List (Token × Str)}
    (h : Scans inp tok lit mid) (ht : ScansN mid ts rest) :
    ScansN inp ((tok, lit) :: ts) rest := by
  intro l
  obtain ⟨e1, e2⟩ := h l
  obtain ⟨f1, f2⟩ := ht (Scanner.Scan ⟨inp, l⟩).2.last
  have es : (Scanner.Scan ⟨inp, l⟩).2 = ⟨mid, (Scanner.Scan ⟨inp, l⟩).2.last⟩ := by
    rw [← e2]
  simp only [List.length_cons, Scanner.scanN]
  rw [es, e1]
  exact ⟨by rw [f1], f2⟩

/-! ## Which inputs give a whitespace token -/

theorem scanSwitch_ne_WS (r : Char) : (Scanner.scanSwitch r).1 ≠ Token.WS := by
  unfold Scanner.scanSwitch
  split_ifs <;> simp

/-- `Scan` returns a `WS` token only when the first rune is a space or a tab. -/
theorem Scan_WS_first (inp : Str) (l : Option Char)
    (h : (Scanner.Scan ⟨inp, l⟩).1.1 = Token.WS) :
    ∃ c t, inp = c :: t ∧ isWhitespace c = true := by
  cases inp with
  | nil =>
    have e : (Scanner.Scan ⟨[], l⟩).1.1 = Token.EOF := rfl
    rw [e] at h
    cases h
  | cons c t =>
    refine ⟨c, t, rfl, ?_⟩
    unfold Scanner.Scan at h
    simp only [read_cons] at h
    split_ifs at h <;>
      first
      | assumption
      | exact absurd h (scanSwitch_ne_WS _)
      | simp [Scanner.scanAddress, Scanner.scanString, Scanner.scanIdent] at h

theorem dropWhile_head_not (p : Char → Bool) (t : Str) (c : Char) (r : Str)
    (h : t.dropWhile p = c :: r) : p c = false := by
  induction t with
  | nil => simp at h
  | cons a as ih =>
    cases ha : p a
    · simp only [List.dropWhile, ha] at h
      obtain ⟨rfl, _⟩ := List.cons.inj h
      exact ha
    · simp only [List.dropWhile, ha] at h
      exact ih h

/-! ## Blanks in front of a token -/

theorem isWhitespace_not_ident {c : Char} (hc : isWhitespace c = true) :
    isIdentChar c = false ∧ c ≠ eof := by
  have : c = ' ' ∨ c = '\t' := by simpa [isWhitespace] using hc
  rcases this with rfl | rfl <;> exact ⟨by decide, by decide⟩

/-- A run of blanks in front of an input that starts with another rune is one
`WS` token. -/
theorem Scans_blanks (c : Char) (t : Str) {inp : Str} (hc : isWhitespace c = true)
    (ht : ∀ x ∈ t, isWhitespace x = true) (hsolid : StartsSolid inp) :
    Scans (c :: t ++ inp) Token.WS (c :: t) inp := by
  obtain ⟨d, r, rfl, hd, hd0⟩ := hsolid
  obtain ⟨e1, e2⟩ := takeWhile_run isWhitespace t d r ht hd
  have h := Scans_ws c (t ++ d :: r) hc (by rw [e2]; simpa using hd0)
  rwa [e1, e2] at h

theorem ScansIW_ws (ws : Str) {inp rest lit : Str} {tok : Token}
    (hws : ∀ c ∈ ws, isWhitespace c = true) (hs : Scans inp tok lit rest)
    (hne : tok ≠ Token.WS) (hsolid : StartsSolid inp) :
    ScansIW (ws ++ inp) tok lit rest := by
  cases ws with
  | nil => exact Or.inl ⟨hs, hne⟩
  | cons c t =>
    exact Or.inr ⟨c :: t, inp, Scans_blanks c t (hws c (by simp))
      (fun x hx => hws x (by simp [hx])) hsolid, hs⟩

/-! ## Argument lists with blanks around the commas -/

theorem spacedArgs_startsSolid (items : List (Str × Str × Str)) (last : Str)
    (hitems : ∀ it ∈ items, isWord it.1 = true) (hlast : isWord last = true) (t : Str) :
    StartsSolid (spacedArgs items last ++ t) := by
  cases items with
  | nil => exact isWord_startsSolid hlast t
  | cons it more =>
    obtain ⟨a, pre, post⟩ := it
    have := isWord_startsSolid (hitems (a, pre, post) (by simp))
      (pre ++ ',' :: post ++ spacedArgs more last ++ t)
    simpa [spacedArgs] using this

theorem ArgsTo_spaced (items : List (Str × Str × Str)) (last : Str)
    (hlast : isWord last = true) :
    (∀ it ∈ items, isWord it.1 = true ∧ (∀ c ∈ it.2.1, isWhitespace c = true) ∧
      (∀ c ∈ it.2.2, isWhitespace c = true)) →
    ∀ (ws : Str), (∀ c ∈ ws, isWhitespace c = true) → ∀ (rest : Str) (acc : List Str),
      ArgsTo (ws ++ spacedArgs items last ++ ')' :: rest) acc
        (acc ++ items.map (fun it => it.1) ++ [last]) rest := by
  induction items with
  | nil =>
    intro _ ws hws rest acc
    obtain ⟨t1, ht1, s1⟩ := Scans_word hlast ')' rest (by decide) (by decide)
    have := ArgsTo_arg (a := acc)
      (ScansIW_ws ws hws s1 (word_tok_ne ht1).2.2.2.2.2.2.1
        (isWord_startsSolid hlast (')' :: rest)))
      (word_tok_ne ht1).2.2.2.1 (word_tok_ne ht1).2.1 (word_tok_ne ht1).2.2.2.2.1
      (word_tok_ne ht1).2.2.2.2.2.1
      (ArgsTo_close (Or.inl ⟨Scans_close_paren rest, by decide⟩))
    simpa [spacedArgs] using this
  | cons it more ih =>
    intro hitems ws hws rest acc
    obtain ⟨a, pre, post⟩ := it
    obtain ⟨ha, hpre, hpost⟩ := hitems (a, pre, post) (by simp)
    simp only at ha hpre hpost
    have hmore : ∀ it ∈ more, isWord it.1 = true ∧ (∀ c ∈ it.2.1, isWhitespace c = true) ∧
        (∀ c ∈ it.2.2, isWhitespace c = true) := fun it hit => hitems it (by simp [hit])
    have hrec := ih hmore post hpost rest (acc ++ [a])
    have hsep : ScansIW (pre ++ ',' :: (post ++ spacedArgs more last ++ ')' :: rest))
        Token.SEP [','] (post ++ spacedArgs more last ++ ')' :: rest) :=
      ScansIW_ws pre hpre (Scans_sep _) (by decide) ⟨',', _, rfl, by decide, by decide⟩
    have hword : ∃ tok, (tok = Token.IDENT ∨ tok = Token.ILLEGAL) ∧
        Scans (a ++ (pre ++ ',' :: (post ++ spacedArgs more last ++ ')' :: rest))) tok a
          (pre ++ ',' :: (post ++ spacedArgs more last ++ ')' :: rest)) := by
      cases pre with
      | nil => exact Scans_word ha ',' _ (by decide) (by decide)
      | cons c cs =>
        obtain ⟨h1, h2⟩ := isWhitespace_not_ident (hpre c (by simp))
        exact Scans_word ha c _ h1 h2
    obtain ⟨t1, ht1, s1⟩ := hword
    have := ArgsTo_arg (a := acc)
      (ScansIW_ws ws hws s1 (word_tok_ne ht1).2.2.2.2.2.2.1 (isWord_startsSolid ha _))
      (word_tok_ne ht1).2.2.2.1 (word_tok_ne ht1).2.1 (word_tok_ne ht1).2.2.2.2.1
      (word_tok_ne ht1).2.2.2.2.2.1
      (ArgsTo_sep hsep hrec)
    simpa [spacedArgs] using this

/-! ## Plain result text -/

theorem ResultTo_plain : ∀ (n : Nat) (t : Str), t.length ≤ n → Plain t →
    ∀ (buf rest : Str), ResultTo (t ++ '\n' :: rest) buf (buf ++ t) rest := by
  intro n
  induction n with
  | zero =>
    intro t hlen _ buf rest
    have : t = [] := List.length_eq_zero.1 (Nat.le_zero.1 hlen)
    subst this
    simpa using ResultTo_newline (b := buf) (Scans_newline rest)
  | succ n ih =>
    intro t hlen hp buf rest
    cases t with
    | nil => simpa using ResultTo_newline (b := buf) (Scans_newline rest)
    | cons c t1 =>
      obtain ⟨tok, lit, t2, hs, he, hlit, h1, h2, _, hp2⟩ :=
        Scans_plain_step c t1 ('\n' :: rest) hp (Or.inr ⟨rest, rfl⟩)
      have hlen2 : t2.length ≤ n := by
        have h3 : (c :: t1).length = lit.length + t2.length := by rw [he]; simp
        have h4 : 0 < lit.length := List.length_pos.2 hlit
        omega
      have := ResultTo_tok (b := buf) hs h2 h1 (ih t2 hlen2 hp2 (buf ++ lit) rest)
      rw [List.append_assoc, ← he] at this
      exact this

/-- A call line with blanks around the commas and a plain result text parses
to the record of its parts. -/
theorem ParsesTo_spaced_line (f : Str) (items : List (Str × Str × Str)) (last text rest : Str)
    (hf : isWord f = true)
    (hitems : ∀ it ∈ items, isWord it.1 = true ∧ (∀ c ∈ it.2.1, isWhitespace c = true) ∧
      (∀ c ∈ it.2.2, isWhitespace c = true))
    (hlast : isWord last = true) (htext : Plain text) :
    ParsesTo (f ++ '(' :: (spacedArgs items last ++ ')' :: ' ' :: '=' :: (text ++ '\n' :: rest)))
      (some (callLine f (items.map (fun it => it.1) ++ [last]) text), none) rest := by
  obtain ⟨t1, ht1, s1⟩ := Scans_word hf '('
    (spacedArgs items last ++ ')' :: ' ' :: '=' :: (text ++ '\n' :: rest)) (by decide) (by decide)
  have hargs := ArgsTo_spaced items last hlast hitems [] (by simp)
    (' ' :: '=' :: (text ++ '\n' :: rest)) []
  have := ParsesTo_call (Or.inl ⟨s1, (word_tok_ne ht1).2.2.2.2.2.2.1⟩)
    (word_tok_ne ht1).2.2.2.2.2.2.2.1 (word_tok_ne ht1).2.2.2.2.2.2.2.2
    (Or.inl ⟨Scans_open_paren _, by decide⟩) hargs
    (Or.inr ⟨[' '], _, Scans_blank ⟨'=', _, rfl, by decide, by decide⟩, Scans_equals _⟩)
    (ResultTo_plain text.length text (le_refl _) htext [] rest)
  simpa [callLine] using this

/-! ## Lines with several blanks after the equals sign -/

theorem ResultTo_val_ws (c : Char) (t : Str) (hc : isWhitespace c = true)
    (ht : ∀ x ∈ t, isWhitespace x = true) (r : Val) (hr : r.ok = true) (rest : Str) :
    ResultTo (c :: t ++ (r.text ++ '\n' :: rest)) [] (c :: t ++ r.norm) rest := by
  have hsolid := Val_text_startsSolid hr ('\n' :: rest)
  cases r with
  | ident w =>
    obtain ⟨t1, ht1, s1⟩ := Scans_word (w := w) hr '\n' rest (by decide) (by decide)
    have := ResultTo_tok (b := []) (Scans_blanks c t hc ht hsolid) (by decide) (by decide)
      (ResultTo_tok s1 (word_tok_ne ht1).2.1 (word_tok_ne ht1).2.2.1
        (ResultTo_newline (Scans_newline rest)))
    simpa [Val.text, Val.norm] using this
  | addr h =>
    have hh := Val.ok_addr hr
    have := ResultTo_tok (b := []) (Scans_blanks c t hc ht hsolid) (by decide) (by decide)
      (ResultTo_addr (Scans_hex hh '\n' rest (by decide) (by decide))
        (ResultTo_newline (Scans_newline rest)))
    simpa [Val.text, Val.norm] using this

/-- A call line of words, addresses and structs with the blanks `c :: t`
after `=` parses to the record of its normalised parts, the blanks kept in
front of the result. -/
theorem ParsesTo_line_ws (f : Str) (args : List Arg) (r : Val) (rest : Str) (c : Char) (t : Str)
    (hf : isWord f = true) (hok : ∀ a ∈ args, a.ok = true)
    (hlast : ∀ a, args.getLast? = some a → a.isAddr = false) (hr : r.ok = true)
    (hc : isWhitespace c = true) (ht : ∀ x ∈ t, isWhitespace x = true) :
    ParsesTo
      (f ++ '(' :: (joinArgs (args.map Arg.text) ++ ')' :: ' ' :: '=' ::
        (c :: t ++ (r.text ++ '\n' :: rest))))
      (some (callLine f (args.map Arg.norm) (c :: t ++ r.norm)), none) rest := by
  obtain ⟨t1, ht1, s1⟩ := Scans_word hf '('
    (joinArgs (args.map Arg.text) ++ ')' :: ' ' :: '=' :: (c :: t ++ (r.text ++ '\n' :: rest)))
    (by decide) (by decide)
  have hargs := ArgsTo_args args hok hlast false
    (' ' :: '=' :: (c :: t ++ (r.text ++ '\n' :: rest))) []
  have := ParsesTo_call (Or.inl ⟨s1, (word_tok_ne ht1).2.2.2.2.2.2.1⟩)
    (word_tok_ne ht1).2.2.2.2.2.2.2.1 (word_tok_ne ht1).2.2.2.2.2.2.2.2
    (Or.inl ⟨Scans_open_paren _, by decide⟩) hargs
    (Or.inr ⟨[' '], _, Scans_blank ⟨'=', _, rfl, by decide, by decide⟩, Scans_equals _⟩)
    (ResultTo_val_ws c t hc ht r hr rest)
  simpa [lead, callLine] using this

theorem Val.text_normVal (v : Val) : v.normVal.text = v.norm := by
  cases v <;> rfl

theorem Val.norm_normVal (v : Val) : v.normVal.norm = v.norm := by
  cases v <;> rfl

theorem Val.isAddr_normVal (v : Val) : v.normVal.isAddr = v.isAddr := by
  cases v <;> rfl

theorem Val.ok_normVal {v : Val} (h : v.ok = true) : v.normVal.ok = true := by
  cases v with
  | ident s => exact h
  | addr _ => rfl

theorem map_normVal_text (args : List Val) :
    ((args.map Val.normVal).map Arg.val).map Arg.text = args.map Val.norm := by
  induction args with
  | nil => rfl
  | cons a t ih => simp only [List.map_cons, Arg.text, Val.text_normVal, ih]

theorem map_normVal_norm (args : List Val) :
    ((args.map Val.normVal).map Arg.val).map Arg.norm = args.map Val.norm := by
  induction args with
  | nil => rfl
  | cons a t ih => simp only [List.map_cons, Arg.norm, Val.norm_normVal, ih]

/-! ## C1: round trip on identifiers -/

/-- C1, counterexample. The line `f(a) = r` parses, and `Unparse` of its record
is `f(a) =  r`, with two blanks after `=`: the result field keeps the blank
that follows `=`, and `Unparse` writes `" = "` in front of it. -/
theorem C1_counterexample :
    (Parser.Parse 10 (NewParser "f(a) = r\n".toList)).map
        (fun x => (x.1.1.map OutputLine.Unparse, x.1.2))
      = some (some "f(a) =  r".toList, none) ∧
    "f(a) =  r".toList ≠ "f(a) = r".toList := by
  decide

theorem map_ident_text (args : List Str) :
    (args.map fun a => Arg.val (Val.ident a)).map Arg.text = args := by
  induction args with
  | nil => rfl
  | cons a t ih => simp only [List.map_cons, Arg.text, Val.text, ih]

theorem map_ident_norm (args : List Str) :
    (args.map fun a => Arg.val (Val.ident a)).map Arg.norm = args := by
  induction args with
  | nil => rfl
  | cons a t ih => simp only [List.map_cons, Arg.norm, Val.norm, ih]

theorem map_val_text (args : List Val) :
    (args.map Arg.val).map Arg.text = args.map Val.text := by
  induction args with
  | nil => rfl
  | cons a t ih => simp only [List.map_cons, Arg.text, ih]

theorem map_val_norm (args : List Val) :
    (args.map Arg.val).map Arg.norm = args.map Val.norm := by
  induction args with
  | nil => rfl
  | cons a t ih => simp only [List.map_cons, Arg.norm, ih]

/-- C1, amended. For every line `f(a1, ..., an) = r` with `n ≥ 1`, where `f`,
every `ai` and `r` are identifiers that are `0` or do not begin with `0`,
followed by a newline and any further input `rest`: with enough fuel `Parse`
returns the record with `FuncName = f`, `Args = [a1, ..., an]` and
`Result = " r"`, leaves `rest` unread, and `Unparse` of the record is
`f(a1, ..., an) =  r`, the line with one more blank after `=`. -/
theorem C1_round_trip_amended (f : Str) (args : List Str) (r rest : Str)
    (hf : isWord f = true) (hargs : ∀ a ∈ args, isWord a = true) (hne : args ≠ [])
    (hr : isWord r = true) :
    ∃ k, ∀ n, ∃ p1,
      Parser.Parse (k + n) (NewParser
          (f ++ ['('] ++ List.intercalate [',', ' '] args ++ [')', ' ', '=', ' '] ++ r
            ++ ['\n'] ++ rest))
        = some ((some (callLine f args (' ' :: r)), none), p1) ∧
      p1.s.input = rest ∧
      OutputLine.Unparse (callLine f args (' ' :: r))
        = f ++ ['('] ++ List.intercalate [',', ' '] args ++ [')', ' ', '=', ' ', ' '] ++ r := by
  have hok : ∀ a ∈ args.map (fun a => Arg.val (Val.ident a)), a.ok = true := by
    intro a ha
    obtain ⟨w, hw, rfl⟩ := List.mem_map.1 ha
    exact hargs w hw
  have hlast : ∀ a, (args.map fun a => Arg.val (Val.ident a)).getLast? = some a →
      a.isAddr = false := by
    intro a ha
    obtain ⟨w, _, rfl⟩ := List.mem_map.1 (List.mem_of_getLast?_eq_some ha)
    rfl
  obtain ⟨k, hk⟩ := ParsesTo_line f (args.map fun a => Arg.val (Val.ident a)) (Val.ident r) rest
    hf hok hlast hr
  refine ⟨k, fun n => ?_⟩
  obtain ⟨p1, e, hp1⟩ := hk n _ (NewParser_At _)
  refine ⟨p1, ?_, hp1.1, ?_⟩
  · have hin : lineText f (args.map fun a => Arg.val (Val.ident a)) (Val.ident r) ++ rest
        = f ++ ['('] ++ List.intercalate [',', ' '] args ++ [')', ' ', '=', ' '] ++ r
            ++ ['\n'] ++ rest := by
      simp only [lineText, map_ident_text, joinArgs_eq_intercalate, Val.text]
      simp
    rw [map_ident_norm, hin] at e
    exact e
  · rw [callLine, Unparse_call f args (' ' :: r) hne]
    simp

/-- C1, witness of the amended statement at `lstat(45, buf) = 3`. -/
theorem C1_round_trip_amended_witness :
    (isWord "lstat".toList = true ∧ (∀ a ∈ ["45".toList, "buf".toList], isWord a = true) ∧
      ["45".toList, "buf".toList] ≠ [] ∧ isWord "3".toList = true) ∧
    ∃ k, ∀ n, ∃ p1,
      Parser.Parse (k + n) (NewParser
          ("lstat".toList ++ ['('] ++ List.intercalate [',', ' '] ["45".toList, "buf".toList]
            ++ [')', ' ', '=', ' '] ++ "3".toList ++ ['\n'] ++ []))
        = some ((some (callLine "lstat".toList ["45".toList, "buf".toList]
            (' ' :: "3".toList)), none), p1) ∧
      p1.s.input = [] ∧
      OutputLine.Unparse (callLine "lstat".toList ["45".toList, "buf".toList]
          (' ' :: "3".toList))
        = "lstat".toList ++ ['('] ++ List.intercalate [',', ' '] ["45".toList, "buf".toList]
            ++ [')', ' ', '=', ' ', ' '] ++ "3".toList :=
  ⟨⟨by decide, by decide, by decide, by decide⟩,
    C1_round_trip_amended "lstat".toList ["45".toList, "buf".toList] "3".toList []
      (by decide) (by decide) (by decide) (by decide)⟩

/-! ## C2: rendering of a call record -/

theorem Unparse_no_args (f r : Str) :
    OutputLine.Unparse { Signal := [], FuncName := f, Args := [], Result := r }
      = f ++ ['('] ++ [' ', '=', ' '] ++ r := by
  simp [OutputLine.Unparse, OutputLine.unparseArgs]

/-- C2, the code at the failing input. The line `getpid() = 1234` parses to a
record with an empty `Args`, and `Unparse` of that record is `getpid( =  1234`:
the `)` is written by the last iteration of the loop over `Args`, which an
empty list never enters. -/
theorem C2_unparse_empty_args :
    (Parser.Parse 10 (NewParser "getpid() = 1234\n".toList)).map (fun x => x.1)
      = some (some (callLine "getpid".toList [] " 1234".toList), none) ∧
    OutputLine.Unparse (callLine "getpid".toList [] " 1234".toList)
      = "getpid( =  1234".toList ∧
    "getpid( =  1234".toList ≠ "getpid() =  1234".toList := by
  decide

/-! ## C3: address normalisation -/

/-- C3, counterexample. On the line `f(0x1234) = 0` the address is the last
argument, directly before `)`: `scanAddress` reads up to the next blank, so the
`)` becomes part of the address token, the argument loop never sees a
`CLOSE_PAREN`, and `Parse` returns for no bound on its iterations. -/
theorem C3_counterexample :
    ¬ ∃ fuel r, Parser.Parse fuel (NewParser "f(0x1234) = 0\n".toList) = some r := by
  rintro ⟨fuel, r, h⟩
  have h1 : ScansIW "f(0x1234) = 0\n".toList Token.IDENT "f".toList "(0x1234) = 0\n".toList :=
    Or.inl ⟨fun _ => ⟨rfl, rfl⟩, by decide⟩
  have h2 : ScansIW "(0x1234) = 0\n".toList Token.OPEN_PAREN "(".toList "0x1234) = 0\n".toList :=
    Or.inl ⟨fun _ => ⟨rfl, rfl⟩, by decide⟩
  have a1 : ScansIW "0x1234) = 0\n".toList Token.MEMADDR "0x1234)".toList " = 0\n".toList :=
    Or.inl ⟨fun _ => ⟨rfl, rfl⟩, by decide⟩
  have a2 : ScansIW " = 0\n".toList Token.EQUALS "=".toList " 0\n".toList :=
    Or.inr ⟨" ".toList, "= 0\n".toList, fun _ => ⟨rfl, rfl⟩, fun _ => ⟨rfl, rfl⟩⟩
  have a3 : ScansIW " 0\n".toList Token.ILLEGAL "0".toList "\n".toList :=
    Or.inr ⟨" ".toList, "0\n".toList, fun _ => ⟨rfl, rfl⟩, fun _ => ⟨rfl, rfl⟩⟩
  have a4 : ScansIW "\n".toList Token.NEWLINE "\n".toList [] :=
    Or.inl ⟨fun _ => ⟨rfl, rfl⟩, by decide⟩
  have hdiv := Parse_diverges_args h1 (by decide) (by decide) h2
    (parseArgs_diverges_step a1 (by decide) (by decide)
      (parseArgs_diverges_step a2 (by decide) (by decide)
        (parseArgs_diverges_step a3 (by decide) (by decide)
          (parseArgs_diverges_step a4 (by decide) (by decide) parseArgs_eof))))
    fuel _ (NewParser_At _)
  rw [hdiv] at h
  cases h

/-- C3, amended. For every line `f(a1, ..., an) = r` with `n ≥ 1`, where `f` is
an identifier, every `ai` and `r` is an identifier or a hex address (`0x` and one
or more hex digits), identifiers are `0` or do not begin with `0`, and the last
argument is not an address (so every address argument is directly followed by
`,`), followed by a newline and any further input `rest`: with enough fuel
`Parse` returns the record whose `Args` has `0x0` at the position of every
address and the other arguments unchanged, whose `Result` is a blank and `r`,
or a blank and `0x0` when `r` is an address, and `Unparse` of the record is
`f(...) =  r` with `0x0` in place of every address. -/
theorem C3_address_normalisation_amended (f : Str) (args : List Val) (r : Val) (rest : Str)
    (hf : isWord f = true) (hargs : ∀ a ∈ args, a.ok = true) (hne : args ≠ [])
    (hlast : ∀ a, args.getLast? = some a → a.isAddr = false) (hr : r.ok = true) :
    ∃ k, ∀ n, ∃ p1,
      Parser.Parse (k + n) (NewParser
          (f ++ ['('] ++ List.intercalate [',', ' '] (args.map Val.text) ++ [')', ' ', '=', ' ']
            ++ r.text ++ ['\n'] ++ rest))
        = some ((some (callLine f (args.map Val.norm) (' ' :: r.norm)), none), p1) ∧
      p1.s.input = rest ∧
      OutputLine.Unparse (callLine f (args.map Val.norm) (' ' :: r.norm))
        = f ++ ['('] ++ List.intercalate [',', ' '] (args.map Val.norm)
            ++ [')', ' ', '=', ' ', ' '] ++ r.norm := by
  have hok : ∀ a ∈ args.map Arg.val, a.ok = true := by
    intro a ha
    obtain ⟨w, hw, rfl⟩ := List.mem_map.1 ha
    exact hargs w hw
  have hlast2 : ∀ a, (args.map Arg.val).getLast? = some a → a.isAddr = false := by
    intro a ha
    rw [List.getLast?_map] at ha
    cases hl : args.getLast? with
    | none => simp [hl] at ha
    | some v =>
      rw [hl] at ha
      have : a = Arg.val v := by simpa using ha.symm
      subst this
      exact hlast v hl
  obtain ⟨k, hk⟩ := ParsesTo_line f (args.map Arg.val) r rest hf hok hlast2 hr
  refine ⟨k, fun n => ?_⟩
  obtain ⟨p1, e, hp1⟩ := hk n _ (NewParser_At _)
  refine ⟨p1, ?_, hp1.1, ?_⟩
  · have hin : lineText f (args.map Arg.val) r ++ rest
        = f ++ ['('] ++ List.intercalate [',', ' '] (args.map Val.text) ++ [')', ' ', '=', ' ']
            ++ r.text ++ ['\n'] ++ rest := by
      simp only [lineText, map_val_text, joinArgs_eq_intercalate]
      simp
    rw [map_val_norm, hin] at e
    exact e
  · rw [callLine, Unparse_call f (args.map Val.norm) (' ' :: r.norm) (by simpa using hne)]
    simp

/-- C3, witness of the amended statement at `mmap(0x7f00a1b2, 4096, 0) = 0x7f00a1b2`. -/
theorem C3_address_normalisation_amended_witness :
    (isWord "mmap".toList = true ∧
      (∀ a ∈ [Val.addr "7f00a1b2".toList, Val.ident "4096".toList, Val.ident "0".toList],
        a.ok = true) ∧
      [Val.addr "7f00a1b2".toList, Val.ident "4096".toList, Val.ident "0".toList] ≠ [] ∧
      (∀ a, [Val.addr "7f00a1b2".toList, Val.ident "4096".toList,
          Val.ident "0".toList].getLast? = some a → a.isAddr = false) ∧
      (Val.addr "7f00a1b2".toList).ok = true) ∧
    ∃ k, ∀ n, ∃ p1,
      Parser.Parse (k + n) (NewParser "mmap(0x7f00a1b2, 4096, 0) = 0x7f00a1b2\n".toList)
        = some ((some (callLine "mmap".toList ["0x0".toList, "4096".toList, "0".toList]
            " 0x0".toList), none), p1) ∧
      p1.s.input = [] ∧
      OutputLine.Unparse (callLine "mmap".toList ["0x0".toList, "4096".toList, "0".toList]
          " 0x0".toList)
        = "mmap(0x0, 4096, 0) =  0x0".toList :=
  ⟨⟨by decide, by decide, by decide, by simp [Val.isAddr], by decide⟩,
    C3_address_normalisation_amended "mmap".toList
      [Val.addr "7f00a1b2".toList, Val.ident "4096".toList, Val.ident "0".toList]
      (Val.addr "7f00a1b2".toList) [] (by decide) (by decide) (by decide)
      (by simp [Val.isAddr]) (by decide)⟩

/-! ## C4: struct arguments -/

/-- C4, counterexample. The struct argument `{st_size=0x7fff1234, st_mode=40755}`
is stored as `{st_size=0x0 st_mode=40755}`: the `,` directly after the address
is part of the address token and is replaced along with it. -/
theorem C4_counterexample :
    (Parser.Parse 20
        (NewParser "f(\x7bst_size=0x7fff1234, st_mode=40755\x7d) = 0\n".toList)).map
        (fun x => x.1)
      = some (some (callLine "f".toList ["\x7bst_size=0x0 st_mode=40755\x7d".toList]
          " 0".toList), none) ∧
    "\x7bst_size=0x0 st_mode=40755\x7d".toList ≠ "\x7bst_size=0x0, st_mode=40755\x7d".toList := by
  decide

/-- C4, amended. For every call line `f(a1, ..., an) = r` with its newline,
followed by any further input `rest`, in which the arguments are joined by a
comma and a blank; `f`, every identifier argument, every field name, every
identifier field value and `r` when it is an identifier are identifiers that are
`0` itself or do not begin with `0`; every address (an argument, a field value
or `r`) is `0x` and one or more hex digits; every struct is
`{n1=v1, ..., nk=vk}` with fields joined by a comma and a blank; and no address
is the last field of its struct or the last argument (so every address in the
argument list is directly followed by `,`): with enough fuel `Parse` returns the
record with `FuncName` `f`, `Result` a blank and `r` (`0x0` for an address), and
`Args` holding one argument for each `ai`: an identifier as it is, an address
as `0x0`, and exactly one argument for every struct, the text from `{` to `}`
with every address and the `,` directly after it replaced by `0x0`, and every
other character preserved. -/
theorem C4_struct_argument_amended (f : Str) (args : List Arg) (r : Val) (rest : Str)
    (hf : isWord f = true) (hargs : ∀ a ∈ args, a.ok = true)
    (hlast : ∀ a, args.getLast? = some a → a.isAddr = false) (hr : r.ok = true) :
    ∃ k, ∀ n, ∃ p1,
      Parser.Parse (k + n) (NewParser (lineText f args r ++ rest))
        = some ((some (callLine f (args.map Arg.norm) (' ' :: r.norm)), none), p1) ∧
      p1.s.input = rest := by
  obtain ⟨k, hk⟩ := ParsesTo_line f args r rest hf hargs hlast hr
  refine ⟨k, fun n => ?_⟩
  obtain ⟨p1, e, hp1⟩ := hk n _ (NewParser_At _)
  exact ⟨p1, e, hp1.1⟩

/-- C4, witness of the amended statement at
`lstat(3, {st_size=0x7fff1234, st_mode=40755}) = 0`. -/
theorem C4_struct_argument_amended_witness :
    (isWord "lstat".toList = true ∧
      (∀ a ∈ [Arg.val (Val.ident "3".toList),
          Arg.struct [("st_size".toList, Val.addr "7fff1234".toList),
            ("st_mode".toList, Val.ident "40755".toList)]], a.ok = true) ∧
      (∀ a, [Arg.val (Val.ident "3".toList),
          Arg.struct [("st_size".toList, Val.addr "7fff1234".toList),
            ("st_mode".toList, Val.ident "40755".toList)]].getLast? = some a →
        a.isAddr = false) ∧
      (Val.ident "0".toList).ok = true) ∧
    ∃ k, ∀ n, ∃ p1,
      Parser.Parse (k + n)
          (NewParser "lstat(3, \x7bst_size=0x7fff1234, st_mode=40755\x7d) = 0\n".toList)
        = some ((some (callLine "lstat".toList
            ["3".toList, "\x7bst_size=0x0 st_mode=40755\x7d".toList] " 0".toList), none), p1) ∧
      p1.s.input = [] :=
  ⟨⟨by decide, by decide, by simp [Arg.isAddr], by decide⟩,
    C4_struct_argument_amended "lstat".toList
      [Arg.val (Val.ident "3".toList),
        Arg.struct [("st_size".toList, Val.addr "7fff1234".toList),
          ("st_mode".toList, Val.ident "40755".toList)]]
      (Val.ident "0".toList) [] (by decide) (by decide) (by simp [Arg.isAddr]) (by decide)⟩

/-! ## C5: missing open parenthesis -/

/-- C5. When the first token that `scanIgnoreWhitespace` returns is neither
`EOF` nor `SIGNAL` and the next one is not `OPEN_PAREN`, `Parse` returns a nil
record and the error `Expected OPEN_PAREN`, which is not `ErrEOF`, whatever the
fuel. -/
theorem C5_missing_open_paren (p : Parser) (fuel : Nat)
    (h1 : p.scanIgnoreWhitespace.1.1 ≠ Token.EOF)
    (h2 : p.scanIgnoreWhitespace.1.1 ≠ Token.SIGNAL)
    (h3 : p.scanIgnoreWhitespace.2.scanIgnoreWhitespace.1.1 ≠ Token.OPEN_PAREN) :
    Parser.Parse fuel p
      = some ((none, some (Error.errorsNew "Expected OPEN_PAREN")),
          p.scanIgnoreWhitespace.2.scanIgnoreWhitespace.2) ∧
    Error.errorsNew "Expected OPEN_PAREN" ≠ Error.ErrEOF := by
  refine ⟨?_, by simp⟩
  simp [Parser.Parse, h1, h2, h3]

/-- C5, witness at the input `foo 45) = 3`. -/
theorem C5_missing_open_paren_witness :
    ((NewParser "foo 45) = 3".toList).scanIgnoreWhitespace.1.1 ≠ Token.EOF ∧
      (NewParser "foo 45) = 3".toList).scanIgnoreWhitespace.1.1 ≠ Token.SIGNAL ∧
      (NewParser "foo 45) = 3".toList).scanIgnoreWhitespace.2.scanIgnoreWhitespace.1.1
        ≠ Token.OPEN_PAREN) ∧
    (Parser.Parse 0 (NewParser "foo 45) = 3".toList)
      = some ((none, some (Error.errorsNew "Expected OPEN_PAREN")),
          (NewParser "foo 45) = 3".toList).scanIgnoreWhitespace.2.scanIgnoreWhitespace.2) ∧
    Error.errorsNew "Expected OPEN_PAREN" ≠ Error.ErrEOF) :=
  ⟨⟨by decide, by decide, by decide⟩,
    C5_missing_open_paren (NewParser "foo 45) = 3".toList) 0 (by decide) (by decide)
      (by decide)⟩

/-! ## C6: end of stream inside a call -/

/-- C6, the code at the failing inputs. On `f(a` and on `lstat(45) = 3` without
a newline the scanner returns `EOF` again and again, the argument loop (the
result loop) appends its empty literal and goes on: `Parse` returns neither a
record nor an error for any bound on its iterations. -/
theorem C6_end_of_stream_never_returns :
    (¬ ∃ fuel r, Parser.Parse fuel (NewParser "f(a".toList) = some r) ∧
    (¬ ∃ fuel r, Parser.Parse fuel (NewParser "lstat(45) = 3".toList) = some r) := by
  constructor
  · rintro ⟨fuel, r, h⟩
    have h1 : ScansIW "f(a".toList Token.IDENT "f".toList "(a".toList :=
      Or.inl ⟨fun _ => ⟨rfl, rfl⟩, by decide⟩
    have h2 : ScansIW "(a".toList Token.OPEN_PAREN "(".toList "a".toList :=
      Or.inl ⟨fun _ => ⟨rfl, rfl⟩, by decide⟩
    have a1 : ScansIW "a".toList Token.IDENT "a".toList [] :=
      Or.inl ⟨fun _ => ⟨rfl, rfl⟩, by decide⟩
    have hdiv := Parse_diverges_args h1 (by decide) (by decide) h2
      (parseArgs_diverges_step a1 (by decide) (by decide) parseArgs_eof)
      fuel _ (NewParser_At _)
    rw [hdiv] at h
    cases h
  · rintro ⟨fuel, r, h⟩
    have h1 : ScansIW "lstat(45) = 3".toList Token.IDENT "lstat".toList "(45) = 3".toList :=
      Or.inl ⟨fun _ => ⟨rfl, rfl⟩, by decide⟩
    have h2 : ScansIW "(45) = 3".toList Token.OPEN_PAREN "(".toList "45) = 3".toList :=
      Or.inl ⟨fun _ => ⟨rfl, rfl⟩, by decide⟩
    have a1 : ScansIW "45) = 3".toList Token.IDENT "45".toList ") = 3".toList :=
      Or.inl ⟨fun _ => ⟨rfl, rfl⟩, by decide⟩
    have a2 : ScansIW ") = 3".toList Token.CLOSE_PAREN ")".toList " = 3".toList :=
      Or.inl ⟨fun _ => ⟨rfl, rfl⟩, by decide⟩
    have h4 : ScansIW " = 3".toList Token.EQUALS "=".toList " 3".toList :=
      Or.inr ⟨" ".toList, "= 3".toList, fun _ => ⟨rfl, rfl⟩, fun _ => ⟨rfl, rfl⟩⟩
    have r1 : Scans " 3".toList Token.WS " ".toList "3".toList := fun _ => ⟨rfl, rfl⟩
    have r2 : Scans "3".toList Token.IDENT "3".toList [] := fun _ => ⟨rfl, rfl⟩
    have hargs : ArgsTo "45) = 3".toList [] ["45".toList] " = 3".toList :=
      ArgsTo_arg a1 (by decide) (by decide) (by decide) (by decide) (ArgsTo_close a2)
    have hdiv := Parse_diverges_result h1 (by decide) (by decide) h2 hargs h4
      (parseResult_diverges_step r1 (by decide)
        (parseResult_diverges_step r2 (by decide) parseResult_eof))
      fuel _ (NewParser_At _)
    rw [hdiv] at h
    cases h

/-! ## C7: end of input -/

theorem Parse_of_eof {inp lit rest : Str} (hs : ScansIW inp Token.EOF lit rest) (fuel : Nat)
    (p : Parser) (hp : p.At inp) :
    ∃ p1, Parser.Parse fuel p = some ((some emptyLine, some Error.ErrEOF), p1) ∧ p1.At rest := by
  obtain ⟨p1, e, hp1⟩ := scanIW_of_ScansIW hp hs
  exact ⟨p1, by simp [Parser.Parse, e, emptyLine], hp1⟩

theorem Scans_all_whitespace (c : Char) (t : Str) (hc : isWhitespace c = true)
    (ht : ∀ x ∈ t, isWhitespace x = true) : Scans (c :: t) Token.WS (c :: t) [] := by
  have e1 : t.takeWhile isWhitespace = t := List.takeWhile_eq_self_iff.2 ht
  have e2 : t.dropWhile isWhitespace = [] := List.dropWhile_eq_nil_iff.2 ht
  have := Scans_ws c t hc (by rw [e2]; simp)
  rwa [e1, e2] at this

theorem ScansIW_whitespace (ws : Str) (hws : ∀ c ∈ ws, isWhitespace c = true) :
    ScansIW ws Token.EOF [] [] := by
  cases ws with
  | nil => exact ScansIW_nil
  | cons c t =>
    exact Or.inr ⟨c :: t, [], Scans_all_whitespace c t (hws c (by simp))
      (fun x hx => hws x (by simp [hx])), Scans_nil⟩

theorem afterCalls_at_eof (fuel : Nat) : ∀ (k : Nat) (p : Parser), p.At [] →
    ∃ q, Parser.afterCalls fuel k p = some q ∧ q.At [] := by
  intro k
  induction k with
  | zero => intro p hp; exact ⟨p, rfl, hp⟩
  | succ k ih =>
    intro p hp
    obtain ⟨p1, e, hp1⟩ := Parse_of_eof ScansIW_nil fuel p hp
    obtain ⟨q, eq, hq⟩ := ih p1 hp1
    exact ⟨q, by simp [Parser.afterCalls, e, eq], hq⟩

theorem Parse_ErrEOF_state {fuel : Nat} {p p1 : Parser} {l : Option OutputLine}
    (h : Parser.Parse fuel p = some ((l, some Error.ErrEOF), p1)) : p1.buf.n = 0 := by
  simp only [Parser.Parse] at h
  split_ifs at h with h1 h2 h3
  · simp only [Option.some.injEq, Prod.mk.injEq] at h
    rw [← h.2]
    exact scanIW_leaves_zero p
  · cases hs : Parser.parseSignal fuel p.scanIgnoreWhitespace.2 p.scanIgnoreWhitespace.1.2 with
    | none => simp [hs] at h
    | some x => simp [hs] at h
  · cases ha : Parser.parseArgs fuel p.scanIgnoreWhitespace.2.scanIgnoreWhitespace.2 [] with
    | none => simp [ha] at h
    | some x =>
      simp only [ha] at h
      split_ifs at h
      · simp at h
      · cases hr : Parser.parseResult fuel x.2.scanIgnoreWhitespace.2 [] with
        | none => simp [hr] at h
        | some y => simp [hr] at h
  · simp at h

/-- C7. For an input `ws` of spaces and tabs only (the empty input included),
`Parse` returns `ErrEOF`, with the empty record, whatever the fuel, and the
stream is exhausted. And once a call of `Parse` on any parser has returned
`ErrEOF` with the stream exhausted, the call after any number `k` of further
calls returns `ErrEOF` again. -/
theorem C7_end_of_input (ws : Str) (hws : ∀ c ∈ ws, isWhitespace c = true) (fuel : Nat) :
    (∃ p1, Parser.Parse fuel (NewParser ws) = some ((some emptyLine, some Error.ErrEOF), p1) ∧
      p1.s.input = []) ∧
    (∀ (p p1 : Parser) (l : Option OutputLine),
      Parser.Parse fuel p = some ((l, some Error.ErrEOF), p1) → p1.s.input = [] →
      ∀ (k fuel2 : Nat), ∃ q q1, Parser.afterCalls fuel2 k p1 = some q ∧
        Parser.Parse fuel2 q = some ((some emptyLine, some Error.ErrEOF), q1)) := by
  constructor
  · obtain ⟨p1, e, hp1⟩ := Parse_of_eof (ScansIW_whitespace ws hws) fuel _ (NewParser_At ws)
    exact ⟨p1, e, hp1.1⟩
  · intro p p1 l h hin k fuel2
    have hp1 : p1.At [] := ⟨hin, Parse_ErrEOF_state h⟩
    obtain ⟨q, eq, hq⟩ := afterCalls_at_eof fuel2 k p1 hp1
    obtain ⟨q1, e1, _⟩ := Parse_of_eof ScansIW_nil fuel2 q hq
    exact ⟨q, q1, eq, e1⟩

/-- C7, witness at the input of a blank and a tab. -/
theorem C7_end_of_input_witness :
    (∀ c ∈ [' ', '\t'], isWhitespace c = true) ∧
    ((∃ p1, Parser.Parse 0 (NewParser [' ', '\t'])
        = some ((some emptyLine, some Error.ErrEOF), p1) ∧ p1.s.input = []) ∧
    (∀ (p p1 : Parser) (l : Option OutputLine),
      Parser.Parse 0 p = some ((l, some Error.ErrEOF), p1) → p1.s.input = [] →
      ∀ (k fuel2 : Nat), ∃ q q1, Parser.afterCalls fuel2 k p1 = some q ∧
        Parser.Parse fuel2 q = some ((some emptyLine, some Error.ErrEOF), q1))) :=
  ⟨by decide, C7_end_of_input [' ', '\t'] (by decide) 0⟩

/-! ## C8: signal lines -/

/-- C8, counterexample. The line `--- "a".bc` begins with `---` and contains
no `0x`; `Parse` returns a signal record, and `Unparse` of it is `--- "a"...`:
`scanString` takes the `.` after the closing quote for a truncation marker,
reads two more runes and writes `...` for the three. -/
theorem C8_counterexample :
    (Parser.Parse 10 (NewParser "--- \"a\".bc\n".toList)).map
        (fun x => (x.1.1.map OutputLine.Unparse, x.1.2))
      = some (some "--- \"a\"...".toList, none) ∧
    "--- \"a\"...".toList ≠ "--- \"a\".bc".toList ∧
    ¬ "0x".toList <:+: "--- \"a\".bc".toList := by
  decide

/-- C8, amended. For every line `---t` followed by a newline and any further
input `rest`, where `t` contains no `"`, no NUL, no newline and no `0x`, and
every run of dashes in `t` splits into groups of three and at most one single
dash: with enough fuel `Parse` returns the signal record whose `Signal` is the
line without its newline and whose `FuncName`, `Args` and `Result` are empty,
leaves `rest` unread, and `Unparse` of the record is the line without its
newline. -/
theorem C8_signal_pass_through_amended (t rest : Str)
    (h1 : ∀ c ∈ t, c ≠ '"' ∧ c ≠ eof ∧ c ≠ '\n') (h2 : ¬ ['0', 'x'] <:+: t)
    (h3 : dashesOk t = true) :
    ∃ k, ∀ n, ∃ p1,
      Parser.Parse (k + n) (NewParser ('-' :: '-' :: '-' :: (t ++ '\n' :: rest)))
        = some ((some (signalLine ('-' :: '-' :: '-' :: t)), none), p1) ∧
      p1.s.input = rest ∧
      (signalLine ('-' :: '-' :: '-' :: t)).FuncName = [] ∧
      (signalLine ('-' :: '-' :: '-' :: t)).Args = [] ∧
      (signalLine ('-' :: '-' :: '-' :: t)).Result = [] ∧
      OutputLine.Unparse (signalLine ('-' :: '-' :: '-' :: t)) = '-' :: '-' :: '-' :: t := by
  obtain ⟨k, hk⟩ := ParsesTo_signal (Or.inl ⟨Scans_signal (t ++ '\n' :: rest), by decide⟩)
    (SignalTo_plain t.length t (le_refl _) ⟨h1, h2, h3⟩ ['-', '-', '-'] rest)
  refine ⟨k, fun n => ?_⟩
  obtain ⟨p1, e, hp1⟩ := hk n _ (NewParser_At _)
  exact ⟨p1, e, hp1.1, rfl, rfl, rfl, Unparse_signal _ (by simp)⟩

/-- C8, witness of the amended statement at
`--- SIGCHLD {si_signo=SIGCHLD, si_pid=-1, si_status=0} ---`. -/
theorem C8_signal_pass_through_amended_witness :
    ((∀ c ∈ " SIGCHLD \x7bsi_signo=SIGCHLD, si_pid=-1, si_status=0\x7d ---".toList,
        c ≠ '"' ∧ c ≠ eof ∧ c ≠ '\n') ∧
      ¬ ['0', 'x'] <:+: " SIGCHLD \x7bsi_signo=SIGCHLD, si_pid=-1, si_status=0\x7d ---".toList ∧
      dashesOk " SIGCHLD \x7bsi_signo=SIGCHLD, si_pid=-1, si_status=0\x7d ---".toList = true) ∧
    ∃ k, ∀ n, ∃ p1,
      Parser.Parse (k + n) (NewParser
          "--- SIGCHLD \x7bsi_signo=SIGCHLD, si_pid=-1, si_status=0\x7d ---\n".toList)
        = some ((some (signalLine
            "--- SIGCHLD \x7bsi_signo=SIGCHLD, si_pid=-1, si_status=0\x7d ---".toList), none),
            p1) ∧
      p1.s.input = [] ∧
      (signalLine
        "--- SIGCHLD \x7bsi_signo=SIGCHLD, si_pid=-1, si_status=0\x7d ---".toList).FuncName
        = [] ∧
      (signalLine
        "--- SIGCHLD \x7bsi_signo=SIGCHLD, si_pid=-1, si_status=0\x7d ---".toList).Args = [] ∧
      (signalLine
        "--- SIGCHLD \x7bsi_signo=SIGCHLD, si_pid=-1, si_status=0\x7d ---".toList).Result
        = [] ∧
      OutputLine.Unparse (signalLine
          "--- SIGCHLD \x7bsi_signo=SIGCHLD, si_pid=-1, si_status=0\x7d ---".toList)
        = "--- SIGCHLD \x7bsi_signo=SIGCHLD, si_pid=-1, si_status=0\x7d ---".toList :=
  ⟨⟨by decide, by decide, by decide⟩,
    C8_signal_pass_through_amended
      " SIGCHLD \x7bsi_signo=SIGCHLD, si_pid=-1, si_status=0\x7d ---".toList []
      (by decide) (by decide) (by decide)⟩

/-! ## C9: string truncation marker -/

/-- C9, counterexample. The string `"a·b"` with a NUL rune (written `·`) in it
contains no `"`, yet `Scan` on `"a·b".cd!` returns the literal `"a` and leaves
`b".cd!` unread: `read` returns `rune(0)` for the NUL as it does at end of
stream, and `scanString` stops there. -/
theorem C9_counterexample :
    Scanner.Scan (NewScanner (['"', 'a', Char.ofNat 0, 'b', '"', '.', 'c', 'd', '!']))
      = ((Token.STRING, ['"', 'a']), ⟨['b', '"', '.', 'c', 'd', '!'], some (Char.ofNat 0)⟩) ∧
    ['"', 'a'] ≠ ['"', 'a', Char.ofNat 0, 'b', '"', '.', '.', '.'] := by
  decide

/-- C9, amended. For every `s` that contains neither `"` nor NUL, any runes
`c` and `d` and any `rest`: on the input `"s".cd rest`, `Scan` returns a
`STRING` token with literal `"s"...` and leaves exactly `rest` unread; and on
`"s"x rest` with `x` other than `.`, the literal is `"s"` and `x rest` is left
unread. -/
theorem C9_string_truncation_amended (s : Str) (hq : ∀ x ∈ s, x ≠ '"')
    (h0 : ∀ x ∈ s, x ≠ eof) (c d : Char) (rest : Str) (l : Option Char) :
    Scanner.Scan ⟨'"' :: (s ++ '"' :: '.' :: c :: d :: rest), l⟩
      = ((Token.STRING, '"' :: (s ++ ['"', '.', '.', '.'])), ⟨rest, some d⟩) ∧
    (∀ x, x ≠ '.' →
      Scanner.Scan ⟨'"' :: (s ++ '"' :: x :: rest), l⟩
        = ((Token.STRING, '"' :: (s ++ ['"'])), ⟨x :: rest, none⟩)) := by
  constructor
  · have h := scanStringLoop_spec s (s.length + ((rest.length + 1 + 1 + 1) + 1) + 1) (some '"')
      ['"'] ('.' :: c :: d :: rest) (by omega) hq h0
    simp [Scanner.Scan, read_cons, Scanner.scanString, h, closeString]
  · intro x hx
    have h := scanStringLoop_spec s (s.length + ((rest.length + 1) + 1) + 1) (some '"')
      ['"'] (x :: rest) (by omega) hq h0
    simp [Scanner.Scan, read_cons, Scanner.scanString, h, closeString, hx, unreadRune_some]

/-- C9, witness of the amended statement at `"/tmp".xy)`. -/
theorem C9_string_truncation_amended_witness :
    ((∀ x ∈ "/tmp".toList, x ≠ '"') ∧ (∀ x ∈ "/tmp".toList, x ≠ eof)) ∧
    (Scanner.Scan ⟨'"' :: ("/tmp".toList ++ '"' :: '.' :: 'x' :: 'y' :: [')']), none⟩
      = ((Token.STRING, '"' :: ("/tmp".toList ++ ['"', '.', '.', '.'])), ⟨[')'], some 'y'⟩) ∧
    (∀ x, x ≠ '.' →
      Scanner.Scan ⟨'"' :: ("/tmp".toList ++ '"' :: x :: [')']), none⟩
        = ((Token.STRING, '"' :: ("/tmp".toList ++ ['"'])), ⟨x :: [')'], none⟩))) :=
  ⟨⟨by decide, by decide⟩,
    C9_string_truncation_amended "/tmp".toList (by decide) (by decide) 'x' 'y' [')'] none⟩

/-! ## C10: record shape -/

/-- C10. Whenever `Parse`, on a parser with no token pushed back (every parser
made by `NewParser`, and every state `Parse` leaves), returns a record and a nil
error, the record has one of two shapes: `Signal` is not empty and `FuncName`,
`Args` and `Result` are empty; or `Signal` is empty and `FuncName` is not. -/
theorem C10_record_shape (p : Parser) (hn : p.buf.n = 0) (fuel : Nat) (line : OutputLine)
    (p1 : Parser) (h : Parser.Parse fuel p = some ((some line, none), p1)) :
    (line.Signal ≠ [] ∧ line.FuncName = [] ∧ line.Args = [] ∧ line.Result = []) ∨
      (line.Signal = [] ∧ line.FuncName ≠ []) := by
  simp only [Parser.Parse] at h
  split_ifs at h with h1 h2 h3
  · simp at h
  · cases hs : Parser.parseSignal fuel p.scanIgnoreWhitespace.2 p.scanIgnoreWhitespace.1.2 with
    | none => simp [hs] at h
    | some x =>
      obtain ⟨t, ht⟩ := parseSignal_extends _ _ _ x.1 x.2 hs
      have hlit := scanIW_lit_ne p hn h1
      simp only [hs, Option.some.injEq, Prod.mk.injEq, and_true] at h
      obtain ⟨rfl, _⟩ := h
      left
      refine ⟨?_, rfl, rfl, rfl⟩
      simp only [ht]
      intro he
      exact hlit (List.append_eq_nil.1 he).1
  · cases ha : Parser.parseArgs fuel p.scanIgnoreWhitespace.2.scanIgnoreWhitespace.2 [] with
    | none => simp [ha] at h
    | some x =>
      simp only [ha] at h
      split_ifs at h
      · simp at h
      · cases hr : Parser.parseResult fuel x.2.scanIgnoreWhitespace.2 [] with
        | none => simp [hr] at h
        | some y =>
          simp only [hr, Option.some.injEq, Prod.mk.injEq, and_true] at h
          obtain ⟨rfl, _⟩ := h
          right
          exact ⟨rfl, scanIW_lit_ne p hn h1⟩
  · simp at h

/-- C10, witness at the line `lstat(45) = 3`. -/
theorem C10_record_shape_witness :
    ((NewParser "lstat(45) = 3\n".toList).buf.n = 0 ∧
      Parser.Parse 5 (NewParser "lstat(45) = 3\n".toList)
        = some ((some (callLine "lstat".toList ["45".toList] " 3".toList), none),
            ⟨⟨[], some '\n'⟩, ⟨Token.NEWLINE, ['\n'], 0⟩⟩)) ∧
    (((callLine "lstat".toList ["45".toList] " 3".toList).Signal ≠ [] ∧
        (callLine "lstat".toList ["45".toList] " 3".toList).FuncName = [] ∧
        (callLine "lstat".toList ["45".toList] " 3".toList).Args = [] ∧
        (callLine "lstat".toList ["45".toList] " 3".toList).Result = []) ∨
      ((callLine "lstat".toList ["45".toList] " 3".toList).Signal = [] ∧
        (callLine "lstat".toList ["45".toList] " 3".toList).FuncName ≠ [])) :=
  ⟨⟨rfl, by decide⟩,
    C10_record_shape (NewParser "lstat(45) = 3\n".toList) rfl 5
      (callLine "lstat".toList ["45".toList] " 3".toList)
      ⟨⟨[], some '\n'⟩, ⟨Token.NEWLINE, ['\n'], 0⟩⟩ (by decide)⟩

/-! ## C11: missing equals -/

/-- The check that follows the argument list. When the first token is neither
`EOF` nor `SIGNAL`, the next one is `OPEN_PAREN`, the argument loop returns
within `fuel` iterations, and the token that `scanIgnoreWhitespace` returns
next is not `EQUALS` (it may be `EOF`), then `Parse` returns a nil record and
the error `Expected EQUALS`, with this fuel and with any larger one. -/
theorem Parse_missing_equals (p : Parser) (fuel : Nat) (args : List Str) (p3 : Parser)
    (h1 : p.scanIgnoreWhitespace.1.1 ≠ Token.EOF)
    (h2 : p.scanIgnoreWhitespace.1.1 ≠ Token.SIGNAL)
    (h3 : p.scanIgnoreWhitespace.2.scanIgnoreWhitespace.1.1 = Token.OPEN_PAREN)
    (h4 : Parser.parseArgs fuel p.scanIgnoreWhitespace.2.scanIgnoreWhitespace.2 []
      = some (args, p3))
    (h5 : p3.scanIgnoreWhitespace.1.1 ≠ Token.EQUALS) :
    ∀ m, Parser.Parse (fuel + m) p
      = some ((none, some (Error.errorsNew "Expected EQUALS")), p3.scanIgnoreWhitespace.2) := by
  intro m
  have h4m := parseArgs_mono _ _ _ _ h4 m
  simp [Parser.Parse, h1, h2, h3, h4m, h5]

theorem scanSwitch_EQUALS {r : Char} (h : (Scanner.scanSwitch r).1 = Token.EQUALS) :
    r = '=' := by
  unfold Scanner.scanSwitch at h
  split_ifs at h
  assumption

/-- `Scan` returns an `EQUALS` token only when the first rune is `=`. -/
theorem Scan_EQUALS_first (inp : Str) (l : Option Char)
    (h : (Scanner.Scan ⟨inp, l⟩).1.1 = Token.EQUALS) :
    ∃ t, inp = '=' :: t := by
  cases inp with
  | nil =>
    have e : (Scanner.Scan ⟨[], l⟩).1.1 = Token.EOF := rfl
    rw [e] at h
    cases h
  | cons c t =>
    suffices hc : c = '=' by exact ⟨t, by rw [hc]⟩
    unfold Scanner.Scan at h
    simp only [read_cons] at h
    split_ifs at h <;>
      first
      | exact scanSwitch_EQUALS h
      | simp [Scanner.scanAddress, Scanner.scanString, Scanner.scanIdent,
          Scanner.scanWhitespace] at h

/-- A run of blanks and tabs that ends the input is one `WS` token. -/
theorem Scans_blanks_end (c : Char) (t : Str) (hc : isWhitespace c = true)
    (ht : ∀ x ∈ t, isWhitespace x = true) :
    Scans (c :: t) Token.WS (c :: t) [] := by
  have e1 : t.takeWhile isWhitespace = t := List.takeWhile_eq_self_iff.mpr ht
  have e2 : t.dropWhile isWhitespace = [] := List.dropWhile_eq_nil_iff.mpr ht
  have h := Scans_ws c t hc (by rw [e2]; simp)
  rwa [e1, e2] at h

/-- At the end of the input, or before a rune that is neither whitespace, NUL
nor `=`, the parser's `scan` returns neither `EQUALS` nor `WS`. -/
theorem scan_no_equals {p : Parser} {tail : Str} (hp : p.At tail)
    (htail : tail = [] ∨ (StartsSolid tail ∧ tail.head? ≠ some '=')) :
    p.scan.1.1 ≠ Token.EQUALS ∧ p.scan.1.1 ≠ Token.WS := by
  obtain ⟨⟨i, l⟩, ⟨t, li, n⟩⟩ := p
  obtain ⟨h1, h2⟩ := hp
  simp only at h1 h2
  subst h1 h2
  have e : (Parser.scan ⟨⟨i, l⟩, ⟨t, li, 0⟩⟩).1 = (Scanner.Scan ⟨i, l⟩).1 := by
    simp [Parser.scan]
  rw [e]
  constructor
  · intro h
    obtain ⟨r, hr⟩ := Scan_EQUALS_first i l h
    rcases htail with h0 | ⟨_, h0⟩
    · rw [h0] at hr
      cases hr
    · rw [hr] at h0
      exact h0 rfl
  · intro h
    obtain ⟨c, r, hr, hc⟩ := Scan_WS_first i l h
    rcases htail with h0 | ⟨⟨d, r2, hd, hdw, _⟩, _⟩
    · rw [h0] at hr
      cases hr
    · rw [hr] at hd
      obtain ⟨rfl, _⟩ := List.cons.inj hd
      rw [hc] at hdw
      cases hdw

/-- After optional blanks and tabs, at the end of the input or before a rune
that is neither whitespace, NUL nor `=`, `scanIgnoreWhitespace` does not return
`EQUALS`. -/
theorem scanIW_no_equals {p : Parser} {ws tail : Str} (hp : p.At (ws ++ tail))
    (hws : ∀ c ∈ ws, isWhitespace c = true)
    (htail : tail = [] ∨ (StartsSolid tail ∧ tail.head? ≠ some '=')) :
    p.scanIgnoreWhitespace.1.1 ≠ Token.EQUALS := by
  cases ws with
  | nil =>
    obtain ⟨h1, h2⟩ := scan_no_equals (by simpa using hp) htail
    simp only [Parser.scanIgnoreWhitespace, h2, if_false]
    exact h1
  | cons c t =>
    have hc : isWhitespace c = true := hws c (by simp)
    have ht : ∀ x ∈ t, isWhitespace x = true := fun x hx => hws x (by simp [hx])
    have hs : Scans (c :: t ++ tail) Token.WS (c :: t) tail := by
      rcases htail with h0 | ⟨h0, _⟩
      · subst h0
        simpa using Scans_blanks_end c t hc ht
      · exact Scans_blanks c t hc ht h0
    obtain ⟨p1, e, hp1⟩ := scan_of_Scans hp hs
    simp only [Parser.scanIgnoreWhitespace, e, if_true]
    exact (scan_no_equals hp1 htail).1

/-- C11, counterexample. In `f(0x1234) b` the argument list is closed by `)`
and the next token, `b`, is not `=`; but the `)` is part of the address token
`0x1234)`, so the argument loop goes on. Followed by the line `g(a) = 1`,
`Parse` returns a record with the arguments `0x0`, `b`, the newline, `g`, `(`,
`a` and a nil error; and on `f(0x1234) b` alone `Parse` does not return for any
bound on its loops. -/
theorem C11_counterexample :
    (Parser.Parse 20 (NewParser "f(0x1234) b\ng(a) = 1\n".toList)).map (fun x => x.1)
      = some (some (callLine "f".toList
          ["0x0".toList, "b".toList, "\n".toList, "g".toList, "(".toList, "a".toList]
          " 1".toList), none) ∧
    ¬ ∃ fuel r, Parser.Parse fuel (NewParser "f(0x1234) b".toList) = some r := by
  refine ⟨by decide, ?_⟩
  rintro ⟨fuel, r, h⟩
  have h1 : ScansIW "f(0x1234) b".toList Token.IDENT "f".toList "(0x1234) b".toList :=
    Or.inl ⟨fun _ => ⟨rfl, rfl⟩, by decide⟩
  have h2 : ScansIW "(0x1234) b".toList Token.OPEN_PAREN "(".toList "0x1234) b".toList :=
    Or.inl ⟨fun _ => ⟨rfl, rfl⟩, by decide⟩
  have a1 : ScansIW "0x1234) b".toList Token.MEMADDR "0x1234)".toList " b".toList :=
    Or.inl ⟨fun _ => ⟨rfl, rfl⟩, by decide⟩
  have a2 : ScansIW " b".toList Token.IDENT "b".toList [] :=
    Or.inr ⟨" ".toList, "b".toList, fun _ => ⟨rfl, rfl⟩, fun _ => ⟨rfl, rfl⟩⟩
  have hdiv := Parse_diverges_args h1 (by decide) (by decide) h2
    (parseArgs_diverges_step a1 (by decide) (by decide)
      (parseArgs_diverges_step a2 (by decide) (by decide) parseArgs_eof))
    fuel _ (NewParser_At _)
  rw [hdiv] at h
  cases h

/-- C11, amended. For every input that begins with a call `f(a1, ..., an)`,
where `f` is an identifier that is `0` itself or does not begin with `0`, the
arguments are joined by a comma and a blank, each argument is such an
identifier, a hex address (`0x` and one or more hex digits) or a struct
`{n1=v1, ..., nk=vk}` of such names and values whose last value is not an
address, and the last argument is not an address (so the closing `)` is scanned
as a `CLOSE_PAREN` token), and in which the `)` is followed by optional blanks
and tabs `ws` and then by the end of the input or by a rune other than `=`,
blank, tab and NUL: with enough fuel `Parse` returns a nil record and the error
`Expected EQUALS`, which is not `ErrEOF`. -/
theorem C11_missing_equals_amended (f : Str) (args : List Arg) (ws tail : Str)
    (hf : isWord f = true) (hargs : ∀ a ∈ args, a.ok = true)
    (hlast : ∀ a, args.getLast? = some a → a.isAddr = false)
    (hws : ∀ c ∈ ws, isWhitespace c = true)
    (htail : tail = [] ∨ (StartsSolid tail ∧ tail.head? ≠ some '=')) :
    (∃ k, ∀ n, ∃ p1,
      Parser.Parse (k + n)
          (NewParser (f ++ '(' :: (joinArgs (args.map Arg.text) ++ ')' :: (ws ++ tail))))
        = some ((none, some (Error.errorsNew "Expected EQUALS")), p1)) ∧
    Error.errorsNew "Expected EQUALS" ≠ Error.ErrEOF := by
  refine ⟨?_, by simp⟩
  obtain ⟨t1, ht1, s1⟩ := Scans_word hf '('
    (joinArgs (args.map Arg.text) ++ ')' :: (ws ++ tail)) (by decide) (by decide)
  obtain ⟨k, hk⟩ := ArgsTo_args args hargs hlast false (ws ++ tail) []
  refine ⟨k, fun n => ?_⟩
  obtain ⟨p1, e1, hp1⟩ := scanIW_of_ScansIW (NewParser_At _)
    (Or.inl ⟨s1, (word_tok_ne ht1).2.2.2.2.2.2.1⟩)
  obtain ⟨p2, e2, hp2⟩ := scanIW_of_ScansIW hp1
    (Or.inl ⟨Scans_open_paren _, by decide⟩)
  obtain ⟨p3, e3, hp3⟩ := hk n p2 (by simpa [lead] using hp2)
  have h5 := scanIW_no_equals hp3 hws htail
  refine ⟨p3.scanIgnoreWhitespace.2, ?_⟩
  have h := Parse_missing_equals
    (NewParser (f ++ '(' :: (joinArgs (args.map Arg.text) ++ ')' :: (ws ++ tail))))
    (k + n) ([] ++ args.map Arg.norm) p3
    (by rw [e1]; exact (word_tok_ne ht1).2.2.2.2.2.2.2.1)
    (by rw [e1]; exact (word_tok_ne ht1).2.2.2.2.2.2.2.2)
    (by rw [e1, e2])
    (by rw [e1, e2]; exact e3) h5 0
  simpa using h

/-- C11, witness of the amended statement at `lstat(45) 3` with its newline:
after the `)` come a blank and the identifier `3`, no `=`. -/
theorem C11_missing_equals_amended_witness :
    (isWord "lstat".toList = true ∧
      (∀ a ∈ [Arg.val (Val.ident "45".toList)], a.ok = true) ∧
      (∀ a, [Arg.val (Val.ident "45".toList)].getLast? = some a → a.isAddr = false) ∧
      (∀ c ∈ " ".toList, isWhitespace c = true) ∧
      ("3\n".toList = [] ∨ (StartsSolid "3\n".toList ∧ ("3\n".toList).head? ≠ some '='))) ∧
    ((∃ k, ∀ n, ∃ p1,
      Parser.Parse (k + n) (NewParser "lstat(45) 3\n".toList)
        = some ((none, some (Error.errorsNew "Expected EQUALS")), p1)) ∧
    Error.errorsNew "Expected EQUALS" ≠ Error.ErrEOF) :=
  ⟨⟨by decide, by decide, by simp [Arg.isAddr, Val.isAddr], by decide,
      Or.inr ⟨⟨'3', "\n".toList, rfl, by decide, by decide⟩, by decide⟩⟩,
    C11_missing_equals_amended "lstat".toList [Arg.val (Val.ident "45".toList)]
      " ".toList "3\n".toList (by decide) (by decide) (by simp [Arg.isAddr, Val.isAddr])
      (by decide) (Or.inr ⟨⟨'3', "\n".toList, rfl, by decide, by decide⟩, by decide⟩)⟩

/-! ## C12: a line with a string and a struct -/

/-- C12, counterexample. `Unparse` of the record of
`lstat("/tmp", {st_size=12}) = 0` is `lstat("/tmp", {st_size=12}) =  0`, with
two blanks after `=`, which is not the line. -/
theorem C12_counterexample :
    (Parser.Parse 10 (NewParser "lstat(\"/tmp\", \x7bst_size=12\x7d) = 0\n".toList)).map
        (fun x => (x.1.1.map OutputLine.Unparse, x.1.2))
      = some (some "lstat(\"/tmp\", \x7bst_size=12\x7d) =  0".toList, none) ∧
    "lstat(\"/tmp\", \x7bst_size=12\x7d) =  0".toList
      ≠ "lstat(\"/tmp\", \x7bst_size=12\x7d) = 0".toList := by
  decide

/-- C12, amended. With enough fuel `Parse` returns, for the line
`lstat("/tmp", {st_size=12}) = 0` and its newline, the record with `FuncName`
`lstat`, the two arguments `"/tmp"` and `{st_size=12}` and the result ` 0`, and
`Unparse` of it is `lstat("/tmp", {st_size=12}) =  0`: the text of the line with
one more blank after `=`. -/
theorem C12_string_and_struct_amended :
    ∃ k, ∀ n, ∃ p1,
      Parser.Parse (k + n) (NewParser "lstat(\"/tmp\", \x7bst_size=12\x7d) = 0\n".toList)
        = some ((some (callLine "lstat".toList
            ["\"/tmp\"".toList, "\x7bst_size=12\x7d".toList] " 0".toList), none), p1) ∧
      p1.s.input = [] ∧
      OutputLine.Unparse (callLine "lstat".toList
          ["\"/tmp\"".toList, "\x7bst_size=12\x7d".toList] " 0".toList)
        = "lstat(\"/tmp\", \x7bst_size=12\x7d) =  0".toList := by
  refine ⟨10, fun n => ⟨⟨⟨[], some '\n'⟩, ⟨Token.NEWLINE, ['\n'], 0⟩⟩, ?_, rfl, by decide⟩⟩
  exact Parse_mono 10 _ _ (by decide) n

/-! ## C13: identifier scanning -/

/-- C13, the code at the failing inputs. On `0755` and on `0)` the first
character is a digit and the input does not begin with `0x`, yet `Scan` returns
an `ILLEGAL` token with literal `0` and leaves `755` and `)`: after
`unreadRunes(2)` the `0` branch goes on to the final `switch` and never reaches
`scanIdent`. The two tokens of `0755` are `ILLEGAL` `0` and `IDENT` `755`, and
`Parse` stores the argument `0755` of `chmod(3, 0755) = 0` as the two arguments
`0` and `755`. -/
theorem C13_leading_zero_is_illegal :
    Scanner.Scan (NewScanner "0755".toList)
      = ((Token.ILLEGAL, "0".toList), ⟨"755".toList, none⟩) ∧
    Scanner.Scan (NewScanner "0)".toList)
      = ((Token.ILLEGAL, "0".toList), ⟨")".toList, none⟩) ∧
    (Scanner.scanN 2 (NewScanner "0755".toList)).1
      = [(Token.ILLEGAL, "0".toList), (Token.IDENT, "755".toList)] ∧
    (Parser.Parse 20 (NewParser "chmod(3, 0755) = 0\n".toList)).map (fun x => x.1)
      = some (some (callLine "chmod".toList ["3".toList, "0".toList, "755".toList]
          " 0".toList), none) := by
  decide

/-- A NUL rune directly after an identifier is read as the end of the stream
and is not pushed back: on `a`, NUL, `b` the token is `IDENT` `a` and the next
`Scan` starts at `b`. -/
theorem Scan_identifier_before_nul :
    Scanner.Scan (NewScanner ['a', Char.ofNat 0, 'b'])
      = ((Token.IDENT, ['a']), ⟨['b'], some (Char.ofNat 0)⟩) := by
  decide

theorem isIdentifier_cases {w : Str} (hw : isIdentifier w = true) (hz : w.head? ≠ some '0') :
    ∃ c run, w = c :: run ∧ (isLetter c || isDigit c) = true ∧ c ≠ '0' ∧
      ∀ x ∈ run, isIdentChar x = true := by
  cases w with
  | nil => simp [isIdentifier] at hw
  | cons c run =>
    simp only [isIdentifier, Bool.and_eq_true, List.all_eq_true] at hw
    exact ⟨c, run, rfl, hw.1, by simpa using hz, hw.2⟩

theorem Scans_identifier {w : Str} (hw : isIdentifier w = true) (hz : w.head? ≠ some '0')
    (d : Char) (rest : Str) (hd : isIdentChar d = false) (hd0 : d ≠ eof) :
    Scans (w ++ d :: rest) Token.IDENT w (d :: rest) := by
  obtain ⟨c, run, rfl, hc, hz1, hrun⟩ := isIdentifier_cases hw hz
  obtain ⟨e1, e2⟩ := takeWhile_run isIdentChar run d rest hrun hd
  have h := Scans_ident c (run ++ d :: rest) hc hz1 (by rw [e2]; simpa using hd0)
  rwa [e1, e2] at h

/-- Identifier scanning away from the leading `0`. For every input whose
first character `c` is a letter or a digit other than `0`, and in which the maximal prefix of letters, digits and
underscores is not directly followed by a NUL rune, `Scan` returns an `IDENT`
token whose literal is that prefix and leaves exactly the input after it. And
for identifiers `a` and `b` that do not begin with `0`, the first four tokens
of `a(b)` are `IDENT`, `OPEN_PAREN`, `IDENT`, `CLOSE_PAREN`. -/
theorem Scan_identifier_run (c : Char) (tail : Str) (l : Option Char)
    (a b rest : Str)
    (hc : (isLetter c || isDigit c) = true) (hz : c ≠ '0')
    (h0 : ((c :: tail).dropWhile isIdentChar).head? ≠ some eof)
    (ha : isIdentifier a = true) (ha0 : a.head? ≠ some '0')
    (hb : isIdentifier b = true) (hb0 : b.head? ≠ some '0') :
    Scanner.Scan ⟨c :: tail, l⟩
      = ((Token.IDENT, (c :: tail).takeWhile isIdentChar),
          ⟨(c :: tail).dropWhile isIdentChar, none⟩) ∧
    (Scanner.scanN 4 ⟨a ++ '(' :: (b ++ ')' :: rest), l⟩).1
      = [(Token.IDENT, a), (Token.OPEN_PAREN, ['(']), (Token.IDENT, b),
          (Token.CLOSE_PAREN, [')'])] := by
  have hci : isIdentChar c = true := by
    simp only [isIdentChar, Bool.or_eq_true] at hc ⊢
    exact Or.inl hc
  constructor
  · have h2 : c ≠ '-' := by rintro rfl; exact absurd hc (by decide)
    have h3 : c ≠ '"' := by rintro rfl; exact absurd hc (by decide)
    have h4 : isWhitespace c = false := by
      cases h : isWhitespace c
      · rfl
      · exfalso
        have : c = ' ' ∨ c = '\t' := by simpa [isWhitespace] using h
        rcases this with rfl | rfl <;> exact absurd hc (by decide)
    have hc1 : isLetter c = true ∨ isDigit c = true := by simpa using hc
    have h0t : (tail.dropWhile isIdentChar).head? ≠ some eof := by
      simpa [List.dropWhile, hci] using h0
    simp [Scanner.Scan, read_cons, hz, h2, h3, h4, hc1, unreadRune_some, Scanner.scanIdent,
      scanIdentLoop_spec tail (tail.length + 1) (some c) [c] (le_refl _) h0t,
      List.takeWhile, List.dropWhile, hci]
  · have s1 := Scans_identifier ha ha0 '(' (b ++ ')' :: rest) (by decide) (by decide)
    have s3 := Scans_identifier hb hb0 ')' rest (by decide) (by decide)
    exact (ScansN_cons s1 (ScansN_cons (Scans_open_paren _)
      (ScansN_cons s3 (ScansN_cons (Scans_close_paren rest) (ScansN_nil rest)))) l).1

/-- The identifiers of `lstat(45) = 3`, the input of `TestWholeLine`. -/
theorem Scan_identifier_run_lstat :
    ((isLetter 'l' || isDigit 'l') = true ∧ 'l' ≠ '0' ∧
      (("lstat(45) = 3".toList).dropWhile isIdentChar).head? ≠ some eof ∧
      isIdentifier "lstat".toList = true ∧ ("lstat".toList).head? ≠ some '0' ∧
      isIdentifier "45".toList = true ∧ ("45".toList).head? ≠ some '0') ∧
    (Scanner.Scan ⟨"lstat(45) = 3".toList, none⟩
      = ((Token.IDENT, ("lstat(45) = 3".toList).takeWhile isIdentChar),
          ⟨("lstat(45) = 3".toList).dropWhile isIdentChar, none⟩) ∧
    (Scanner.scanN 4 ⟨"lstat".toList ++ '(' :: ("45".toList ++ ')' :: " = 3".toList), none⟩).1
      = [(Token.IDENT, "lstat".toList), (Token.OPEN_PAREN, ['(']), (Token.IDENT, "45".toList),
          (Token.CLOSE_PAREN, [')'])]) :=
  ⟨⟨by decide, by decide, by decide, by decide, by decide, by decide, by decide⟩,
    Scan_identifier_run 'l' "stat(45) = 3".toList none "lstat".toList "45".toList
      " = 3".toList (by decide) (by decide) (by decide) (by decide) (by decide) (by decide)
      (by decide)⟩

/-! ## C14: address scanning boundary -/

/-- C14. For every input `0x t rest`, where `t` contains no space, tab,
newline or NUL and `rest` is empty or begins with a space, a tab or a newline,
`Scan` returns a `MEMADDR` token with literal `0x t` as written and leaves
exactly `rest` unread. -/
theorem C14_address_boundary (t rest : Str) (l : Option Char)
    (ht : ∀ c ∈ t, c ≠ ' ' ∧ c ≠ '\t' ∧ c ≠ '\n' ∧ c ≠ eof)
    (hrest : rest = [] ∨ ∃ d r, rest = d :: r ∧ (d = ' ' ∨ d = '\t' ∨ d = '\n')) :
    Scanner.Scan ⟨'0' :: 'x' :: (t ++ rest), l⟩
      = ((Token.MEMADDR, '0' :: 'x' :: t), ⟨rest, none⟩) := by
  have hta : ∀ c ∈ t, isAddrChar c = true := by
    intro c hc
    obtain ⟨h1, h2, h3, _⟩ := ht c hc
    simp [isAddrChar, isWhitespace, h1, h2, h3]
  have hhead : ∀ d ∈ rest.head?, isAddrChar d = false := by
    rcases hrest with rfl | ⟨d, r, rfl, hd⟩
    · simp
    · intro x hx
      have : x = d := by simpa using hx.symm
      subst this
      rcases hd with rfl | rfl | rfl <;> decide
  obtain ⟨e1, e2⟩ := takeWhile_append_stop isAddrChar t rest hhead
  have e3 : t.takeWhile isAddrChar = t := List.takeWhile_eq_self_iff.2 hta
  have e4 : t.dropWhile isAddrChar = [] := List.dropWhile_eq_nil_iff.2 hta
  rw [e3] at e1
  rw [e4, List.nil_append] at e2
  have h0 : ((t ++ rest).dropWhile isAddrChar).head? ≠ some eof := by
    rw [e2]
    rcases hrest with rfl | ⟨d, r, rfl, hd⟩
    · simp
    · simp only [List.head?_cons, ne_eq, Option.some.injEq]
      rcases hd with rfl | rfl | rfl <;> decide
  have h1 : ∀ c ∈ (t ++ rest).takeWhile isAddrChar, c ≠ eof := by
    rw [e1]
    exact fun c hc => (ht c hc).2.2.2
  have hloop := scanAddressLoop_spec (t ++ rest) ((t ++ rest).length + 1) (some 'x') ['0', 'x']
    (le_refl _) h0 h1
  rw [e1, e2] at hloop
  simp only [Scanner.Scan, read_cons, if_true, Scanner.scanAddress, hloop]
  simp

/-- C14, witness at `0x7fff1234) = 0`, where the `)` is part of the literal. -/
theorem C14_address_boundary_witness :
    ((∀ c ∈ "7fff1234)".toList, c ≠ ' ' ∧ c ≠ '\t' ∧ c ≠ '\n' ∧ c ≠ eof) ∧
      (" = 0".toList = [] ∨
        ∃ d r, " = 0".toList = d :: r ∧ (d = ' ' ∨ d = '\t' ∨ d = '\n'))) ∧
    Scanner.Scan ⟨'0' :: 'x' :: ("7fff1234)".toList ++ " = 0".toList), none⟩
      = ((Token.MEMADDR, '0' :: 'x' :: "7fff1234)".toList), ⟨" = 0".toList, none⟩) :=
  ⟨⟨by decide, Or.inr ⟨' ', "= 0".toList, rfl, Or.inl rfl⟩⟩,
    C14_address_boundary "7fff1234)".toList " = 0".toList none (by decide)
      (Or.inr ⟨' ', "= 0".toList, rfl, Or.inl rfl⟩)⟩

/-! ## C15: the signal marker and its mismatch -/

/-- Two dashes followed by another rune: `Scan` returns `ILLEGAL` `-` and
leaves the input from that other rune on, without the second dash. -/
theorem Scan_double_dash (d : Char) (rest : Str) (l : Option Char) (hd : d ≠ '-') :
    Scanner.Scan ⟨'-' :: '-' :: d :: rest, l⟩
      = ((Token.ILLEGAL, ['-']), ⟨d :: rest, none⟩) := by
  simp [Scanner.Scan, read_cons, hd, unreadRunes_two_some, Scanner.scanSwitch, eof]

/-- C15, the code at the failing input. On `--a` the first `Scan` returns
`ILLEGAL` `-` and leaves only `a`: of the two runes read as lookahead, the second
`-` and `a`, `unreadRunes(2)` restores just the last one. The next tokens are
`IDENT` `a` and `EOF`; the second dash is lost. -/
theorem C15_second_dash_is_lost :
    Scanner.Scan (NewScanner "--a".toList)
      = ((Token.ILLEGAL, "-".toList), ⟨"a".toList, none⟩) ∧
    (Scanner.scanN 3 (NewScanner "--a".toList)).1
      = [(Token.ILLEGAL, "-".toList), (Token.IDENT, "a".toList), (Token.EOF, [])] ∧
    [(Token.ILLEGAL, "-".toList), (Token.IDENT, "a".toList), (Token.EOF, [])]
      ≠ [(Token.ILLEGAL, "-".toList), (Token.ILLEGAL, "-".toList), (Token.IDENT, "a".toList)] := by
  decide

/-! ## C16: the fields of a parsed call line -/

/-- C16, counterexample. On the line `f(a) = "x".yz` the text after `=`
contains no address, and `Parse` returns the result ` "x"...`, not the text
` "x".yz` between `=` and the newline: `scanString` takes the `.` after the
closing quote for a truncation marker. -/
theorem C16_counterexample :
    (Parser.Parse 10 (NewParser "f(a) = \"x\".yz\n".toList)).map (fun x => x.1)
      = some (some (callLine "f".toList ["a".toList] " \"x\"...".toList), none) ∧
    " \"x\"...".toList ≠ " \"x\".yz".toList ∧
    ¬ "0x".toList <:+: " \"x\".yz".toList := by
  decide

/-- C16, amended. For every line `f(a1, ..., an) = text` with `n ≥ 1`, where `f`
and every `ai` are identifiers that are `0` or do not begin with `0`, every
comma may have blanks before and after it (each item of `items` is an argument
with the blanks before and after the comma that follows it, `last` is the last
argument), and the text after `=` contains no `"`, no NUL, no newline and no
`0x`, with dashes in groups of three and at most one single dash, followed by a
newline and any further input `rest`: with enough fuel `Parse` returns the
record with `FuncName = f`, `Args = [a1, ..., an]` in source order, and
`Result` equal to the exact text between `=` and the newline, and leaves `rest`
unread. -/
theorem C16_fields_of_call_line_amended (f : Str) (items : List (Str × Str × Str))
    (last text rest : Str) (hf : isWord f = true)
    (hitems : ∀ it ∈ items, isWord it.1 = true ∧ (∀ c ∈ it.2.1, isWhitespace c = true) ∧
      (∀ c ∈ it.2.2, isWhitespace c = true))
    (hlast : isWord last = true)
    (h1 : ∀ c ∈ text, c ≠ '"' ∧ c ≠ eof ∧ c ≠ '\n') (h2 : ¬ ['0', 'x'] <:+: text)
    (h3 : dashesOk text = true) :
    ∃ k, ∀ n, ∃ p1,
      Parser.Parse (k + n) (NewParser
          (f ++ '(' :: (spacedArgs items last ++ ')' :: ' ' :: '=' :: (text ++ '\n' :: rest))))
        = some ((some (callLine f (items.map (fun it => it.1) ++ [last]) text), none), p1) ∧
      p1.s.input = rest ∧
      [','] ∉ items.map (fun it => it.1) ++ [last] := by
  obtain ⟨k, hk⟩ := ParsesTo_spaced_line f items last text rest hf hitems hlast ⟨h1, h2, h3⟩
  refine ⟨k, fun n => ?_⟩
  obtain ⟨p1, e, hp1⟩ := hk n _ (NewParser_At _)
  refine ⟨p1, e, hp1.1, ?_⟩
  intro hmem
  have hw : isWord [','] = true := by
    rcases List.mem_append.1 hmem with h | h
    · obtain ⟨it, hit, e⟩ := List.mem_map.1 h
      rw [← e]
      exact (hitems it hit).1
    · have : [','] = last := by simpa using h
      rw [this]
      exact hlast
  exact absurd hw (by decide)

/-- C16, witness at `open(path , 0,  438) = -1 ENOENT (No such file)`. -/
theorem C16_fields_of_call_line_amended_witness :
    (isWord "open".toList = true ∧
      (∀ it ∈ [("path".toList, " ".toList, " ".toList), ("0".toList, [], "  ".toList)],
        isWord it.1 = true ∧ (∀ c ∈ it.2.1, isWhitespace c = true) ∧
          (∀ c ∈ it.2.2, isWhitespace c = true)) ∧
      isWord "438".toList = true ∧
      (∀ c ∈ " -1 ENOENT (No such file)".toList, c ≠ '"' ∧ c ≠ eof ∧ c ≠ '\n') ∧
      ¬ ['0', 'x'] <:+: " -1 ENOENT (No such file)".toList ∧
      dashesOk " -1 ENOENT (No such file)".toList = true) ∧
    ∃ k, ∀ n, ∃ p1,
      Parser.Parse (k + n) (NewParser
          "open(path , 0,  438) = -1 ENOENT (No such file)\n".toList)
        = some ((some (callLine "open".toList ["path".toList, "0".toList, "438".toList]
            " -1 ENOENT (No such file)".toList), none), p1) ∧
      p1.s.input = [] ∧
      [','] ∉ ["path".toList, "0".toList, "438".toList] :=
  ⟨⟨by decide, by decide, by decide, by decide, by decide, by decide⟩,
    C16_fields_of_call_line_amended "open".toList
      [("path".toList, " ".toList, " ".toList), ("0".toList, [], "  ".toList)]
      "438".toList " -1 ENOENT (No such file)".toList [] (by decide) (by decide) (by decide)
      (by decide) (by decide) (by decide)⟩

/-! ## C17: the first close brace ends a struct -/

/-- The struct loop on a token sequence: when the next `i` tokens are not
`CLOSE_BRACE` and the one after them is, the loop returns, for any fuel above
`i`, the buffer followed by what it writes for those `i` tokens and by the
literal of the `CLOSE_BRACE` token. -/
theorem parseStruct_scanN : ∀ (i : Nat) (p : Parser) (buf : Str) (fuel : Nat),
    (∀ tl ∈ (Parser.scanN i p).1, tl.1 ≠ Token.CLOSE_BRACE) →
    (Parser.scanN i p).2.scan.1.1 = Token.CLOSE_BRACE → i + 1 ≤ fuel →
    Parser.parseStruct fuel p buf
      = some (buf ++ ((Parser.scanN i p).1.map structLit).flatten
          ++ (Parser.scanN i p).2.scan.1.2, (Parser.scanN i p).2.scan.2) := by
  intro i
  induction i with
  | zero =>
    intro p buf fuel _ h2 hf
    obtain ⟨f, rfl, _⟩ := succ_of_le hf
    simp only [Parser.scanN] at h2 ⊢
    simp [Parser.parseStruct, h2]
  | succ i ih =>
    intro p buf fuel h1 h2 hf
    obtain ⟨f, rfl, hf1⟩ := succ_of_le hf
    simp only [Parser.scanN] at h1 h2 ⊢
    have hne : p.scan.1.1 ≠ Token.CLOSE_BRACE := h1 p.scan.1 (by simp)
    have h1t : ∀ tl ∈ (Parser.scanN i p.scan.2).1, tl.1 ≠ Token.CLOSE_BRACE :=
      fun tl htl => h1 tl (by simp [htl])
    have hrec := ih p.scan.2 (buf ++ structLit p.scan.1) f h1t h2 hf1
    simp only [Parser.parseStruct, hne, if_false]
    by_cases hm : p.scan.1.1 = Token.MEMADDR
    · simp only [hm, if_true]
      simp only [structLit, hm, if_true] at hrec
      rw [hrec]
      simp [structLit, hm]
    · simp only [hm, if_false]
      simp only [structLit, hm, if_false] at hrec
      rw [hrec]
      simp [structLit, hm]

/-- C17, counterexample. In `f({a=0x12, b={c=1}, d=2}) = 0` the text from the
first `{` to the first `}` with the address replaced is `{a=0x0, b={c=1}`, but
the struct argument that `Parse` appends is `{a=0x0 b={c=1}`: the address token
is `0x12,` and `0x0` is written for the whole of it. -/
theorem C17_counterexample :
    (Parser.Parse 20
        (NewParser "f(\x7ba=0x12, b=\x7bc=1\x7d, d=2\x7d) = 0\n".toList)).map (fun x => x.1)
      = some (some (callLine "f".toList
          ["\x7ba=0x0 b=\x7bc=1\x7d".toList, "d".toList, "=".toList, "2".toList,
            "\x7d".toList]
          " 0".toList), none) ∧
    "\x7ba=0x0 b=\x7bc=1\x7d".toList ≠ "\x7ba=0x0, b=\x7bc=1\x7d".toList := by
  decide

/-- C17, amended. Whenever the argument loop reads an `OPEN_BRACE` token, the
next `i` tokens are not `CLOSE_BRACE` (they may be `OPEN_BRACE`) and the token
after them is `CLOSE_BRACE`, then with fuel above `i` one iteration of the loop
appends exactly one argument: the literal of the `OPEN_BRACE`, the literals of
the `i` tokens with `0x0` written for each address token, and the literal of
that first `CLOSE_BRACE`; and the loop goes on as usual with the tokens after
that `CLOSE_BRACE`. -/
theorem C17_first_close_brace_ends_struct_amended (p : Parser) (args : List Str)
    (i fuel : Nat)
    (h0 : p.scanIgnoreWhitespace.1.1 = Token.OPEN_BRACE)
    (h1 : ∀ tl ∈ (Parser.scanN i p.scanIgnoreWhitespace.2).1, tl.1 ≠ Token.CLOSE_BRACE)
    (h2 : (Parser.scanN i p.scanIgnoreWhitespace.2).2.scan.1.1 = Token.CLOSE_BRACE)
    (hf : i + 1 ≤ fuel) :
    Parser.parseArgs (fuel + 1) p args
      = Parser.parseArgs fuel (Parser.scanN i p.scanIgnoreWhitespace.2).2.scan.2
          (args ++ [p.scanIgnoreWhitespace.1.2
            ++ ((Parser.scanN i p.scanIgnoreWhitespace.2).1.map structLit).flatten
            ++ (Parser.scanN i p.scanIgnoreWhitespace.2).2.scan.1.2]) := by
  have hs := parseStruct_scanN i p.scanIgnoreWhitespace.2 p.scanIgnoreWhitespace.1.2 fuel
    h1 h2 hf
  simp [Parser.parseArgs, h0, hs]

/-- C17, witness of the amended statement at the struct of `f({a={b=1}, c=2}) = 0`: the six tokens
after the first `{` are `a`, `=`, `{`, `b`, `=`, `1`, the argument appended is
`{a={b=1}`, and the whole line yields the arguments `{a={b=1}`, `c`, `=`, `2`,
`}`. -/
theorem C17_first_close_brace_ends_struct_amended_witness :
    ((NewParser "\x7ba=\x7bb=1\x7d, c=2\x7d) = 0\n".toList).scanIgnoreWhitespace.1.1
        = Token.OPEN_BRACE ∧
      (∀ tl ∈ (Parser.scanN 6
          (NewParser "\x7ba=\x7bb=1\x7d, c=2\x7d) = 0\n".toList).scanIgnoreWhitespace.2).1,
        tl.1 ≠ Token.CLOSE_BRACE) ∧
      (Parser.scanN 6
          (NewParser "\x7ba=\x7bb=1\x7d, c=2\x7d) = 0\n".toList).scanIgnoreWhitespace.2).2.scan.1.1
        = Token.CLOSE_BRACE ∧
      6 + 1 ≤ 7) ∧
    Parser.parseArgs (7 + 1) (NewParser "\x7ba=\x7bb=1\x7d, c=2\x7d) = 0\n".toList) []
      = Parser.parseArgs 7
          ⟨⟨", c=2\x7d) = 0\n".toList, some '}'⟩, ⟨Token.CLOSE_BRACE, ['}'], 0⟩⟩
          ["\x7ba=\x7bb=1\x7d".toList] ∧
    (Parser.Parse 20 (NewParser "f(\x7ba=\x7bb=1\x7d, c=2\x7d) = 0\n".toList)).map
        (fun x => x.1)
      = some (some (callLine "f".toList
          ["\x7ba=\x7bb=1\x7d".toList, "c".toList, "=".toList, "2".toList, "\x7d".toList]
          " 0".toList), none) :=
  ⟨⟨by decide, by decide, by decide, by decide⟩,
    C17_first_close_brace_ends_struct_amended
      (NewParser "\x7ba=\x7bb=1\x7d, c=2\x7d) = 0\n".toList)
      [] 6 7 (by decide) (by decide) (by decide) (by decide),
    by decide⟩

/-! ## C18: scanIgnoreWhitespace -/

/-- C18, counterexample. On the input of a blank, a NUL rune, a blank and `x`,
`scanIgnoreWhitespace` returns a `WS` token: `scanWhitespace` stops at the NUL,
which `read` returns as `rune(0)`, without pushing it back, so the next `Scan`
starts at the second blank and returns `WS` again. -/
theorem C18_counterexample :
    (NewParser [' ', Char.ofNat 0, ' ', 'x']).scanIgnoreWhitespace.1 = (Token.WS, [' ']) ∧
    (Scanner.scanN 2 (NewScanner [' ', Char.ofNat 0, ' ', 'x'])).1
      = [(Token.WS, [' ']), (Token.WS, [' '])] := by
  decide

/-- C18, amended. For every parser with no token pushed back whose input
contains no NUL rune, the token that `scanIgnoreWhitespace` returns is not of
kind `WS`. -/
theorem C18_scanIgnoreWhitespace_amended (p : Parser) (hn : p.buf.n = 0)
    (h0 : ∀ c ∈ p.s.input, c ≠ eof) : p.scanIgnoreWhitespace.1.1 ≠ Token.WS := by
  intro hws
  have a1 : p.scan.1 = (Scanner.Scan p.s).1 := by rw [scan_n_zero p hn]
  have a2 : p.scan.2.s = (Scanner.Scan p.s).2 := by rw [scan_n_zero p hn]
  have a3 : p.scan.2.buf.n = 0 := scan_leaves_zero p
  unfold Parser.scanIgnoreWhitespace at hws
  simp only at hws
  split_ifs at hws with h1
  · have b1 : p.scan.2.scan.1 = (Scanner.Scan p.scan.2.s).1 := by rw [scan_n_zero _ a3]
    rw [b1, a2] at hws
    rw [a1] at h1
    obtain ⟨c, tl, e, hc⟩ := Scan_WS_first p.s.input p.s.last h1
    have hd : (tl.dropWhile isWhitespace).head? ≠ some eof := by
      have := @head_dropWhile_append_ne_eof tl [] isWhitespace
        (fun x hx => h0 x (by rw [e]; simp [hx])) (Or.inl rfl)
      simpa using this
    obtain ⟨_, e2⟩ := Scans_ws c tl hc hd p.s.last
    rw [← e] at e2
    have e3 : (Scanner.Scan p.s).2.input = tl.dropWhile isWhitespace := e2
    obtain ⟨c2, t2, e4, hc2⟩ := Scan_WS_first (Scanner.Scan p.s).2.input
      (Scanner.Scan p.s).2.last hws
    rw [e3] at e4
    have := dropWhile_head_not isWhitespace tl c2 t2 e4
    rw [hc2] at this
    cases this
  · exact h1 hws

/-- C18, witness at the input `  a`, two blanks and `a`. -/
theorem C18_scanIgnoreWhitespace_amended_witness :
    ((NewParser "  a".toList).buf.n = 0 ∧ (∀ c ∈ (NewParser "  a".toList).s.input, c ≠ eof)) ∧
    (NewParser "  a".toList).scanIgnoreWhitespace.1.1 ≠ Token.WS :=
  ⟨⟨rfl, by decide⟩, C18_scanIgnoreWhitespace_amended (NewParser "  a".toList) rfl (by decide)⟩

/-! ## C19: a second pass -/

/-- C19, counterexample. `Parse` succeeds on `f(a) = r` with a record whose
`Unparse` is `f(a) =  r`; on that text and a newline `Parse` succeeds again, and
`Unparse` of the second record is `f(a) =   r`, with one more blank: the text
of the first pass is not a fixed point. -/
theorem C19_counterexample :
    (Parser.Parse 10 (NewParser "f(a) = r\n".toList)).map
        (fun x => (x.1.1.map OutputLine.Unparse, x.1.2))
      = some (some "f(a) =  r".toList, none) ∧
    (Parser.Parse 10 (NewParser ("f(a) =  r".toList ++ ['\n']))).map
        (fun x => (x.1.1.map OutputLine.Unparse, x.1.2))
      = some (some "f(a) =   r".toList, none) ∧
    "f(a) =   r".toList ≠ "f(a) =  r".toList := by
  decide

/-- C19, amended. For every line `f(a1, ..., an) = r` with `n ≥ 1`, where `f`
is an identifier, every `ai` and `r` is an identifier or a hex address,
identifiers are `0` or do not begin with `0`, and the last argument is not an
address: with enough fuel `Parse` returns a record `o` for the line, and for
`Unparse o` followed by a newline it returns a record with the same `FuncName`
and the same `Args` whose `Result` has one more blank in front; `Unparse` of
that second record is `Unparse o` with one more blank after `=`, three in
all. -/
theorem C19_second_pass_amended (f : Str) (args : List Val) (r : Val)
    (hf : isWord f = true) (hargs : ∀ a ∈ args, a.ok = true) (hne : args ≠ [])
    (hlast : ∀ a, args.getLast? = some a → a.isAddr = false) (hr : r.ok = true) :
    ∃ k, ∀ n, ∃ p1 p2,
      Parser.Parse (k + n) (NewParser
          (f ++ ['('] ++ List.intercalate [',', ' '] (args.map Val.text) ++ [')', ' ', '=', ' ']
            ++ r.text ++ ['\n']))
        = some ((some (callLine f (args.map Val.norm) (' ' :: r.norm)), none), p1) ∧
      Parser.Parse (k + n) (NewParser
          (OutputLine.Unparse (callLine f (args.map Val.norm) (' ' :: r.norm)) ++ ['\n']))
        = some ((some (callLine f (args.map Val.norm) (' ' :: ' ' :: r.norm)), none), p2) ∧
      OutputLine.Unparse (callLine f (args.map Val.norm) (' ' :: r.norm))
        = f ++ ['('] ++ List.intercalate [',', ' '] (args.map Val.norm)
            ++ [')', ' ', '=', ' ', ' '] ++ r.norm ∧
      OutputLine.Unparse (callLine f (args.map Val.norm) (' ' :: ' ' :: r.norm))
        = f ++ ['('] ++ List.intercalate [',', ' '] (args.map Val.norm)
            ++ [')', ' ', '=', ' ', ' ', ' '] ++ r.norm := by
  have hne2 : args.map Val.norm ≠ [] := by simpa using hne
  have hu1 : OutputLine.Unparse (callLine f (args.map Val.norm) (' ' :: r.norm))
      = f ++ ['('] ++ List.intercalate [',', ' '] (args.map Val.norm)
          ++ [')', ' ', '=', ' ', ' '] ++ r.norm := by
    rw [callLine, Unparse_call f (args.map Val.norm) (' ' :: r.norm) hne2]
    simp
  have hu2 : OutputLine.Unparse (callLine f (args.map Val.norm) (' ' :: ' ' :: r.norm))
      = f ++ ['('] ++ List.intercalate [',', ' '] (args.map Val.norm)
          ++ [')', ' ', '=', ' ', ' ', ' '] ++ r.norm := by
    rw [callLine, Unparse_call f (args.map Val.norm) (' ' :: ' ' :: r.norm) hne2]
    simp
  -- the first pass
  have hok : ∀ a ∈ args.map Arg.val, a.ok = true := by
    intro a ha
    obtain ⟨w, hw, rfl⟩ := List.mem_map.1 ha
    exact hargs w hw
  have hlast2 : ∀ a, (args.map Arg.val).getLast? = some a → a.isAddr = false := by
    intro a ha
    rw [List.getLast?_map] at ha
    cases hl : args.getLast? with
    | none => simp [hl] at ha
    | some v =>
      rw [hl] at ha
      have : a = Arg.val v := by simpa using ha.symm
      subst this
      exact hlast v hl
  obtain ⟨k1, hk1⟩ := ParsesTo_line f (args.map Arg.val) r [] hf hok hlast2 hr
  -- the second pass
  have hok3 : ∀ a ∈ (args.map Val.normVal).map Arg.val, a.ok = true := by
    intro a ha
    obtain ⟨v, hv, rfl⟩ := List.mem_map.1 ha
    obtain ⟨w, hw, rfl⟩ := List.mem_map.1 hv
    exact Val.ok_normVal (hargs w hw)
  have hlast3 : ∀ a, ((args.map Val.normVal).map Arg.val).getLast? = some a →
      a.isAddr = false := by
    intro a ha
    rw [List.getLast?_map, List.getLast?_map] at ha
    cases hl : args.getLast? with
    | none => simp [hl] at ha
    | some v =>
      rw [hl] at ha
      have : a = Arg.val v.normVal := by simpa using ha.symm
      subst this
      have := hlast v hl
      simpa [Arg.isAddr, Val.isAddr_normVal] using this
  obtain ⟨k2, hk2⟩ := ParsesTo_line_ws f ((args.map Val.normVal).map Arg.val) r.normVal []
    ' ' [' '] hf hok3 hlast3 (Val.ok_normVal hr) (by decide) (by decide)
  have hin1 : lineText f (args.map Arg.val) r ++ []
      = f ++ ['('] ++ List.intercalate [',', ' '] (args.map Val.text) ++ [')', ' ', '=', ' ']
          ++ r.text ++ ['\n'] := by
    simp only [lineText, map_val_text, joinArgs_eq_intercalate]
    simp
  have hin2 : f ++ '(' :: (joinArgs (((args.map Val.normVal).map Arg.val).map Arg.text) ++
        ')' :: ' ' :: '=' :: (' ' :: [' '] ++ (r.normVal.text ++ '\n' :: [])))
      = OutputLine.Unparse (callLine f (args.map Val.norm) (' ' :: r.norm)) ++ ['\n'] := by
    rw [hu1]
    simp only [map_normVal_text, joinArgs_eq_intercalate, Val.text_normVal]
    simp
  refine ⟨k1 + k2, fun n => ?_⟩
  obtain ⟨p1, e1, _⟩ := hk1 (k2 + n) _ (NewParser_At _)
  obtain ⟨p2, e2, _⟩ := hk2 (k1 + n) _ (NewParser_At _)
  rw [map_val_norm, hin1] at e1
  rw [map_normVal_norm, hin2, Val.norm_normVal] at e2
  have f1 : k1 + k2 + n = k1 + (k2 + n) := by omega
  have f2 : k1 + k2 + n = k2 + (k1 + n) := by omega
  refine ⟨p1, p2, ?_, ?_, hu1, hu2⟩
  · rw [f1]
    exact e1
  · rw [f2]
    exact e2

/-- C19, witness at `mmap(0x7f00a1b2, 4096, 0) = 0x7f00a1b2`. -/
theorem C19_second_pass_amended_witness :
    (isWord "mmap".toList = true ∧
      (∀ a ∈ [Val.addr "7f00a1b2".toList, Val.ident "4096".toList, Val.ident "0".toList],
        a.ok = true) ∧
      [Val.addr "7f00a1b2".toList, Val.ident "4096".toList, Val.ident "0".toList] ≠ [] ∧
      (∀ a, [Val.addr "7f00a1b2".toList, Val.ident "4096".toList,
          Val.ident "0".toList].getLast? = some a → a.isAddr = false) ∧
      (Val.addr "7f00a1b2".toList).ok = true) ∧
    ∃ k, ∀ n, ∃ p1 p2,
      Parser.Parse (k + n) (NewParser "mmap(0x7f00a1b2, 4096, 0) = 0x7f00a1b2\n".toList)
        = some ((some (callLine "mmap".toList ["0x0".toList, "4096".toList, "0".toList]
            " 0x0".toList), none), p1) ∧
      Parser.Parse (k + n) (NewParser
          (OutputLine.Unparse (callLine "mmap".toList
            ["0x0".toList, "4096".toList, "0".toList] " 0x0".toList) ++ ['\n']))
        = some ((some (callLine "mmap".toList ["0x0".toList, "4096".toList, "0".toList]
            "  0x0".toList), none), p2) ∧
      OutputLine.Unparse (callLine "mmap".toList ["0x0".toList, "4096".toList, "0".toList]
          " 0x0".toList)
        = "mmap(0x0, 4096, 0) =  0x0".toList ∧
      OutputLine.Unparse (callLine "mmap".toList ["0x0".toList, "4096".toList, "0".toList]
          "  0x0".toList)
        = "mmap(0x0, 4096, 0) =   0x0".toList :=
  ⟨⟨by decide, by decide, by decide, by simp [Val.isAddr], by decide⟩,
    C19_second_pass_amended "mmap".toList
      [Val.addr "7f00a1b2".toList, Val.ident "4096".toList, Val.ident "0".toList]
      (Val.addr "7f00a1b2".toList) (by decide) (by decide) (by decide)
      (by simp [Val.isAddr]) (by decide)⟩

/-! ## C20: losslessness of the tokens -/

/-- On plain text the tokens are lossless: repeated calls of `Scan` reach `EOF`
and the literals of the tokens before it make up the text. -/
theorem scanAll_plain : ∀ (n : Nat) (t : Str), t.length ≤ n → Plain t →
    ∀ (l : Option Char), ∃ ts, Scanner.scanAll (n + 1) ⟨t, l⟩ = some ts ∧
      (ts.map Prod.snd).flatten = t := by
  intro n
  induction n with
  | zero =>
    intro t hlen _ l
    have : t = [] := List.length_eq_zero.1 (Nat.le_zero.1 hlen)
    subst this
    exact ⟨[], rfl, rfl⟩
  | succ n ih =>
    intro t hlen hp l
    cases t with
    | nil => exact ⟨[], rfl, rfl⟩
    | cons c t1 =>
      obtain ⟨tok, lit, t2, hs, he, hlit, _, _, heof, hp2⟩ :=
        Scans_plain_step c t1 [] hp (Or.inl rfl)
      simp only [List.append_nil] at hs
      obtain ⟨e1, e2⟩ := hs l
      have hlen2 : t2.length ≤ n := by
        have h1 : (c :: t1).length = lit.length + t2.length := by rw [he]; simp
        have h2 : 0 < lit.length := List.length_pos.2 hlit
        omega
      obtain ⟨ts, hts, hj⟩ := ih t2 hlen2 hp2 (Scanner.Scan ⟨c :: t1, l⟩).2.last
      have hs2 : (Scanner.Scan ⟨c :: t1, l⟩).2
          = ⟨t2, (Scanner.Scan ⟨c :: t1, l⟩).2.last⟩ := by
        rw [← e2]
      refine ⟨(tok, lit) :: ts, ?_, ?_⟩
      · have step : ∀ (m : Nat) (s : Scanner), Scanner.scanAll (m + 1) s
            = (if s.Scan.1.1 = Token.EOF then some []
                else (Scanner.scanAll m s.Scan.2).map (fun ts => s.Scan.1 :: ts)) :=
          fun _ _ => rfl
        rw [step, e1]
        simp only [heof, if_false]
        rw [hs2, hts]
        rfl
      · simp [hj, he]

/-- C20, the code at the failing input. The input `--a` contains no NUL and
no `"`; the tokens that `Scan` returns before `EOF` are `ILLEGAL` `-` and
`IDENT` `a`, and their literals make up `-a`, not `--a`: the second dash is
read as lookahead and never pushed back. -/
theorem C20_tokens_lose_a_dash :
    Scanner.scanAll 10 (NewScanner "--a".toList)
      = some [(Token.ILLEGAL, "-".toList), (Token.IDENT, "a".toList)] ∧
    ([(Token.ILLEGAL, "-".toList), (Token.IDENT, "a".toList)].map Prod.snd).flatten
      = "-a".toList ∧
    "-a".toList ≠ "--a".toList ∧
    (∀ c ∈ "--a".toList, c ≠ eof ∧ c ≠ '"') := by
  decide

end Difftrace
